import Mathlib

/-!
Verification of the ODK XLSForm agent core (src/agent.py).

This file shallowly embeds the column/language normalization, merge and
sheet-writing engine of `agent.py` in Lean 4 and proves/refutes the frozen
claims about it.

Modelling conventions:
* Python strings are `List Char` (`Str` below).  The Python functions use
  only ASCII-relevant behaviour of `str.strip`, `str.lower`, `str.isalnum`,
  and the `re` module with ASCII character classes; whitespace is modelled
  as the ASCII whitespace set of `\s` / `str.strip`.
* Python dict rows are association lists with unique keys
  (`Row := List (Str × Str)`); operations mirror dict semantics (update in
  place keeps the key's position, fresh keys append at the end).  A cell
  holding Python `None` is modelled as the empty string: no operation of the
  translated code distinguishes `None` from `""` (both are "blank" in every
  test of the source, and values are otherwise only copied verbatim).
* Python `set` iteration (the `all_keys` set of
  `_normalize_language_columns_and_rows`) is modelled as first-seen order;
  the set order is unspecified in Python, and no claim depends on the order
  in which row-only keys are appended after the declared columns.
* The regexes of the source are translated exactly, including the
  behaviours of non-greedy `.*?`, of `.` not matching a newline, and of `$`
  matching before a single trailing newline.
-/

set_option maxRecDepth 20000

namespace XLSForm

/-- Python strings, modelled as lists of characters. -/
abbrev Str := List Char

/-- Shorthand to write string literals as `Str`. -/
def sl (s : String) : Str := s.toList

/-- ASCII whitespace, the characters matched by `\s` and stripped by
`str.strip()`. -/
def pyWs (c : Char) : Bool :=
  c = ' ' || c = '\t' || c = '\n' || c = '\r' || c = '\x0b' || c = '\x0c'

/-- Python `str.strip()` (ASCII whitespace). -/
def pyStrip (s : Str) : Str :=
  ((s.dropWhile pyWs).reverse.dropWhile pyWs).reverse

/-- ASCII upper-to-lower table. -/
def upperToLower : List (Char × Char) :=
  [('A','a'), ('B','b'), ('C','c'), ('D','d'), ('E','e'), ('F','f'),
   ('G','g'), ('H','h'), ('I','i'), ('J','j'), ('K','k'), ('L','l'),
   ('M','m'), ('N','n'), ('O','o'), ('P','p'), ('Q','q'), ('R','r'),
   ('S','s'), ('T','t'), ('U','u'), ('V','v'), ('W','w'), ('X','x'),
   ('Y','y'), ('Z','z')]

/-- Python `ch.lower()` for one character (ASCII). -/
def pyLowerChar (c : Char) : Char :=
  ((upperToLower.find? (fun p => decide (p.1 = c))).map Prod.snd).getD c

/-- Python `str.lower()` (ASCII). -/
def pyLower (s : Str) : Str := s.map pyLowerChar

/-- `[a-zA-Z]` -/
def isAsciiLetter (c : Char) : Bool :=
  ('a' ≤ c && c ≤ 'z') || ('A' ≤ c && c ≤ 'Z')

/-- `[a-zA-Z0-9]`, also Python `ch.isalnum()` (ASCII fragment). -/
def isAsciiAlnum (c : Char) : Bool :=
  isAsciiLetter c || ('0' ≤ c && c ≤ '9')

/-- Association-list lookup with decidable equality on keys
(Python dict lookup; first match wins). -/
def alookup {α : Type} : List (Str × α) → Str → Option α
  | [], _ => none
  | (k', v) :: rest, k => if k' = k then some v else alookup rest k

/-- `_CANONICAL_LANGUAGE_CODES` of agent.py. -/
def canonicalLanguageCodes : List (Str × Str) :=
  [ (sl "Arabic", sl "ar"), (sl "Bengali", sl "bn"), (sl "Bulgarian", sl "bg"),
    (sl "Chinese", sl "zh"), (sl "Croatian", sl "hr"), (sl "Czech", sl "cs"),
    (sl "Danish", sl "da"), (sl "Dutch", sl "nl"), (sl "English", sl "en"),
    (sl "Finnish", sl "fi"), (sl "French", sl "fr"), (sl "German", sl "de"),
    (sl "Greek", sl "el"), (sl "Hebrew", sl "he"), (sl "Hindi", sl "hi"),
    (sl "Hungarian", sl "hu"), (sl "Indonesian", sl "id"), (sl "Italian", sl "it"),
    (sl "Japanese", sl "ja"), (sl "Korean", sl "ko"), (sl "Malay", sl "ms"),
    (sl "Norwegian", sl "no"), (sl "Persian", sl "fa"), (sl "Polish", sl "pl"),
    (sl "Portuguese", sl "pt"), (sl "Romanian", sl "ro"), (sl "Russian", sl "ru"),
    (sl "Serbian", sl "sr"), (sl "Somali", sl "so"), (sl "Spanish", sl "es"),
    (sl "Swahili", sl "sw"), (sl "Swedish", sl "sv"), (sl "Thai", sl "th"),
    (sl "Turkish", sl "tr"), (sl "Ukrainian", sl "uk"), (sl "Urdu", sl "ur"),
    (sl "Vietnamese", sl "vi") ]

/-- `_LANGUAGE_CODE_MAP`: canonical names lower-cased, then the alias
updates.  The only duplicated key, `"swahili"`, maps to the same code in
both, so first-match lookup over the concatenation models the dict. -/
def languageCodeMap : List (Str × Str) :=
  canonicalLanguageCodes.map (fun p => (pyLower p.1, p.2)) ++
  [ (sl "farsi", sl "fa"), (sl "filipino", sl "fil"), (sl "kiswahili", sl "sw"),
    (sl "mandarin", sl "zh"), (sl "pashto", sl "ps"), (sl "swahili", sl "sw"),
    (sl "tagalog", sl "tl") ]

/-- `_CODE_TO_NAME` (codes are pairwise distinct in the canonical table, so
`setdefault` is a plain reversal). -/
def codeToName : List (Str × Str) :=
  canonicalLanguageCodes.map (fun p => (p.2, p.1))

/-- Index (in `body`) just past the last `')'` of `body`, or `0` when `body`
has no `')'`. -/
def afterLastRparen (body : Str) : Nat :=
  match body.reverse.findIdx? (fun c => decide (c = ')')) with
  | none => 0
  | some j => body.length - j

/-- The match of `^(.*?)(?:\s*\(([^)]+)\))\s*$` on an already-stripped
string: the regex requires the string to end in `)` with a matching `(`
whose enclosed content is non-empty and `)`-free; the non-greedy `.*?`
selects the first such `(`, with the whitespace just before it absorbed by
`\s*`, and the name part cannot span a newline (`.` does not match `\n`).
Returns `(name, code)` groups. -/
def parenParse (lang : Str) : Option (Str × Str) :=
  if lang.getLast? = some ')' then
    let body := lang.dropLast
    let k := afterLastRparen body
    match (body.drop k).findIdx? (fun c => decide (c = '(')) with
    | none => none
    | some j =>
      let i := k + j
      if i + 1 < body.length then
        let nameRaw := ((body.take i).reverse.dropWhile pyWs).reverse
        if '\n' ∈ nameRaw then none
        else some (nameRaw, body.drop (i + 1))
      else none
  else none

/-- Inside a `-[a-zA-Z0-9]{2,8}` segment with `n` alphanumerics consumed:
at a segment boundary (`-` or end) the finished segment must have had 2 to
8 characters. -/
def subtagSegsAux : Str → Nat → Bool
  | [], n => 2 ≤ n && n ≤ 8
  | c :: rest, n =>
    if isAsciiAlnum c then subtagSegsAux rest (n + 1)
    else if c = '-' then (2 ≤ n && n ≤ 8) && subtagSegsAux rest 0
    else false

/-- `(?:-[a-zA-Z0-9]{2,8})*` matched against the whole remaining string. -/
def subtagSegs : Str → Bool
  | [] => true
  | c :: rest => if c = '-' then subtagSegsAux rest 0 else false

/-- `re.fullmatch(r"[a-zA-Z]{2,3}(?:-[a-zA-Z0-9]{2,8})*", lang)`. -/
def isSubtag (lang : Str) : Bool :=
  let pre := lang.takeWhile isAsciiLetter
  (pre.length = 2 || pre.length = 3) && subtagSegs (lang.drop pre.length)

/-- The `(name, code, header)` triple of `_normalize_language_tag`. -/
structure LangTag where
  header : Str
  code : Str
  name : Str
deriving DecidableEq, Repr

/-- `_normalize_language_tag` of agent.py. -/
def normalizeLanguageTag (language : Str) : LangTag :=
  let lang := pyStrip language
  if lang = [] then ⟨[], [], []⟩
  else
    match parenParse lang with
    | some (nameRaw, codeRaw) =>
      let name0 := pyStrip nameRaw
      let code := pyStrip codeRaw
      let ncode := pyLower code
      let name := if name0 = [] then (alookup codeToName ncode).getD ncode else name0
      ⟨name ++ '(' :: (ncode ++ [')']), ncode, name⟩
    | none =>
      match alookup languageCodeMap (pyLower lang) with
      | some code =>
        let name := (alookup codeToName code).getD lang
        ⟨name ++ '(' :: (code ++ [')']), code, name⟩
      | none =>
        if isSubtag lang then
          let code := pyLower lang
          let name := (alookup codeToName code).getD lang
          ⟨name ++ '(' :: (code ++ [')']), code, name⟩
        else
          let safe0 := (lang.filter (fun ch => isAsciiAlnum ch || ch = '-')).map pyLowerChar
          let safe := if safe0 = [] then sl "und" else safe0
          ⟨lang ++ '(' :: (safe ++ [')']), safe, lang⟩

/-- `_normalize_languages`: resolve a list, dropping empty headers and
duplicate headers (first occurrence wins). -/
def normalizeLanguages (languages : List Str) : List LangTag :=
  (languages.foldl (fun acc lang =>
    let entry := normalizeLanguageTag lang
    if entry.header ≠ [] ∧ entry.header ∉ acc.map LangTag.header
    then acc ++ [entry] else acc) [])

/-- The eight user-facing fields, in the order of the source's regex
alternation and of the expansion loop. -/
def userFacingFields : List Str :=
  [sl "label", sl "hint", sl "constraint_message", sl "required_message",
   sl "guidance_hint", sl "image", sl "audio", sl "video"]

/-- The five text fields (fallback-filled). -/
def textFields : List Str :=
  [sl "label", sl "hint", sl "constraint_message", sl "required_message",
   sl "guidance_hint"]

/-- Split `col` as `<field>::<rest>` for one of the eight user-facing
fields (the regex alternation; at most one field can match since no field
name is a prefix of another). -/
def fieldSplitAux : List Str → Str → Option (Str × Str)
  | [], _ => none
  | f :: fs, col =>
    if (f ++ sl "::") <+: col then some (f, col.drop (f ++ sl "::").length)
    else fieldSplitAux fs col

def fieldSplit (col : Str) : Option (Str × Str) :=
  fieldSplitAux userFacingFields col

/-- Remove a single trailing newline (the position where `$` may match). -/
def dropTrailingNl (s : Str) : Str :=
  if s.getLast? = some '\n' then s.dropLast else s

/-- `_normalize_language_column_name`: rewrite `<field>::<langpart>` to
`<field>::<canonical header>`.  The regex `^(fields)::\s*(.+)$` matches when
after an optional final newline and the leading whitespace there remains a
non-empty newline-free language part (when only whitespace remains the
resolved header is empty and the column is returned unchanged, which
coincides with the no-match case). -/
def normalizeLanguageColumnName (col : Str) : Str :=
  match fieldSplit col with
  | none => col
  | some (f, rest) =>
    let g := (dropTrailingNl rest).dropWhile pyWs
    if g = [] ∨ '\n' ∈ g then col
    else
      let h := (normalizeLanguageTag g).header
      if h = [] then col else f ++ sl "::" ++ h

/-- The language header contributed by a column to
`_language_headers_from_columns` (regex `^(fields)::(.+)$`, group 2
stripped, empty results dropped). -/
def columnHeader? (col : Str) : Option Str :=
  match fieldSplit col with
  | none => none
  | some (_, rest) =>
    let core := dropTrailingNl rest
    if core = [] ∨ '\n' ∈ core then none
    else
      let h := pyStrip core
      if h = [] then none else some h

/-- The language header of a column restricted to one field: `col` is a
language variant of `f` (in the sense of the header-extraction pattern)
with header `h`. -/
def variantHeader? (f : Str) (col : Str) : Option Str :=
  match fieldSplit col with
  | none => none
  | some (g, rest) =>
    if g = f then
      let core := dropTrailingNl rest
      if core = [] ∨ '\n' ∈ core then none
      else
        let h := pyStrip core
        if h = [] then none else some h
    else none

/-- One step of `_language_headers_from_columns`: append a column's header
when it is new. -/
def collectHeader (acc : List Str) (col : Str) : List Str :=
  match columnHeader? col with
  | some h => if h ∈ acc then acc else acc ++ [h]
  | none => acc

/-- `_language_headers_from_columns`. -/
def languageHeadersFromColumns (cols : List Str) : List Str :=
  cols.foldl collectHeader []

/-! ## Rows as Python dicts -/

/-- A row: a Python dict from column name to scalar value, as an
association list in insertion order with unique keys. -/
abbrev Row := List (Str × Str)

/-- `row.get(k)` (`none` = key absent, which Python reports as `None`). -/
def rowGet (r : Row) (k : Str) : Option Str :=
  (r.find? (fun p => decide (p.1 = k))).map Prod.snd

/-- The keys of a row, in insertion order. -/
def rowKeys (r : Row) : List Str := r.map Prod.fst

/-- Membership in the blank-value tuple `(None, "", " ")` for a stored
value. -/
def emptyishV (v : Str) : Bool := v = [] || v = [' ']

/-- Blank test for a `row.get` result (`None`, `""` or `" "`). -/
def emptyish : Option Str → Bool
  | none => true
  | some v => emptyishV v

/-- `row[k] = v`: replace the value at the first occurrence of `k` keeping
its position, else append the fresh key at the end (dict semantics). -/
def rowSet : Row → Str → Str → Row
  | [], k, v => [(k, v)]
  | (k', v') :: rest, k, v =>
    if k' = k then (k, v) :: rest else (k', v') :: rowSet rest k v

/-- `row.pop(k, None)`: drop the key. -/
def rowErase (r : Row) (k : Str) : Row :=
  r.filter (fun p => decide (p.1 ≠ k))

/-! ## `_normalize_language_columns_and_rows` -/

/-- Short local name for `_normalize_language_column_name`. -/
abbrev nk := normalizeLanguageColumnName

/-- Append each element of `ks` not already present (first-seen
deduplication). -/
def dedupAppend (base : List Str) (ks : List Str) : List Str :=
  ks.foldl (fun acc k => if k ∈ acc then acc else acc ++ [k]) base

/-- The `all_keys` set: declared columns united with every row key
(modelled in first-seen order). -/
def allKeysOf (columns : List Str) (rows : List Row) : List Str :=
  dedupAppend [] (columns ++ (rows.map rowKeys).flatten)

/-- Rebuilding one row under the key mapping `nk`, with the source's
collision policy: an already-present target key keeps its value unless it
is blank and the new value is not. -/
def rebuildStep (acc : Row) (kv : Str × Str) : Row :=
  match rowGet acc (nk kv.1) with
  | some cur =>
    if emptyishV cur && !(emptyishV kv.2) then rowSet acc (nk kv.1) kv.2 else acc
  | none => acc ++ [(nk kv.1, kv.2)]

/-- Rebuilding one row under the key mapping `nk`, with the source's
collision policy: an already-present target key keeps its value unless it
is blank and the new value is not. -/
def rebuildRow (r : Row) : Row :=
  r.foldl rebuildStep []

/-- The renamed, deduplicated column list: declared columns first, then any
normalized keys present only in row data. -/
def phaseACols (columns : List Str) (rows : List Row) : List Str :=
  dedupAppend (dedupAppend [] (columns.map nk)) ((allKeysOf columns rows).map nk)

/-- The column update of one field's expansion: remove the existing active
language variants, re-insert the full variant block at the position of the
first variant (or append when only the bare column was present), then drop
the bare column. -/
def expandCols (langCols : List Str) (f : Str) (cols : List Str) : List Str :=
  let removed := cols.filter (fun c => decide (c ∉ langCols))
  let inserted :=
    match cols.findIdx? (fun c => decide (c ∈ langCols)) with
    | some i => removed.take i ++ langCols ++ removed.drop i
    | none => removed ++ langCols
  inserted.filter (fun c => decide (c ≠ f))

/-- The first non-blank value of `r` under `keys`, scanned in order with
early exit (the fallback scan of the fill loop). -/
def firstNonBlank (r : Row) : List Str → Option Str
  | [] => none
  | k :: keys =>
    match rowGet r k with
    | some v => if emptyishV v then firstNonBlank r keys else some v
    | none => firstNonBlank r keys

/-- The fallback fill of one text field on one row: the fallback is the
first non-blank value among the variant columns (in header order) and then
the bare field; every blank variant cell is filled with it. -/
def fillLoop (v : Str) (langCols : List Str) (r : Row) : Row :=
  langCols.foldl (fun acc c =>
    if emptyish (rowGet acc c) then rowSet acc c v else acc) r

/-- The fallback fill of one text field on one row: the fallback is the
first non-blank value among the variant columns (in header order) and then
the bare field; every blank variant cell is filled with it. -/
def fillRow (langCols : List Str) (f : Str) (r : Row) : Row :=
  match firstNonBlank r (langCols ++ [f]) with
  | none => r
  | some v => fillLoop v langCols r

/-- One field's per-row update: fallback fill (text fields only) then
dropping the bare field key. -/
def expandRowStep (isText : Bool) (langCols : List Str) (f : Str) (r : Row) : Row :=
  rowErase (if isText then fillRow langCols f r else r) f

/-- `field_present`: the bare field or one of its active-language variants
occurs among the current columns. -/
def fieldPresent (f : Str) (hs : List Str) (cols : List Str) : Bool :=
  decide (f ∈ cols) ||
    (hs.map (fun h => f ++ sl "::" ++ h)).any (fun c => decide (c ∈ cols))

/-- One iteration of the expansion loop over a user-facing field. -/
def expandStep (hs : List Str) (st : List Str × List Row) (f : Str) :
    List Str × List Row :=
  let langCols := hs.map (fun h => f ++ sl "::" ++ h)
  if fieldPresent f hs st.1 then
    (expandCols langCols f st.1,
     st.2.map (expandRowStep (decide (f ∈ textFields)) langCols f))
  else st

/-- `_normalize_language_columns_and_rows` of agent.py. -/
def normalizeLanguageColumnsAndRows (columns : List Str) (rows : List Row) :
    List Str × List Row :=
  let cols2 := phaseACols columns rows
  let rows1 := rows.map rebuildRow
  let hs := languageHeadersFromColumns cols2
  if hs = [] then (cols2, rows1)
  else userFacingFields.foldl (expandStep hs) (cols2, rows1)

/-! ## Sheet writing: column pruning (`_columns_with_data`, `_write_sheet`) -/

/-- `_LANG_COL_RE`: `^(fields)::.+` via `re.match` — a prefix match needing
one character after `::` that is not a newline. -/
def langColRe (col : Str) : Bool :=
  match fieldSplit col with
  | none => false
  | some (_, rest) =>
    match rest with
    | [] => false
    | c :: _ => decide (c ≠ '\n')

/-- `_columns_with_data`: with at least one row, keep a column iff it
matches the language-bearing pattern or some row has a non-blank value in
it; with no rows, keep everything. -/
def columnsWithData (columns : List Str) (rows : List Row) : List Str :=
  if rows = [] then columns
  else columns.filter (fun col =>
    langColRe col || rows.any (fun row => !(emptyish (rowGet row col))))

/-- The header row written by `_write_sheet`. -/
def writeSheetHeader (columns : List Str) (rows : List Row) : List Str :=
  columnsWithData columns rows

/-! ## Preferred orders, column inference, `_prepare_sheet` -/

def surveyPreferredOrder : List Str :=
  [sl "type", sl "name", sl "label", sl "hint", sl "required", sl "relevant",
   sl "appearance", sl "default", sl "constraint", sl "constraint_message",
   sl "calculation", sl "choice_filter", sl "repeat_count", sl "autoplay",
   sl "image", sl "audio", sl "video"]

def choicesPreferredOrder : List Str :=
  [sl "list_name", sl "name", sl "label", sl "choice_filter"]

def settingsPreferredOrder : List Str :=
  [sl "form_title", sl "form_id", sl "default_language", sl "version",
   sl "public_key", sl "submission_url", sl "instance_name"]

/-- `_PREFERRED_COLUMN_ORDER`, keyed by lower-cased sheet name. -/
def preferredColumnOrder (sheetName : Str) : Option (List Str) :=
  if pyLower sheetName = sl "survey" then some surveyPreferredOrder
  else if pyLower sheetName = sl "choices" then some choicesPreferredOrder
  else if pyLower sheetName = sl "settings" then some settingsPreferredOrder
  else none

/-- `_infer_columns`: first-seen union of row keys, fronted by the
preferred columns among them. -/
def inferColumns (rows : List Row) (preferred : Option (List Str)) : List Str :=
  let seen := dedupAppend [] (rows.map rowKeys).flatten
  match preferred with
  | some pref =>
    let ordered := pref.filter (fun c => decide (c ∈ seen))
    ordered ++ seen.filter (fun c => decide (c ∉ ordered))
  | none => seen

/-- The preferred-order pass of `write_xlsform._prepare_sheet`: place each
present preferred column followed by its language variants (in their
current relative order), then everything not yet placed. -/
def orderWithLangVariants (preferred : List Str) (columns : List Str) : List Str :=
  let placed := preferred.foldl (fun (acc : List Str) prefCol =>
    let acc1 := if prefCol ∈ columns ∧ prefCol ∉ acc then acc ++ [prefCol] else acc
    acc1 ++ columns.filter (fun c =>
      decide ((prefCol ++ sl "::") <+: c) && decide (c ∉ acc1))) []
  placed ++ columns.filter (fun c => decide (c ∉ placed))

/-- `write_xlsform._prepare_sheet`: resolve the column list (declared,
else inferred, else the hard-coded minimum), normalize language columns,
then apply preferred ordering. -/
def prepareSheet (sheetName : Str) (columns : List Str) (rows : List Row) :
    List Str × List Row :=
  let cols0 := if columns = [] then inferColumns rows (preferredColumnOrder sheetName)
               else columns
  let cols1 :=
    if cols0 = [] then
      if pyLower sheetName = sl "survey" then [sl "type", sl "name", sl "label"]
      else [sl "name", sl "label"]
    else cols0
  let (cols2, rows2) := normalizeLanguageColumnsAndRows cols1 rows
  match preferredColumnOrder sheetName with
  | some pref => (orderWithLangVariants pref cols2, rows2)
  | none => (cols2, rows2)

/-! ## Form specs and `_normalize_form_spec` (value level) -/

/-- One sheet in the canonical `{columns, rows}` shape. -/
structure SheetData where
  columns : List Str
  rows : List Row
deriving DecidableEq, Repr

/-- A sheet value as handed to `_normalize_form_spec`: either a bare list
of rows, or an object with optional `columns` / `headers` / `rows`. -/
inductive SheetVal where
  | rowList (rows : List Row)
  | obj (columns : Option (List Str)) (headers : Option (List Str))
        (rows : Option (List Row))
deriving DecidableEq, Repr

/-- Python truthiness for the `columns or headers or []` chain. -/
def firstTruthyList (xs : List (Option (List Str))) : List Str :=
  match xs with
  | [] => []
  | x :: rest =>
    match x with
    | some l => if l = [] then firstTruthyList rest else l
    | none => firstTruthyList rest

/-- The per-sheet coercion of `_normalize_form_spec` (the surrounding
`{"sheets": ...}` unwrapping is an input-shape dispatch, elided by taking
the sheet mapping directly). -/
def normalizeSheetVal : SheetVal → SheetData
  | .rowList rows => ⟨[], rows⟩
  | .obj cols hdrs rows =>
    ⟨firstTruthyList [cols, hdrs],
     match rows with
     | some rs => rs
     | none => []⟩

/-- `_normalize_form_spec` over a sheet mapping. -/
def normalizeFormSpec (sheets : List (Str × SheetVal)) : List (Str × SheetData) :=
  sheets.map (fun p => (p.1, normalizeSheetVal p.2))

/-! ## `merge_form_spec` -/

/-- Python truthiness of `row.get("name")`: present and non-empty. -/
def rowName? (r : Row) : Option Str :=
  match rowGet r (sl "name") with
  | some n => if n = [] then none else some n
  | none => none

/-- The names present among a sheet's rows (`existing_names`). -/
def truthyNames (rows : List Row) : List Str :=
  rows.filterMap rowName?

/-- State of the row-merge loop of `merge_form_spec`. -/
structure MergeState where
  rows : List Row
  existing : List Str
  added : List Str
  skipped : List Str
deriving Repr

/-- The body of the row-merge loop. -/
def mergeRowStep (dedupe : Bool) (st : MergeState) (row : Row) : MergeState :=
  match rowName? row with
  | some n =>
    if dedupe && decide (n ∈ st.existing) then
      { st with skipped := st.skipped ++ [n] }
    else
      { st with rows := st.rows ++ [row], existing := st.existing ++ [n],
                added := st.added ++ [n] }
  | none => { st with rows := st.rows ++ [row] }

/-- The whole row merge of one sheet: base rows, then each addition row
accepted or skipped with the existing-name set growing incrementally. -/
def mergeSheetRows (dedupe : Bool) (baseRows : List Row) (addRows : List Row) :
    MergeState :=
  addRows.foldl (mergeRowStep dedupe)
    ⟨baseRows, truthyNames baseRows, [], []⟩

/-- The column merge of one sheet: union preserving base order, then the
preferred reordering used by `merge_form_spec` (no language interleaving
here, unlike the write path). -/
def mergeSheetCols (sheetName : Str) (baseCols : List Str) (addCols : List Str) :
    List Str :=
  let columns := dedupAppend baseCols addCols
  match preferredColumnOrder sheetName with
  | some pref =>
    let ordered := pref.filter (fun c => decide (c ∈ columns))
    ordered ++ columns.filter (fun c => decide (c ∉ ordered))
  | none => columns

/-- Per-sheet summary entry of `merge_form_spec`. -/
structure MergeSummary where
  added : List (Str × List Str)
  skipped : List (Str × List Str)
deriving Repr

/-- One iteration of `merge_form_spec`'s sheet loop: `setdefault` the base
sheet, merge rows and columns, record the summary entry. -/
def mergeSheetStep (dedupe : Bool) (st : List (Str × SheetData) × MergeSummary)
    (sheet : Str × SheetData) : List (Str × SheetData) × MergeSummary :=
  let name := sheet.1
  let baseSheet := (alookup st.1 name).getD ⟨[], []⟩
  let merged := mergeSheetRows dedupe baseSheet.rows sheet.2.rows
  let newSheet : SheetData :=
    ⟨mergeSheetCols name baseSheet.columns sheet.2.columns, merged.rows⟩
  let specs :=
    if (alookup st.1 name).isSome
    then st.1.map (fun p => if p.1 = name then (name, newSheet) else p)
    else st.1 ++ [(name, newSheet)]
  (specs,
   ⟨st.2.added ++ [(name, merged.added)], st.2.skipped ++ [(name, merged.skipped)]⟩)

/-- `merge_form_spec` over normalized specs: fold the addition's sheets
into the base (creating missing sheets empty), collecting the added and
skipped name lists per sheet. -/
def mergeFormSpec (dedupe : Bool) (base addition : List (Str × SheetData)) :
    List (Str × SheetData) × MergeSummary :=
  addition.foldl (mergeSheetStep dedupe) (base, ⟨[], []⟩)

/-! ## `new_form_spec` -/

/-- `_safe_form_id`: lower alphanumerics, everything else to `_`, strip and
collapse underscores, defaulting to `odk_form`. -/
def safeFormId (title : Str) : Str :=
  let cleaned := title.map (fun ch => if isAsciiAlnum ch then pyLowerChar ch else '_')
  let stripped := ((cleaned.dropWhile (· = '_')).reverse.dropWhile (· = '_')).reverse
  let parts := (stripped.splitOn '_').filter (fun p => decide (p ≠ []))
  let joined := (parts.intersperse (sl "_")).flatten
  if joined = [] then sl "odk_form" else joined

/-- Replace the slice `[idx, idx+1)` of a list by `repl`
(`col_list[idx:idx+1] = lang_cols` in `new_form_spec`). -/
def spliceAt (l : List Str) (idx : Nat) (repl : List Str) : List Str :=
  l.take idx ++ repl ++ l.drop (idx + 1)

/-- `new_form_spec`.  `version` stands for the caller-supplied version or
the `datetime.now()` timestamp, and `formId?` for the optional explicit
form id; neither affects any claim. -/
def newFormSpec (formTitle : Str) (formId? : Option Str)
    (defaultLanguage : Str) (languages : List Str) (version : Str)
    (submissionUrl : Option Str) (publicKey : Option Str) :
    List (Str × SheetData) :=
  let formId := match formId? with
    | some fid => if fid = [] then safeFormId formTitle else fid
    | none => safeFormId formTitle
  let normalizedLanguages := normalizeLanguages languages
  let languageHeaders := normalizedLanguages.map LangTag.header
  let surveyCols0 := surveyPreferredOrder
  let choicesCols0 := choicesPreferredOrder
  let defaultLang :=
    if languageHeaders = [] then defaultLanguage
    else languageHeaders.headD []
  let langLabelCols := languageHeaders.map (fun lang => sl "label::" ++ lang)
  let surveyCols :=
    if languageHeaders = [] then surveyCols0
    else spliceAt surveyCols0 ((surveyCols0.findIdx (fun c => c = sl "label"))) langLabelCols
  let choicesCols :=
    if languageHeaders = [] then choicesCols0
    else spliceAt choicesCols0 ((choicesCols0.findIdx (fun c => c = sl "label"))) langLabelCols
  let labelPairs := fun (text : Str) =>
    languageHeaders.map (fun lang => (sl "label::" ++ lang, text))
  let surveyRows : List Row :=
    if languageHeaders = [] then []
    else [ (sl "type", sl "select_one form_language") ::
           (sl "name", sl "form_language") ::
           labelPairs (sl "Select your preferred language") ++
           [(sl "required", sl "yes")] ]
  let choicesRows : List Row :=
    if languageHeaders = [] then []
    else normalizedLanguages.map (fun entry =>
      let langValue := if entry.code = [] then safeFormId entry.header else entry.code
      (sl "list_name", sl "form_language") :: (sl "name", langValue) ::
      labelPairs entry.name)
  [ (sl "survey", ⟨surveyCols, surveyRows⟩),
    (sl "choices", ⟨choicesCols, choicesRows⟩),
    (sl "settings",
     ⟨settingsPreferredOrder,
      [[ (sl "form_title", formTitle), (sl "form_id", formId),
         (sl "default_language", defaultLang), (sl "version", version),
         (sl "submission_url", submissionUrl.getD []),
         (sl "public_key", publicKey.getD []) ]]⟩) ]

/-! ## `write_xlsform` (value level)

The workbook base is modelled as absent (the offline / blank-`Workbook()`
path), so the written sheets are exactly the workbook's sheets.  File I/O
(paths, saving) is out of scope; `output_path` is carried through
verbatim. -/

/-- The survey languages recorded while preparing sheets: the language
headers of the prepared columns of each sheet whose lower-cased name is
`survey` (the last one wins, as with repeated assignment). -/
def surveyLanguagesOf (spec : List (Str × SheetData)) : List Str :=
  (spec.filter (fun p => decide (pyLower p.1 = sl "survey"))).foldl
    (fun _ p => languageHeadersFromColumns (prepareSheet p.1 p.2.columns p.2.rows).1)
    []

/-- The settings-sheet preparation: default `default_language` to the first
survey language on rows lacking a truthy value, then normalize language
columns. -/
def prepareSettings (st : SheetData) (surveyLangs : List Str) :
    List Str × List Row :=
  let rows :=
    match surveyLangs with
    | [] => st.rows
    | l :: _ =>
      st.rows.map (fun row =>
        match rowGet row (sl "default_language") with
        | some v => if v = [] then rowSet row (sl "default_language") l else row
        | none => rowSet row (sl "default_language") l)
  let cols := if st.columns = [] then settingsPreferredOrder else st.columns
  normalizeLanguageColumnsAndRows cols rows

/-- The `(columns, rows)` pairs written per sheet, in workbook order:
non-settings sheets in spec order, then the sheet literally named
`"settings"` (note the asymmetry of the source: the skip test lower-cases
the name, the settings lookup does not). -/
def normalizedSheets (spec : List (Str × SheetData)) :
    List (Str × (List Str × List Row)) :=
  (spec.filter (fun p => decide (pyLower p.1 ≠ sl "settings"))).map
    (fun p => (p.1, prepareSheet p.1 p.2.columns p.2.rows)) ++
  (match alookup spec (sl "settings") with
   | some st => [(sl "settings", prepareSettings st (surveyLanguagesOf spec))]
   | none => [])

/-- The return value of `write_xlsform`: output path, workbook sheet
names, and the input spec's per-sheet row counts — nothing else. -/
structure WriteSummary where
  outputPath : Str
  sheetNames : List Str
  rowCounts : List (Str × Nat)
deriving DecidableEq, Repr

/-- `write_xlsform`'s returned summary (blank workbook base). -/
def writeXlsformSummary (spec : List (Str × SheetData)) (outputPath : Str) :
    WriteSummary :=
  let written := (normalizedSheets spec).map Prod.fst
  ⟨outputPath, written,
   written.map (fun n => (n, ((alookup spec n).map (fun s => s.rows.length)).getD 0))⟩

/-- The header actually written for a sheet, and the declared-but-pruned
columns, for inspection of what the summary does not report. -/
def writtenHeaderOf (spec : List (Str × SheetData)) (name : Str) : List Str :=
  match alookup (normalizedSheets spec) name with
  | some (cols, rows) => writeSheetHeader cols rows
  | none => []

def prunedColumnsOf (spec : List (Str × SheetData)) (name : Str) : List Str :=
  match alookup (normalizedSheets spec) name with
  | some (cols, rows) => cols.filter (fun c => decide (c ∉ writeSheetHeader cols rows))
  | none => []

/-! ## Aliasing model for the Spec Normalizer (claim C4)

Row dicts live in a heap addressed by natural numbers; a sheet holds
references to its rows.  `_normalize_form_spec` copies the sheet structure
and the row **lists** (`list(rows)`) but not the row dicts, so the
references survive; `write_xlsform` then writes `default_language` through
those references. -/

abbrev Addr := Nat

/-- The heap of row dicts. -/
structure Heap where
  cells : List Row
deriving Repr

def Heap.get (h : Heap) (a : Addr) : Row := (h.cells.getD a [])

def Heap.set (h : Heap) (a : Addr) (r : Row) : Heap :=
  ⟨h.cells.set a r⟩

/-- A sheet as `write_xlsform` sees it: columns by value, rows by
reference. -/
structure SheetRef where
  columns : List Str
  rowRefs : List Addr
deriving DecidableEq, Repr

/-- `_normalize_form_spec` on reference sheets: a fresh mapping of fresh
`{columns: list(columns), rows: list(rows)}` objects — the row references
are copied, not the rows. -/
def normalizeFormSpecRef (sheets : List (Str × SheetRef)) : List (Str × SheetRef) :=
  sheets.map (fun p => (p.1, ⟨p.2.columns, p.2.rowRefs⟩))

/-- The `default_language` defaulting of `write_xlsform` (lines 884-890),
acting on the heap through the normalized spec's row references. -/
def writeSettingsDefaulting (spec : List (Str × SheetRef)) (surveyLangs : List Str)
    (heap : Heap) : Heap :=
  match alookup spec (sl "settings") with
  | none => heap
  | some st =>
    match surveyLangs with
    | [] => heap
    | l :: _ =>
      st.rowRefs.foldl (fun h a =>
        let row := h.get a
        match rowGet row (sl "default_language") with
        | some v => if v = [] then h.set a (rowSet row (sl "default_language") l) else h
        | none => h.set a (rowSet row (sl "default_language") l)) heap

/-! ## Reference formulation of the row merge (claim C3's wording)

A second definition written from the claim's words, to be compared with
the translation of the source: a row is kept unless it has a non-empty
name already among the base names or the names accepted earlier in the
same call; skipped names and accepted names are reported. -/

def refMergeRows (existing : List Str) : List Row → List Row × List Str × List Str
  | [] => ([], [], [])
  | r :: rest =>
    match rowName? r with
    | some n =>
      if n ∈ existing then
        let (k, a, s) := refMergeRows existing rest
        (k, a, n :: s)
      else
        let (k, a, s) := refMergeRows (existing ++ [n]) rest
        (r :: k, n :: a, s)
    | none =>
      let (k, a, s) := refMergeRows existing rest
      (r :: k, a, s)

/-- The spec used by claim C8's scenario. -/
def healthSurveySpec (version : Str) : List (Str × SheetData) :=
  newFormSpec (sl "Health Survey") none (sl "English")
    [sl "English", sl "French"] version none none

/-- Claim C4's failing input: the caller's form spec (by reference) and the
heap holding its single settings row, which lacks `default_language`. -/
def c4CallerSheets : List (Str × SheetRef) :=
  [(sl "survey", ⟨[sl "type", sl "name", sl "label::English (en)"], []⟩),
   (sl "settings", ⟨settingsPreferredOrder, [0]⟩)]

def c4CallerHeap : Heap := ⟨[[(sl "form_title", sl "T")]]⟩

/-- Claim C6's counterexample pair: identical sheets except that the first
declares an all-blank `hint` column (which gets pruned). -/
def c6SpecWithEmptyHint : List (Str × SheetData) :=
  [(sl "survey", ⟨[sl "type", sl "name", sl "hint"],
                  [[(sl "type", sl "text"), (sl "name", sl "q")]]⟩)]

def c6SpecWithoutHint : List (Str × SheetData) :=
  [(sl "survey", ⟨[sl "type", sl "name"],
                  [[(sl "type", sl "text"), (sl "name", sl "q")]]⟩)]

/-! # Helper lemmas -/

/-! ## Proof-infrastructure definitions over the normalizer -/

/-- The well-formedness facts holding of every collected language header. -/
def headerOk (h : Str) : Prop :=
  h ≠ [] ∧ pyStrip h = h ∧ '\n' ∉ h ∧ h.getLast? ≠ some '\n'

/-- The column part of one expansion-loop iteration. -/
def colStep (hs : List Str) (cols : List Str) (f : Str) : List Str :=
  if fieldPresent f hs cols then
    expandCols (hs.map (fun h => f ++ sl "::" ++ h)) f cols
  else cols

/-- The row part of one expansion-loop iteration (conditions read off the
column state entering the iteration). -/
def rowStep (hs : List Str) (cols : List Str) (f : Str) (r : Row) : Row :=
  if fieldPresent f hs cols then
    expandRowStep (decide (f ∈ textFields)) (hs.map (fun h => f ++ sl "::" ++ h)) f r
  else r

/-- The column state after expanding a list of fields in order. -/
def colsFold (hs : List Str) : List Str → List Str → List Str
  | [], cols => cols
  | g :: gs, cols => colsFold hs gs (colStep hs cols g)

/-- The effect of the whole expansion loop on one row. -/
def fieldFold (hs : List Str) : List Str → List Str → Row → Row
  | [], _, r => r
  | g :: gs, cols, r => fieldFold hs gs (colStep hs cols g) (rowStep hs cols g r)

lemma expandStep_snd_nil (hs : List Str) (c : List Str) (f : Str) :
    (expandStep hs (c, []) f).2 = [] := by
  unfold expandStep
  by_cases h : fieldPresent f hs c = true
  · simp [h]
  · simp [h]

lemma expandFold_snd_nil (hs : List Str) :
    ∀ (fs : List Str) (c : List Str), (fs.foldl (expandStep hs) (c, [])).2 = [] := by
  intro fs
  induction fs with
  | nil => intro c; rfl
  | cons f fs ih =>
    intro c
    simp only [List.foldl_cons]
    have h := expandStep_snd_nil hs c f
    rcases hst : expandStep hs (c, []) f with ⟨c2, rs⟩
    rw [hst] at h
    simp only at h
    subst h
    exact ih c2

lemma normalize_snd_of_rows_nil (cols : List Str) :
    (normalizeLanguageColumnsAndRows cols []).2 = [] := by
  unfold normalizeLanguageColumnsAndRows
  simp only [List.map_nil]
  split
  · rfl
  · exact expandFold_snd_nil _ _ _

lemma prepareSheet_snd_of_rows_nil (name : Str) (cols : List Str) :
    (prepareSheet name cols []).2 = [] := by
  have key : ∀ (c1 : List Str),
      ((match normalizeLanguageColumnsAndRows c1 [] with
        | (cols2, rows2) =>
          match preferredColumnOrder name with
          | some pref => (orderWithLangVariants pref cols2, rows2)
          | none => (cols2, rows2)) : List Str × List Row).2 = [] := by
    intro c1
    rcases h : normalizeLanguageColumnsAndRows c1 [] with ⟨c2, r2⟩
    have h2 := normalize_snd_of_rows_nil c1
    rw [h] at h2
    simp only at h2
    subst h2
    cases preferredColumnOrder name <;> rfl
  unfold prepareSheet
  exact key _

lemma rowName?_ne_nil {r : Row} {n : Str} (h : rowName? r = some n) : n ≠ [] := by
  unfold rowName? at h
  cases hg : rowGet r (sl "name") with
  | none => rw [hg] at h; exact absurd h (by simp)
  | some m =>
    rw [hg] at h
    dsimp only at h
    by_cases hm : m = []
    · rw [if_pos hm] at h; exact absurd h (by simp)
    · rw [if_neg hm] at h
      simp only [Option.some.injEq] at h
      exact h ▸ hm

lemma mergeFold_length (dedupe : Bool) :
    ∀ (addRows : List Row) (st : MergeState),
      (addRows.foldl (mergeRowStep dedupe) st).rows.length
        + (addRows.foldl (mergeRowStep dedupe) st).skipped.length
        = st.rows.length + st.skipped.length + addRows.length := by
  intro addRows
  induction addRows with
  | nil => intro st; simp
  | cons a rest ih =>
    intro st
    simp only [List.foldl_cons, List.length_cons]
    rw [ih]
    unfold mergeRowStep
    cases rowName? a with
    | some n =>
      dsimp only
      by_cases hd : (dedupe && decide (n ∈ st.existing)) = true
      · rw [if_pos hd]; simp; omega
      · rw [if_neg hd]; simp; omega
    | none => dsimp only; simp; omega

lemma mergeFold_count {r : Row} (hname : rowName? r = none) (dedupe : Bool) :
    ∀ (addRows : List Row) (st : MergeState),
      (addRows.foldl (mergeRowStep dedupe) st).rows.count r
        = st.rows.count r + addRows.count r := by
  intro addRows
  induction addRows with
  | nil => intro st; simp
  | cons a rest ih =>
    intro st
    simp only [List.foldl_cons, List.count_cons, beq_iff_eq]
    rw [ih]
    unfold mergeRowStep
    cases ha : rowName? a with
    | some n =>
      dsimp only
      by_cases hd : (dedupe && decide (n ∈ st.existing)) = true
      · rw [if_pos hd]
        have hra : ¬ a = r := by
          intro h
          subst h
          rw [hname] at ha
          exact Option.noConfusion ha
        simp [hra]
      · rw [if_neg hd]
        simp only [List.count_append]
        have h1 : ([a].count r) = if a = r then 1 else 0 := by
          simp [List.count_cons]
        rw [h1]
        omega
    | none =>
      dsimp only
      simp only [List.count_append]
      have h1 : ([a].count r) = if a = r then 1 else 0 := by
        simp [List.count_cons]
      rw [h1]
      omega

lemma mergeFold_no_empty_names (dedupe : Bool) :
    ∀ (addRows : List Row) (st : MergeState),
      [] ∉ st.added → [] ∉ st.skipped →
      [] ∉ (addRows.foldl (mergeRowStep dedupe) st).added ∧
      [] ∉ (addRows.foldl (mergeRowStep dedupe) st).skipped := by
  intro addRows
  induction addRows with
  | nil => intro st h1 h2; exact ⟨h1, h2⟩
  | cons a rest ih =>
    intro st h1 h2
    simp only [List.foldl_cons]
    unfold mergeRowStep
    cases ha : rowName? a with
    | some n =>
      dsimp only
      have hn := rowName?_ne_nil ha
      by_cases hd : (dedupe && decide (n ∈ st.existing)) = true
      · rw [if_pos hd]
        exact ih _ h1 (by simp [h2, Ne.symm hn])
      · rw [if_neg hd]
        exact ih _ (by simp [h1, Ne.symm hn]) h2
    | none => exact ih _ h1 h2

/-! # Claim theorems (first batch) -/

/-- C9: if a sheet's row list is empty, no column pruning happens when
writing it — the written header equals the full normalized and ordered
column list produced by sheet preparation. -/
theorem empty_rows_keep_full_header (name : Str) (cols : List Str) :
    (prepareSheet name cols []).2 = [] ∧
    writeSheetHeader (prepareSheet name cols []).1 (prepareSheet name cols []).2
      = (prepareSheet name cols []).1 := by
  have h := prepareSheet_snd_of_rows_nil name cols
  refine ⟨h, ?_⟩
  rw [h]
  rfl

/-- C7: language tag resolution is total (every non-blank input gets a
non-empty header, and blank input is mapped to the empty triple rather
than an error) and canonicalizing: `"French (fr)"`, `"french"` and `"fr"`
all resolve to the header `"French(fr)"`, and the unrecognized `"Klingon"`
resolves to `"Klingon(klingon)"`. -/
theorem language_tag_resolution_total_and_canonical :
    (∀ s : Str, pyStrip s = [] ∨ (normalizeLanguageTag s).header ≠ []) ∧
    (normalizeLanguageTag (sl "French (fr)")).header = sl "French(fr)" ∧
    (normalizeLanguageTag (sl "french")).header = sl "French(fr)" ∧
    (normalizeLanguageTag (sl "fr")).header = sl "French(fr)" ∧
    (normalizeLanguageTag (sl "Klingon")).header = sl "Klingon(klingon)" := by
  refine ⟨fun s => ?_, by decide, by decide, by decide, by decide⟩
  by_cases h : pyStrip s = []
  · exact Or.inl h
  · refine Or.inr ?_
    unfold normalizeLanguageTag
    rw [if_neg h]
    split
    · simp
    · split
      · simp
      · split
        · simp
        · simp

/-- C5: when writing a sheet with at least one row, a declared column
appears in the written header iff it matches the language-bearing pattern
or some row holds a non-blank value under it; surviving columns keep their
relative order (the header is a sublist of the declared columns). -/
theorem written_header_characterization (cols : List Str) (rows : List Row)
    (hrows : rows ≠ []) :
    (∀ c, c ∈ writeSheetHeader cols rows ↔
        c ∈ cols ∧ (langColRe c = true ∨ ∃ r ∈ rows, emptyish (rowGet r c) = false)) ∧
    List.Sublist (writeSheetHeader cols rows) cols := by
  unfold writeSheetHeader columnsWithData
  rw [if_neg hrows]
  refine ⟨fun c => ?_, List.filter_sublist _⟩
  rw [List.mem_filter]
  simp only [Bool.or_eq_true, List.any_eq_true, Bool.not_eq_true']

/-- Witness for C5 at a concrete sheet: the blank `hint` column is pruned,
the blank `label::French(fr)` column survives. -/
theorem written_header_characterization_witness :
    ([[(sl "type", sl "text"), (sl "name", sl "q")]] : List Row) ≠ [] ∧
    ((∀ c, c ∈ writeSheetHeader [sl "type", sl "name", sl "hint", sl "label::French(fr)"]
            [[(sl "type", sl "text"), (sl "name", sl "q")]] ↔
        c ∈ [sl "type", sl "name", sl "hint", sl "label::French(fr)"] ∧
          (langColRe c = true ∨
           ∃ r ∈ ([[(sl "type", sl "text"), (sl "name", sl "q")]] : List Row),
             emptyish (rowGet r c) = false)) ∧
     List.Sublist
       (writeSheetHeader [sl "type", sl "name", sl "hint", sl "label::French(fr)"]
         [[(sl "type", sl "text"), (sl "name", sl "q")]])
       [sl "type", sl "name", sl "hint", sl "label::French(fr)"]) :=
  ⟨by decide,
   written_header_characterization
     [sl "type", sl "name", sl "hint", sl "label::French(fr)"]
     [[(sl "type", sl "text"), (sl "name", sl "q")]] (by decide)⟩

/-- C8: `new_form_spec("Health Survey", languages=["English","French"])`
has settings `default_language = "English(en)"`, survey columns containing
both language label variants and no bare `label`, exactly one survey row
(of type `select_one form_language`) and exactly two `form_language`
choices rows. -/
theorem new_form_spec_health_survey_scenario (version : Str) :
    ∃ survey choices settings : SheetData,
      alookup (healthSurveySpec version) (sl "survey") = some survey ∧
      alookup (healthSurveySpec version) (sl "choices") = some choices ∧
      alookup (healthSurveySpec version) (sl "settings") = some settings ∧
      settings.rows.map (fun r => rowGet r (sl "default_language"))
        = [some (sl "English(en)")] ∧
      sl "label::English(en)" ∈ survey.columns ∧
      sl "label::French(fr)" ∈ survey.columns ∧
      sl "label" ∉ survey.columns ∧
      survey.rows.length = 1 ∧
      survey.rows.countP
        (fun r => decide (rowGet r (sl "type") = some (sl "select_one form_language"))) = 1 ∧
      choices.rows.length = 2 ∧
      choices.rows.countP
        (fun r => decide (rowGet r (sl "list_name") = some (sl "form_language"))) = 2 := by
  refine ⟨_, _, _, rfl, rfl, rfl, rfl, ?_, ?_, ?_, rfl, rfl, rfl, rfl⟩
  · decide
  · decide
  · decide

/-- C4 (code bug): `_normalize_form_spec` copies sheet structure but keeps
the caller's row dicts by reference (`list(rows)` is shallow), and
`write_xlsform`'s `default_language` defaulting writes through those
references: the caller's original settings row changes. -/
theorem write_xlsform_mutates_caller_settings_row :
    normalizeFormSpecRef c4CallerSheets = c4CallerSheets ∧
    (writeSettingsDefaulting (normalizeFormSpecRef c4CallerSheets)
        (languageHeadersFromColumns
          (prepareSheet (sl "survey")
            [sl "type", sl "name", sl "label::English (en)"] []).1)
        c4CallerHeap).get 0
      = [(sl "form_title", sl "T"), (sl "default_language", sl "English(en)")] ∧
    (writeSettingsDefaulting (normalizeFormSpecRef c4CallerSheets)
        (languageHeadersFromColumns
          (prepareSheet (sl "survey")
            [sl "type", sl "name", sl "label::English (en)"] []).1)
        c4CallerHeap).get 0
      ≠ c4CallerHeap.get 0 :=
  ⟨rfl, by decide, by decide⟩

/-- C6 counterexample: two specs that differ in which declared columns are
pruned (`hint` pruned vs nothing to prune) produce identical
`write_xlsform` summaries, so the returned summary does not identify the
pruned columns. -/
theorem write_summary_hides_pruned_columns :
    writeXlsformSummary c6SpecWithEmptyHint (sl "out.xlsx")
      = writeXlsformSummary c6SpecWithoutHint (sl "out.xlsx") ∧
    prunedColumnsOf c6SpecWithEmptyHint (sl "survey") = [sl "hint"] ∧
    prunedColumnsOf c6SpecWithoutHint (sl "survey") = [] :=
  ⟨by decide, by decide, by decide⟩

/-- C10: an addition row whose `name` is absent or empty is always
appended (its occurrence count in the merged rows is the sum of its base
and addition counts, even with `dedupe_by_name` and identical existing
rows), and the empty name never appears in the `added` or `skipped`
lists. -/
theorem nameless_rows_always_appended (dedupe : Bool)
    (baseRows addRows : List Row) (r : Row) (hname : rowName? r = none) :
    (mergeSheetRows dedupe baseRows addRows).rows.count r
      = baseRows.count r + addRows.count r ∧
    [] ∉ (mergeSheetRows dedupe baseRows addRows).added ∧
    [] ∉ (mergeSheetRows dedupe baseRows addRows).skipped := by
  unfold mergeSheetRows
  refine ⟨mergeFold_count hname dedupe addRows _, ?_⟩
  exact mergeFold_no_empty_names dedupe addRows _ (by simp) (by simp)

/-- Witness for C10: a nameless note row identical to an existing base row
is still appended twice, and the summaries name nothing for it. -/
theorem nameless_rows_always_appended_witness :
    rowName? [(sl "type", sl "note")] = none ∧
    ((mergeSheetRows true [[(sl "type", sl "note")]]
        [[(sl "type", sl "note")], [(sl "type", sl "note")]]).rows.count
          [(sl "type", sl "note")]
      = ([[(sl "type", sl "note")]] : List Row).count [(sl "type", sl "note")]
        + ([[(sl "type", sl "note")], [(sl "type", sl "note")]] : List Row).count
            [(sl "type", sl "note")] ∧
     [] ∉ (mergeSheetRows true [[(sl "type", sl "note")]]
        [[(sl "type", sl "note")], [(sl "type", sl "note")]]).added ∧
     [] ∉ (mergeSheetRows true [[(sl "type", sl "note")]]
        [[(sl "type", sl "note")], [(sl "type", sl "note")]]).skipped) :=
  ⟨by decide,
   nameless_rows_always_appended true [[(sl "type", sl "note")]]
     [[(sl "type", sl "note")], [(sl "type", sl "note")]]
     [(sl "type", sl "note")] (by decide)⟩


lemma mergeRowStep_skip {st : MergeState} {a : Row} {n : Str}
    (ha : rowName? a = some n) (hmem : n ∈ st.existing) :
    mergeRowStep true st a = { st with skipped := st.skipped ++ [n] } := by
  unfold mergeRowStep
  rw [ha]
  dsimp only
  rw [if_pos (by simp [hmem])]

lemma mergeRowStep_accept {st : MergeState} {a : Row} {n : Str}
    (ha : rowName? a = some n) (hmem : n ∉ st.existing) :
    mergeRowStep true st a =
      { st with rows := st.rows ++ [a], existing := st.existing ++ [n],
                added := st.added ++ [n] } := by
  unfold mergeRowStep
  rw [ha]
  dsimp only
  rw [if_neg (by simp [hmem])]

lemma mergeRowStep_nameless (dedupe : Bool) {st : MergeState} {a : Row}
    (ha : rowName? a = none) :
    mergeRowStep dedupe st a = { st with rows := st.rows ++ [a] } := by
  unfold mergeRowStep
  rw [ha]

lemma mergeFold_refMerge :
    ∀ (addRows : List Row) (st : MergeState),
      addRows.foldl (mergeRowStep true) st =
        ⟨st.rows ++ (refMergeRows st.existing addRows).1,
         st.existing ++ (refMergeRows st.existing addRows).2.1,
         st.added ++ (refMergeRows st.existing addRows).2.1,
         st.skipped ++ (refMergeRows st.existing addRows).2.2⟩ := by
  intro addRows
  induction addRows with
  | nil =>
    intro st
    simp only [List.foldl_nil, refMergeRows, List.append_nil]
  | cons a rest ih =>
    intro st
    simp only [List.foldl_cons]
    cases ha : rowName? a with
    | some n =>
      by_cases hmem : n ∈ st.existing
      · rw [mergeRowStep_skip ha hmem, ih]
        simp only [refMergeRows, ha]
        rw [if_pos hmem]
        rcases hr : refMergeRows st.existing rest with ⟨k, ad, sk⟩
        simp [List.append_assoc]
      · rw [mergeRowStep_accept ha hmem, ih]
        simp only [refMergeRows, ha]
        rw [if_neg hmem]
        rcases hr : refMergeRows (st.existing ++ [n]) rest with ⟨k, ad, sk⟩
        simp [List.append_assoc]
    | none =>
      rw [mergeRowStep_nameless true ha, ih]
      simp only [refMergeRows, ha]
      rcases hr : refMergeRows st.existing rest with ⟨k, ad, sk⟩
      simp [List.append_assoc]


lemma alookup_cons {α : Type} (pk : Str) (pv : α) (rest : List (Str × α)) (k : Str) :
    alookup ((pk, pv) :: rest) k = if pk = k then some pv else alookup rest k := rfl

lemma alookup_append {α : Type} (l₁ l₂ : List (Str × α)) (k : Str) :
    alookup (l₁ ++ l₂) k =
      match alookup l₁ k with
      | some v => some v
      | none => alookup l₂ k := by
  induction l₁ with
  | nil => rfl
  | cons p rest ih =>
    rcases p with ⟨pk, pv⟩
    simp only [List.cons_append, alookup_cons]
    by_cases h : pk = k
    · rw [if_pos h, if_pos h]
    · rw [if_neg h, if_neg h, ih]

lemma alookup_map_update_ne {α : Type} (l : List (Str × α)) (n k : Str) (x : α)
    (h : n ≠ k) :
    alookup (l.map (fun p => if p.1 = n then (n, x) else p)) k = alookup l k := by
  induction l with
  | nil => rfl
  | cons p rest ih =>
    rcases p with ⟨pk, pv⟩
    simp only [List.map_cons]
    by_cases hp : pk = n
    · rw [if_pos (by simpa using hp)]
      rw [alookup_cons, alookup_cons, if_neg h, if_neg (hp ▸ h), ih]
    · rw [if_neg (by simpa using hp)]
      rw [alookup_cons, alookup_cons]
      by_cases hk : pk = k
      · rw [if_pos hk, if_pos hk]
      · rw [if_neg hk, if_neg hk, ih]

lemma alookup_map_update_self {α : Type} (l : List (Str × α)) (n : Str) (x : α)
    (h : (alookup l n).isSome) :
    alookup (l.map (fun p => if p.1 = n then (n, x) else p)) n = some x := by
  induction l with
  | nil => simp [alookup] at h
  | cons p rest ih =>
    rcases p with ⟨pk, pv⟩
    simp only [List.map_cons]
    by_cases hp : pk = n
    · rw [if_pos (by simpa using hp)]
      rw [alookup_cons, if_pos rfl]
    · rw [if_neg (by simpa using hp)]
      rw [alookup_cons, if_neg hp]
      apply ih
      rw [alookup_cons, if_neg hp] at h
      exact h

lemma alookup_append_single_self {α : Type} (l : List (Str × α)) (k : Str) (x : α)
    (h : alookup l k = none) :
    alookup (l ++ [(k, x)]) k = some x := by
  rw [alookup_append, h]
  rw [alookup_cons, if_pos rfl]

lemma alookup_append_single_ne {α : Type} (l : List (Str × α)) (n k : Str) (x : α)
    (h : n ≠ k) :
    alookup (l ++ [(n, x)]) k = alookup l k := by
  rw [alookup_append]
  cases hl : alookup l k with
  | some v => rfl
  | none =>
    rw [alookup_cons, if_neg h]
    rfl


lemma mergeSheetStep_summary (dedupe : Bool) (st : List (Str × SheetData) × MergeSummary)
    (sheet : Str × SheetData) :
    (mergeSheetStep dedupe st sheet).2 =
      ⟨st.2.added ++ [(sheet.1,
          (mergeSheetRows dedupe ((alookup st.1 sheet.1).getD ⟨[], []⟩).rows sheet.2.rows).added)],
       st.2.skipped ++ [(sheet.1,
          (mergeSheetRows dedupe ((alookup st.1 sheet.1).getD ⟨[], []⟩).rows sheet.2.rows).skipped)]⟩ := rfl

lemma mergeSheetStep_fst_lookup_ne (dedupe : Bool)
    (st : List (Str × SheetData) × MergeSummary) (sheet : Str × SheetData)
    (k : Str) (h : sheet.1 ≠ k) :
    alookup (mergeSheetStep dedupe st sheet).1 k = alookup st.1 k := by
  unfold mergeSheetStep
  dsimp only
  by_cases hs : (alookup st.1 sheet.1).isSome = true
  · rw [if_pos hs]
    exact alookup_map_update_ne _ _ _ _ h
  · rw [if_neg hs]
    exact alookup_append_single_ne _ _ _ _ h

lemma mergeSheetStep_fst_lookup_self (dedupe : Bool)
    (st : List (Str × SheetData) × MergeSummary) (sheet : Str × SheetData) :
    alookup (mergeSheetStep dedupe st sheet).1 sheet.1 =
      some ⟨mergeSheetCols sheet.1 ((alookup st.1 sheet.1).getD ⟨[], []⟩).columns
              sheet.2.columns,
            (mergeSheetRows dedupe ((alookup st.1 sheet.1).getD ⟨[], []⟩).rows
              sheet.2.rows).rows⟩ := by
  unfold mergeSheetStep
  dsimp only
  by_cases hs : (alookup st.1 sheet.1).isSome = true
  · rw [if_pos hs]
    exact alookup_map_update_self _ _ _ hs
  · rw [if_neg hs]
    refine alookup_append_single_self _ _ _ ?_
    rw [← Option.not_isSome_iff_eq_none]
    simpa using hs

lemma mergeFold_lookup_preserve (dedupe : Bool) :
    ∀ (add : List (Str × SheetData)) (st : List (Str × SheetData) × MergeSummary)
      (k : Str), k ∉ add.map Prod.fst →
      alookup (add.foldl (mergeSheetStep dedupe) st).1 k = alookup st.1 k ∧
      alookup (add.foldl (mergeSheetStep dedupe) st).2.added k = alookup st.2.added k ∧
      alookup (add.foldl (mergeSheetStep dedupe) st).2.skipped k = alookup st.2.skipped k := by
  intro add
  induction add with
  | nil => intro st k _; exact ⟨rfl, rfl, rfl⟩
  | cons sheet rest ih =>
    intro st k h
    simp only [List.map_cons, List.mem_cons, not_or] at h
    obtain ⟨h1, h2⟩ := h
    simp only [List.foldl_cons]
    obtain ⟨p1, p2, p3⟩ := ih (mergeSheetStep dedupe st sheet) k h2
    refine ⟨?_, ?_, ?_⟩
    · rw [p1, mergeSheetStep_fst_lookup_ne dedupe st sheet k (Ne.symm h1)]
    · rw [p2, mergeSheetStep_summary]
      exact alookup_append_single_ne _ _ _ _ (Ne.symm h1)
    · rw [p3, mergeSheetStep_summary]
      exact alookup_append_single_ne _ _ _ _ (Ne.symm h1)

lemma mergeFold_lookup (dedupe : Bool) :
    ∀ (add : List (Str × SheetData)) (st : List (Str × SheetData) × MergeSummary)
      (k : Str) (sheet : SheetData),
      (add.map Prod.fst).Nodup →
      alookup add k = some sheet →
      alookup st.2.added k = none →
      alookup st.2.skipped k = none →
      alookup (add.foldl (mergeSheetStep dedupe) st).1 k
        = some ⟨mergeSheetCols k ((alookup st.1 k).getD ⟨[], []⟩).columns sheet.columns,
                (mergeSheetRows dedupe ((alookup st.1 k).getD ⟨[], []⟩).rows sheet.rows).rows⟩ ∧
      alookup (add.foldl (mergeSheetStep dedupe) st).2.added k
        = some (mergeSheetRows dedupe ((alookup st.1 k).getD ⟨[], []⟩).rows sheet.rows).added ∧
      alookup (add.foldl (mergeSheetStep dedupe) st).2.skipped k
        = some (mergeSheetRows dedupe ((alookup st.1 k).getD ⟨[], []⟩).rows sheet.rows).skipped := by
  intro add
  induction add with
  | nil => intro st k sheet _ hmem _ _; exact absurd hmem (by simp [alookup])
  | cons s0 rest ih =>
    intro st k sheet hnodup hmem hsa hss
    simp only [List.map_cons, List.nodup_cons] at hnodup
    obtain ⟨hn1, hn2⟩ := hnodup
    rcases s0 with ⟨n0, sh0⟩
    simp only [List.foldl_cons]
    by_cases hk : n0 = k
    · subst hk
      rw [alookup_cons, if_pos rfl] at hmem
      injection hmem with hmem
      subst hmem
      have hrest : n0 ∉ rest.map Prod.fst := hn1
      obtain ⟨p1, p2, p3⟩ :=
        mergeFold_lookup_preserve dedupe rest (mergeSheetStep dedupe st (n0, sh0)) n0 hrest
      refine ⟨?_, ?_, ?_⟩
      · rw [p1]
        exact mergeSheetStep_fst_lookup_self dedupe st (n0, sh0)
      · rw [p2, mergeSheetStep_summary]
        exact alookup_append_single_self _ _ _ hsa
      · rw [p3, mergeSheetStep_summary]
        exact alookup_append_single_self _ _ _ hss
    · rw [alookup_cons, if_neg hk] at hmem
      have hstep1 : alookup (mergeSheetStep dedupe st (n0, sh0)).1 k = alookup st.1 k :=
        mergeSheetStep_fst_lookup_ne dedupe st (n0, sh0) k hk
      have hstep2 : alookup (mergeSheetStep dedupe st (n0, sh0)).2.added k = none := by
        rw [mergeSheetStep_summary]
        rw [alookup_append_single_ne _ _ _ _ hk]
        exact hsa
      have hstep3 : alookup (mergeSheetStep dedupe st (n0, sh0)).2.skipped k = none := by
        rw [mergeSheetStep_summary]
        rw [alookup_append_single_ne _ _ _ _ hk]
        exact hss
      obtain ⟨q1, q2, q3⟩ := ih (mergeSheetStep dedupe st (n0, sh0)) k sheet hn2 hmem hstep2 hstep3
      rw [hstep1] at q1 q2 q3
      exact ⟨q1, q2, q3⟩


/-- C3: with `dedupe_by_name` enabled, merging an addition sheet appends
exactly the addition rows whose non-empty names are not already taken —
the taken-name set starts from the base rows' names and grows as rows are
accepted, so a name reused within the same addition is skipped on its
second occurrence; the summary's `added` list holds every accepted
non-empty name and `skipped` every rejected one, per sheet
(`refMergeRows` is the reference recursion expressing this policy). -/
theorem merge_dedupe_by_name_characterization
    (base add : List (Str × SheetData)) (name : Str) (sheet : SheetData)
    (hnodup : (add.map Prod.fst).Nodup)
    (hmem : alookup add name = some sheet) :
    alookup (mergeFormSpec true base add).1 name
      = some ⟨mergeSheetCols name ((alookup base name).getD ⟨[], []⟩).columns sheet.columns,
              ((alookup base name).getD ⟨[], []⟩).rows
                ++ (refMergeRows (truthyNames ((alookup base name).getD ⟨[], []⟩).rows)
                     sheet.rows).1⟩ ∧
    alookup (mergeFormSpec true base add).2.added name
      = some (refMergeRows (truthyNames ((alookup base name).getD ⟨[], []⟩).rows)
               sheet.rows).2.1 ∧
    alookup (mergeFormSpec true base add).2.skipped name
      = some (refMergeRows (truthyNames ((alookup base name).getD ⟨[], []⟩).rows)
               sheet.rows).2.2 := by
  have hrows : mergeSheetRows true ((alookup base name).getD ⟨[], []⟩).rows sheet.rows =
      ⟨((alookup base name).getD ⟨[], []⟩).rows
         ++ (refMergeRows (truthyNames ((alookup base name).getD ⟨[], []⟩).rows) sheet.rows).1,
       truthyNames ((alookup base name).getD ⟨[], []⟩).rows
         ++ (refMergeRows (truthyNames ((alookup base name).getD ⟨[], []⟩).rows) sheet.rows).2.1,
       (refMergeRows (truthyNames ((alookup base name).getD ⟨[], []⟩).rows) sheet.rows).2.1,
       (refMergeRows (truthyNames ((alookup base name).getD ⟨[], []⟩).rows) sheet.rows).2.2⟩ := by
    unfold mergeSheetRows
    rw [mergeFold_refMerge]
    simp
  obtain ⟨h1, h2, h3⟩ :=
    mergeFold_lookup true add (base, ⟨[], []⟩) name sheet hnodup hmem rfl rfl
  rw [hrows] at h1 h2 h3
  exact ⟨h1, h2, h3⟩

/-- Witness for C3 -/
theorem merge_dedupe_by_name_characterization_witness :
    (((([(sl "survey",
        (⟨[], [[(sl "name", sl "age")], [(sl "name", sl "height")],
               [(sl "name", sl "height")]]⟩ : SheetData))] : List (Str × SheetData)).map
          Prod.fst).Nodup) ∧
     alookup [(sl "survey",
        (⟨[], [[(sl "name", sl "age")], [(sl "name", sl "height")],
               [(sl "name", sl "height")]]⟩ : SheetData))] (sl "survey")
       = some ⟨[], [[(sl "name", sl "age")], [(sl "name", sl "height")],
               [(sl "name", sl "height")]]⟩) ∧
    (alookup (mergeFormSpec true
        [(sl "survey", ⟨[sl "type", sl "name"], [[(sl "name", sl "age")]]⟩)]
        [(sl "survey",
          ⟨[], [[(sl "name", sl "age")], [(sl "name", sl "height")],
                [(sl "name", sl "height")]]⟩)]).2.added (sl "survey")
       = some [sl "height"] ∧
     alookup (mergeFormSpec true
        [(sl "survey", ⟨[sl "type", sl "name"], [[(sl "name", sl "age")]]⟩)]
        [(sl "survey",
          ⟨[], [[(sl "name", sl "age")], [(sl "name", sl "height")],
                [(sl "name", sl "height")]]⟩)]).2.skipped (sl "survey")
       = some [sl "age", sl "height"]) := by
  have h := merge_dedupe_by_name_characterization
    [(sl "survey", ⟨[sl "type", sl "name"], [[(sl "name", sl "age")]]⟩)]
    [(sl "survey",
      ⟨[], [[(sl "name", sl "age")], [(sl "name", sl "height")],
            [(sl "name", sl "height")]]⟩)]
    (sl "survey")
    ⟨[], [[(sl "name", sl "age")], [(sl "name", sl "height")],
          [(sl "name", sl "height")]]⟩
    (by decide) (by decide)
  refine ⟨⟨by decide, by decide⟩, ?_, ?_⟩
  · rw [h.2.1]
    decide
  · rw [h.2.2]
    decide


/-- C6 (amended): `merge_form_spec` accounts for every row — kept rows
plus skipped names add up to all base and addition rows — but
`write_xlsform`'s summary is a function of only the output path, the
sheet names and the per-sheet row counts, so it cannot identify pruned
columns. -/
theorem dropped_data_reporting :
    (∀ (specA specB : List (Str × SheetData)) (path : Str),
      (normalizedSheets specA).map Prod.fst = (normalizedSheets specB).map Prod.fst →
      ((normalizedSheets specA).map Prod.fst).map
          (fun n => (alookup specA n).map (fun s => s.rows.length))
        = ((normalizedSheets specB).map Prod.fst).map
          (fun n => (alookup specB n).map (fun s => s.rows.length)) →
      writeXlsformSummary specA path = writeXlsformSummary specB path) ∧
    (∀ (dedupe : Bool) (baseRows addRows : List Row),
      (mergeSheetRows dedupe baseRows addRows).rows.length
        + (mergeSheetRows dedupe baseRows addRows).skipped.length
        = baseRows.length + addRows.length) := by
  constructor
  · intro specA specB path h1 h2
    unfold writeXlsformSummary
    rw [h1] at h2 ⊢
    rw [List.map_inj_left] at h2
    dsimp only
    congr 1
    apply List.map_congr_left
    intro n hn
    rw [h2 n hn]
  · intro dedupe baseRows addRows
    unfold mergeSheetRows
    have h := mergeFold_length dedupe addRows ⟨baseRows, truthyNames baseRows, [], []⟩
    simpa using h

/-- Witness for C6 amended -/
theorem dropped_data_reporting_witness :
    ((normalizedSheets c6SpecWithEmptyHint).map Prod.fst
        = (normalizedSheets c6SpecWithoutHint).map Prod.fst ∧
     ((normalizedSheets c6SpecWithEmptyHint).map Prod.fst).map
         (fun n => (alookup c6SpecWithEmptyHint n).map (fun s => s.rows.length))
       = ((normalizedSheets c6SpecWithoutHint).map Prod.fst).map
         (fun n => (alookup c6SpecWithoutHint n).map (fun s => s.rows.length))) ∧
    writeXlsformSummary c6SpecWithEmptyHint (sl "out.xlsx")
      = writeXlsformSummary c6SpecWithoutHint (sl "out.xlsx") :=
  ⟨⟨by decide, by decide⟩,
   dropped_data_reporting.1 c6SpecWithEmptyHint c6SpecWithoutHint (sl "out.xlsx")
     (by decide) (by decide)⟩

end XLSForm
namespace XLSForm

lemma pyLowerChar_cases (c : Char) :
    pyLowerChar c = c ∨ ∃ p ∈ upperToLower, p.1 = c ∧ pyLowerChar c = p.2 := by
  unfold pyLowerChar
  cases hf : upperToLower.find? (fun p => decide (p.1 = c)) with
  | none => exact Or.inl rfl
  | some p =>
    refine Or.inr ⟨p, List.mem_of_find?_eq_some hf, ?_, rfl⟩
    have := List.find?_some hf
    simpa using this

lemma pyWs_pyLowerChar (c : Char) : pyWs (pyLowerChar c) = pyWs c := by
  rcases pyLowerChar_cases c with h | ⟨p, hp, hc, hl⟩
  · rw [h]
  · rw [hl, ← hc]
    have hall : ∀ q ∈ upperToLower, pyWs q.1 = false ∧ pyWs q.2 = false := by decide
    obtain ⟨h1, h2⟩ := hall p hp
    rw [h1, h2]

lemma pyLowerChar_eq_nl {c : Char} (h : pyLowerChar c = '\n') : c = '\n' := by
  rcases pyLowerChar_cases c with h2 | ⟨p, hp, hc, hl⟩
  · rw [← h2]; exact h
  · rw [hl] at h
    have hall : ∀ q ∈ upperToLower, q.2 ≠ '\n' := by decide
    exact absurd h (hall p hp)

lemma not_mem_pyLower {c : Char} {s : Str} (hc : c = '\n') (h : c ∉ s) :
    c ∉ pyLower s := by
  subst hc
  unfold pyLower
  intro hmem
  rw [List.mem_map] at hmem
  obtain ⟨d, hd, hdl⟩ := hmem
  exact h (pyLowerChar_eq_nl hdl ▸ hd)

lemma pyStrip_sublist (s : Str) : List.Sublist (pyStrip s) s := by
  unfold pyStrip
  have h1 : List.Sublist ((s.dropWhile pyWs).reverse.dropWhile pyWs)
      ((s.dropWhile pyWs).reverse) := List.dropWhile_sublist _
  have h2 := h1.reverse
  rw [List.reverse_reverse] at h2
  exact h2.trans (List.dropWhile_sublist _)

lemma not_mem_pyStrip {c : Char} {s : Str} (h : c ∉ s) : c ∉ pyStrip s :=
  fun hc => h ((pyStrip_sublist s).mem hc)

lemma dropWhile_head_not {p : Char → Bool} {s rest : Str} {c : Char}
    (h : s.dropWhile p = c :: rest) : p c = false := by
  induction s with
  | nil => simp at h
  | cons a as ih =>
    rw [List.dropWhile_cons] at h
    by_cases hp : p a = true
    · rw [if_pos hp] at h; exact ih h
    · rw [if_neg hp] at h
      cases h
      simpa using hp

lemma pyStrip_getLast_not_ws {s : Str} {c : Char}
    (h : (pyStrip s).getLast? = some c) : pyWs c = false := by
  unfold pyStrip at h
  rw [List.getLast?_reverse] at h
  cases hd : (s.dropWhile pyWs).reverse.dropWhile pyWs with
  | nil => rw [hd] at h; simp at h
  | cons d ds =>
    rw [hd] at h
    simp only [List.head?_cons, Option.some.injEq] at h
    subst h
    exact dropWhile_head_not hd

lemma pyStrip_head_not_ws {s rest : Str} {c : Char}
    (h : pyStrip s = c :: rest) : pyWs c = false := by
  unfold pyStrip at h
  have hpre : List.IsPrefix (c :: rest) (s.dropWhile pyWs) := by
    rw [← h]
    rw [← List.reverse_suffix]
    rw [List.reverse_reverse]
    exact List.dropWhile_suffix _
  obtain ⟨t, ht⟩ := hpre
  have : (s.dropWhile pyWs) = c :: (rest ++ t) := by rw [← ht]; rfl
  exact dropWhile_head_not this

lemma pyStrip_eq_self {s : Str}
    (h1 : ∀ c, s.head? = some c → pyWs c = false)
    (h2 : ∀ c, s.getLast? = some c → pyWs c = false) :
    pyStrip s = s := by
  cases s with
  | nil => rfl
  | cons a as =>
    unfold pyStrip
    have ha : pyWs a = false := h1 a rfl
    rw [List.dropWhile_cons, if_neg (by simp [ha])]
    cases hl : (a :: as).getLast? with
    | none => simp at hl
    | some d =>
      have hd : pyWs d = false := h2 d hl
      have hrev : (a :: as).reverse.head? = some d := by
        rw [List.head?_reverse]; exact hl
      cases hr : (a :: as).reverse with
      | nil => simp at hr
      | cons e es =>
        rw [hr] at hrev
        simp only [List.head?_cons, Option.some.injEq] at hrev
        subst hrev
        have hdw : List.dropWhile pyWs (e :: es) = e :: es := by
          rw [List.dropWhile_cons, if_neg (by simp [hd])]
        rw [hdw, ← hr, List.reverse_reverse]

lemma pyStrip_idem (s : Str) : pyStrip (pyStrip s) = pyStrip s := by
  cases h : pyStrip s with
  | nil => rfl
  | cons c rest =>
    apply pyStrip_eq_self
    · intro d hd
      simp only [List.head?_cons, Option.some.injEq] at hd
      subst hd
      exact pyStrip_head_not_ws h
    · intro d hd
      rw [← h] at hd
      exact pyStrip_getLast_not_ws hd


lemma pyStrip_eq_nil_iff {s : Str} : pyStrip s = [] ↔ ∀ c ∈ s, pyWs c = true := by
  unfold pyStrip
  rw [List.reverse_eq_nil_iff, List.dropWhile_eq_nil_iff]
  constructor
  · intro h c hc
    by_cases hw : pyWs c = true
    · exact hw
    · exfalso
      have hsplit : s = s.takeWhile pyWs ++ s.dropWhile pyWs := (List.takeWhile_append_dropWhile _ _).symm
      rw [hsplit] at hc
      rcases List.mem_append.mp hc with hc1 | hc1
      · exact hw (List.mem_takeWhile_imp hc1)
      · exact hw (h c (by rwa [List.mem_reverse]))
  · intro h c hc
    rw [List.mem_reverse] at hc
    exact h c ((List.dropWhile_sublist _).mem hc)

end XLSForm
namespace XLSForm

lemma revDropRev_sublist (x : Str) :
    List.Sublist ((x.reverse.dropWhile pyWs).reverse) x := by
  have h1 : List.Sublist (x.reverse.dropWhile pyWs) x.reverse := List.dropWhile_sublist _
  have h2 := h1.reverse
  rw [List.reverse_reverse] at h2
  exact h2

lemma parenParse_sublists {lang nr cr : Str} (h : parenParse lang = some (nr, cr)) :
    List.Sublist nr lang ∧ List.Sublist cr lang := by
  unfold parenParse at h
  split at h
  · dsimp only at h
    split at h
    · exact absurd h (by simp)
    · split at h
      · split at h
        · exact absurd h (by simp)
        · simp only [Option.some.injEq, Prod.mk.injEq] at h
          obtain ⟨h1, h2⟩ := h
          subst h1
          subst h2
          constructor
          · exact ((revDropRev_sublist _).trans (List.take_sublist _ _)).trans
              (List.dropLast_sublist _)
          · exact (List.drop_sublist _ _).trans (List.dropLast_sublist _)
      · exact absurd h (by simp)
  · exact absurd h (by simp)

lemma alookup_mem {α : Type} {m : List (Str × α)} {k : Str} {v : α}
    (h : alookup m k = some v) : (k, v) ∈ m := by
  induction m with
  | nil => simp [alookup] at h
  | cons p rest ih =>
    rcases p with ⟨pk, pv⟩
    rw [alookup_cons] at h
    by_cases hp : pk = k
    · rw [if_pos hp] at h
      simp only [Option.some.injEq] at h
      subst h
      subst hp
      exact List.mem_cons_self _ _
    · rw [if_neg hp] at h
      exact List.mem_cons_of_mem _ (ih h)

end XLSForm
namespace XLSForm

lemma map_pyLower_head {z : Str} {c : Char} {rest : Str}
    (h : pyLower (pyStrip z) = c :: rest) : pyWs c = false := by
  unfold pyLower at h
  rcases List.map_eq_cons_iff.mp h with ⟨d, l2, hd, hcd, hrest⟩
  rw [← hcd, pyWs_pyLowerChar]
  exact pyStrip_head_not_ws hd

lemma tag_header_shape (s : Str) :
    (normalizeLanguageTag s).header = [] ∨
    ∃ name code, (normalizeLanguageTag s).header = name ++ '(' :: (code ++ [')']) ∧
      (∀ c rest, name = c :: rest → pyWs c = false) ∧
      ('\n' ∉ s → '\n' ∉ name ∧ '\n' ∉ code) := by
  have hct0 : ∀ p ∈ codeToName, (∀ c ∈ p.2.head?.toList, pyWs c = false) ∧
      ('\n' ∉ p.2) := by decide
  have hct : ∀ p ∈ codeToName, (∀ c rest, p.2 = c :: rest → pyWs c = false) ∧
      ('\n' ∉ p.2) := by
    intro p hp
    refine ⟨fun c rest hc => (hct0 p hp).1 c ?_, (hct0 p hp).2⟩
    rw [hc]
    simp
  have hlc : ∀ p ∈ languageCodeMap, '\n' ∉ p.2 := by decide
  have hnl_lang : '\n' ∉ s → '\n' ∉ pyStrip s := fun h => not_mem_pyStrip h
  unfold normalizeLanguageTag
  by_cases hstrip : pyStrip s = []
  · rw [if_pos hstrip]
    exact Or.inl rfl
  · rw [if_neg hstrip]
    refine Or.inr ?_
    dsimp only
    split
    next nr cr hp =>
      dsimp only
      have hsub := parenParse_sublists hp
      refine ⟨_, _, rfl, ?_, ?_⟩
      · intro c rest hname
        split at hname
        · -- name0 = [], fallback to table or ncode
          cases hl : alookup codeToName (pyLower (pyStrip cr)) with
          | some v =>
            rw [hl] at hname
            exact (hct _ (alookup_mem hl)).1 c rest hname
          | none =>
            rw [hl] at hname
            simp only [Option.getD_none] at hname
            exact map_pyLower_head hname
        · exact pyStrip_head_not_ws hname
      · intro hnl
        have hnr : '\n' ∉ nr := fun hc => (hnl_lang hnl) (hsub.1.mem hc)
        have hcr : '\n' ∉ cr := fun hc => (hnl_lang hnl) (hsub.2.mem hc)
        have hncode : '\n' ∉ pyLower (pyStrip cr) :=
          not_mem_pyLower rfl (not_mem_pyStrip hcr)
        constructor
        · split
          · cases hl : alookup codeToName (pyLower (pyStrip cr)) with
            | some v => simpa using (hct _ (alookup_mem hl)).2
            | none => simpa using hncode
          · exact not_mem_pyStrip hnr
        · exact hncode
    next hp =>
      split
      next code hl =>
        dsimp only
        refine ⟨_, _, rfl, ?_, ?_⟩
        · intro c rest hname
          cases hl2 : alookup codeToName code with
          | some v =>
            rw [hl2] at hname
            exact (hct _ (alookup_mem hl2)).1 c rest hname
          | none =>
            rw [hl2] at hname
            simp only [Option.getD_none] at hname
            exact pyStrip_head_not_ws hname
        · intro hnl
          constructor
          · cases hl2 : alookup codeToName code with
            | some v => simpa using (hct _ (alookup_mem hl2)).2
            | none => simpa using hnl_lang hnl
          · exact hlc _ (alookup_mem hl)
      next hl =>
        split
        · dsimp only
          refine ⟨_, _, rfl, ?_, ?_⟩
          · intro c rest hname
            cases hl2 : alookup codeToName (pyLower (pyStrip s)) with
            | some v =>
              rw [hl2] at hname
              exact (hct _ (alookup_mem hl2)).1 c rest hname
            | none =>
              rw [hl2] at hname
              simp only [Option.getD_none] at hname
              exact pyStrip_head_not_ws hname
          · intro hnl
            constructor
            · cases hl2 : alookup codeToName (pyLower (pyStrip s)) with
              | some v => simpa using (hct _ (alookup_mem hl2)).2
              | none => simpa using hnl_lang hnl
            · exact not_mem_pyLower rfl (hnl_lang hnl)
        · dsimp only
          refine ⟨_, _, rfl, ?_, ?_⟩
          · intro c rest hname
            exact pyStrip_head_not_ws hname
          · intro hnl
            refine ⟨hnl_lang hnl, ?_⟩
            split
            · decide
            · intro hmem
              rcases List.mem_map.mp hmem with ⟨d, hd, hdl⟩
              have hd2 := pyLowerChar_eq_nl hdl
              subst hd2
              have := List.mem_filter.mp hd
              exact absurd this.2 (by decide)
  
end XLSForm
namespace XLSForm

lemma tag_header_ne_nil {s : Str} (h : pyStrip s ≠ []) :
    (normalizeLanguageTag s).header ≠ [] := by
  unfold normalizeLanguageTag
  rw [if_neg h]
  split
  · simp
  · split
    · simp
    · split
      · simp
      · simp

lemma tag_header_getLast {s : Str} (h : (normalizeLanguageTag s).header ≠ []) :
    (normalizeLanguageTag s).header.getLast? = some ')' := by
  rcases tag_header_shape s with hz | ⟨name, code, heq, h1, h2⟩
  · exact absurd hz h
  · rw [heq, show name ++ '(' :: (code ++ [')']) = (name ++ '(' :: code) ++ [')'] by
      simp, List.getLast?_concat]

lemma tag_header_stripped (s : Str) :
    pyStrip (normalizeLanguageTag s).header = (normalizeLanguageTag s).header := by
  rcases tag_header_shape s with hz | ⟨name, code, heq, hhead, h2⟩
  · rw [hz]; rfl
  · rw [heq]
    apply pyStrip_eq_self
    · intro c hc
      cases name with
      | nil =>
        simp only [List.nil_append, List.head?_cons, Option.some.injEq] at hc
        subst hc
        rfl
      | cons d ds =>
        rw [List.head?_append_of_ne_nil _ (by simp)] at hc
        simp only [List.head?_cons, Option.some.injEq] at hc
        subst hc
        exact hhead d ds rfl
    · intro c hc
      rw [show name ++ '(' :: (code ++ [')']) = (name ++ '(' :: code) ++ [')'] by simp,
        List.getLast?_concat] at hc
      simp only [Option.some.injEq] at hc
      subst hc
      rfl

lemma tag_header_no_nl {s : Str} (hnl : '\n' ∉ s) :
    '\n' ∉ (normalizeLanguageTag s).header := by
  rcases tag_header_shape s with hz | ⟨name, code, heq, hhead, h2⟩
  · rw [hz]; simp
  · rw [heq]
    obtain ⟨hn, hc⟩ := h2 hnl
    intro hmem
    rcases List.mem_append.mp hmem with hm | hm
    · exact hn hm
    · rcases List.mem_cons.mp hm with hm2 | hm2
      · exact absurd hm2 (by decide)
      · rcases List.mem_append.mp hm2 with hm3 | hm3
        · exact hc hm3
        · rcases List.mem_cons.mp hm3 with hm4 | hm4
          · exact absurd hm4 (by decide)
          · simp at hm4

lemma fieldSplitAux_sound {fs : List Str} {col f rest : Str}
    (h : fieldSplitAux fs col = some (f, rest)) :
    f ∈ fs ∧ col = (f ++ sl "::") ++ rest := by
  induction fs with
  | nil => simp [fieldSplitAux] at h
  | cons g gs ih =>
    unfold fieldSplitAux at h
    split at h
    · next hpre =>
      simp only [Option.some.injEq, Prod.mk.injEq] at h
      obtain ⟨h1, h2⟩ := h
      subst h1
      obtain ⟨t, ht⟩ := hpre
      refine ⟨List.mem_cons_self _ _, ?_⟩
      rw [← h2, ← ht, List.drop_left]
    · obtain ⟨h1, h2⟩ := ih h
      exact ⟨List.mem_cons_of_mem _ h1, h2⟩

lemma prefix_append_absurd {u v : Str} (x : Str)
    (h1 : ¬ (u <+: v)) (h2 : ¬ (v <+: u)) : ¬ (u <+: v ++ x) := by
  intro h
  rcases List.prefix_or_prefix_of_prefix h (List.prefix_append v x) with hc | hc
  · exact h1 hc
  · exact h2 hc

lemma fieldSplitAux_of_mem {fs : List Str} {f : Str} (x : Str)
    (hf : f ∈ fs)
    (hcompat : ∀ g ∈ fs, g ≠ f →
      ¬ ((g ++ sl "::") <+: (f ++ sl "::")) ∧ ¬ ((f ++ sl "::") <+: (g ++ sl "::"))) :
    fieldSplitAux fs ((f ++ sl "::") ++ x) = some (f, x) := by
  induction fs with
  | nil => cases hf
  | cons g gs ih =>
    unfold fieldSplitAux
    by_cases hg : g = f
    · subst hg
      rw [if_pos (List.prefix_append _ _), List.drop_left]
    · have hc := hcompat g (List.mem_cons_self _ _) hg
      rw [if_neg (prefix_append_absurd x hc.1 hc.2)]
      refine ih (by rcases List.mem_cons.mp hf with h | h; exact absurd h.symm hg; exact h)
        (fun g2 hg2 hne => hcompat g2 (List.mem_cons_of_mem _ hg2) hne)

lemma fields_compat :
    ∀ f ∈ userFacingFields, ∀ g ∈ userFacingFields, g ≠ f →
      ¬ ((g ++ sl "::") <+: (f ++ sl "::")) ∧ ¬ ((f ++ sl "::") <+: (g ++ sl "::")) := by
  decide

lemma fieldSplit_variant {f : Str} (hf : f ∈ userFacingFields) (x : Str) :
    fieldSplit ((f ++ sl "::") ++ x) = some (f, x) :=
  fieldSplitAux_of_mem x hf (fun g hg hne => fields_compat f hf g hg hne)

lemma fieldSplit_bare {f : Str} (hf : f ∈ userFacingFields) :
    fieldSplit f = none := by
  fin_cases hf <;> rfl

lemma variant_inj {f g x y : Str} (hf : f ∈ userFacingFields)
    (hg : g ∈ userFacingFields)
    (h : (f ++ sl "::") ++ x = (g ++ sl "::") ++ y) : f = g ∧ x = y := by
  have h1 := fieldSplit_variant hf x
  rw [h, fieldSplit_variant hg y] at h1
  simp only [Option.some.injEq, Prod.mk.injEq] at h1
  exact ⟨h1.1.symm, h1.2.symm⟩

lemma bare_ne_variant {f g x : Str} (hf : f ∈ userFacingFields)
    (hg : g ∈ userFacingFields) : f ≠ (g ++ sl "::") ++ x := by
  intro h
  have h1 := fieldSplit_bare hf
  rw [h, fieldSplit_variant hg x] at h1
  cases h1

end XLSForm
namespace XLSForm

/-- `variantHeader?` on a canonical variant column: recognized exactly for
the right field, with the header returned unchanged. -/
lemma variantHeader?_canonical {f h : Str} (hf : f ∈ userFacingFields)
    (hne : h ≠ []) (hstr : pyStrip h = h) (hnl : '\n' ∉ h)
    (hlast : h.getLast? ≠ some '\n') (g : Str) :
    variantHeader? g (f ++ sl "::" ++ h) = if f = g then some h else none := by
  unfold variantHeader?
  rw [fieldSplit_variant hf h]
  dsimp only
  have hcore : dropTrailingNl h = h := by
    unfold dropTrailingNl
    split
    · next hl => exact absurd hl hlast
    · rfl
  by_cases hfg : f = g
  · rw [if_pos hfg, if_pos hfg, hcore,
      if_neg (by push_neg; exact ⟨hne, hnl⟩), hstr, if_neg hne]
  · rw [if_neg hfg, if_neg hfg]

end XLSForm
namespace XLSForm

lemma variantHeader?_iff {f c h : Str} :
    variantHeader? f c = some h ↔
      (∃ rest, fieldSplit c = some (f, rest)) ∧ columnHeader? c = some h := by
  unfold variantHeader? columnHeader?
  cases hfs : fieldSplit c with
  | none => simp
  | some p =>
    rcases p with ⟨g, rest⟩
    dsimp only
    by_cases hg : g = f
    · subst hg
      rw [if_pos rfl]
      constructor
      · intro hcond
        exact ⟨⟨rest, rfl⟩, hcond⟩
      · intro hand
        exact hand.2
    · rw [if_neg hg]
      constructor
      · intro hcontra; cases hcontra
      · intro hand
        obtain ⟨⟨r2, hr2⟩, _⟩ := hand
        injection hr2 with hr2
        exact absurd (congrArg Prod.fst hr2) hg

lemma columnHeader?_props {c h : Str} (hch : columnHeader? c = some h) :
    h ≠ [] ∧ pyStrip h = h ∧ '\n' ∉ h ∧ h.getLast? ≠ some '\n' := by
  unfold columnHeader? at hch
  cases hfs : fieldSplit c with
  | none => rw [hfs] at hch; cases hch
  | some p =>
    rcases p with ⟨g, rest⟩
    rw [hfs] at hch
    dsimp only at hch
    split at hch
    · cases hch
    · next hcond =>
      push_neg at hcond
      split at hch
      · cases hch
      · next hne =>
        simp only [Option.some.injEq] at hch
        subst hch
        refine ⟨hne, pyStrip_idem _, ?_, ?_⟩
        · exact not_mem_pyStrip hcond.2
        · intro hlast
          cases hps : pyStrip (dropTrailingNl rest) with
          | nil => rw [hps] at hlast; simp at hlast
          | cons d ds =>
            rw [hps] at hlast
            have := @pyStrip_getLast_not_ws (dropTrailingNl rest) '\n' (by rw [hps]; exact hlast)
            simp [pyWs] at this

lemma dropWhile_nonempty_strip {G : Str} {c : Char} {rest : Str}
    (h : G = c :: rest) (hc : pyWs c = false) : pyStrip G ≠ [] := by
  intro hnil
  rw [pyStrip_eq_nil_iff] at hnil
  rw [h] at hnil
  exact absurd (hnil c (List.mem_cons_self _ _)) (by simp [hc])

lemma nk_variant_canonical {k f h : Str}
    (hvar : variantHeader? f (nk k) = some h) :
    nk k = f ++ sl "::" ++ h := by
  unfold nk normalizeLanguageColumnName at hvar ⊢
  cases hfs : fieldSplit k with
  | none =>
    rw [hfs] at hvar
    dsimp only at hvar ⊢
    rw [variantHeader?_iff] at hvar
    obtain ⟨⟨rest, hr⟩, _⟩ := hvar
    rw [hfs] at hr
    cases hr
  | some p =>
    rcases p with ⟨g, rest⟩
    rw [hfs] at hvar
    dsimp only at hvar ⊢
    by_cases hG : ((dropTrailingNl rest).dropWhile pyWs = [] ∨
        '\n' ∈ (dropTrailingNl rest).dropWhile pyWs)
    · rw [if_pos hG] at hvar ⊢
      rw [variantHeader?_iff] at hvar
      obtain ⟨⟨rest2, hr⟩, hch⟩ := hvar
      rw [hfs] at hr
      injection hr with hr
      have hr2 : rest = rest2 := congrArg Prod.snd hr
      subst hr2
      exfalso
      unfold columnHeader? at hch
      rw [hfs] at hch
      dsimp only at hch
      split at hch
      · cases hch
      · next hcond =>
        push_neg at hcond
        rcases hG with hG | hG
        · rw [pyStrip_eq_nil_iff.mpr] at hch
          · split at hch
            · cases hch
            · next hcontra => exact hcontra rfl
          · intro c hcmem
            by_contra hcw
            have hsplit2 : dropTrailingNl rest =
                (dropTrailingNl rest).takeWhile pyWs ++ (dropTrailingNl rest).dropWhile pyWs :=
              (List.takeWhile_append_dropWhile _ _).symm
            rw [hG, List.append_nil] at hsplit2
            rw [hsplit2] at hcmem
            exact hcw (List.mem_takeWhile_imp hcmem)
        · exact hcond.2 ((List.dropWhile_sublist _).mem hG)
    · rw [if_neg hG] at hvar ⊢
      push_neg at hG
      obtain ⟨hGne, hGnl⟩ := hG
      have hhead : ∃ c cs, (dropTrailingNl rest).dropWhile pyWs = c :: cs ∧ pyWs c = false := by
        cases hg2 : (dropTrailingNl rest).dropWhile pyWs with
        | nil => exact absurd hg2 hGne
        | cons c cs => exact ⟨c, cs, rfl, dropWhile_head_not hg2⟩
      obtain ⟨c, cs, hcons, hcws⟩ := hhead
      have hne : (normalizeLanguageTag ((dropTrailingNl rest).dropWhile pyWs)).header ≠ [] :=
        tag_header_ne_nil (dropWhile_nonempty_strip hcons hcws)
      rw [if_neg hne] at hvar ⊢
      have hcanon := variantHeader?_canonical
        (fieldSplitAux_sound hfs).1 hne
        (tag_header_stripped _)
        (tag_header_no_nl hGnl)
        (by rw [tag_header_getLast hne]; simp) f
      rw [hcanon] at hvar
      split at hvar
      · next hgf =>
        simp only [Option.some.injEq] at hvar
        rw [hgf, hvar]
      · cases hvar

end XLSForm
namespace XLSForm

lemma rowGet_cons {k' : Str} {v : Str} {r : Row} {k : Str} :
    rowGet ((k', v) :: r) k = if k' = k then some v else rowGet r k := by
  unfold rowGet
  by_cases h : k' = k
  · rw [if_pos h]
    rw [List.find?_cons_of_pos _ (by simp [h])]
    rfl
  · rw [if_neg h]
    rw [List.find?_cons_of_neg _ (by simp [h])]

lemma rowGet_rowSet_self (r : Row) (k v : Str) :
    rowGet (rowSet r k v) k = some v := by
  induction r with
  | nil => simp [rowSet, rowGet_cons]
  | cons p rest ih =>
    rcases p with ⟨k', v'⟩
    unfold rowSet
    by_cases h : k' = k
    · rw [if_pos h, rowGet_cons, if_pos rfl]
    · rw [if_neg h, rowGet_cons, if_neg h]
      exact ih

lemma rowGet_rowSet_ne {r : Row} {k v k2 : Str} (h : k2 ≠ k) :
    rowGet (rowSet r k v) k2 = rowGet r k2 := by
  induction r with
  | nil =>
    show rowGet [(k, v)] k2 = rowGet [] k2
    rw [rowGet_cons, if_neg (fun hk => h hk.symm)]
  | cons p rest ih =>
    rcases p with ⟨k', v'⟩
    unfold rowSet
    by_cases hk : k' = k
    · rw [if_pos hk, rowGet_cons, rowGet_cons, if_neg (fun hkk => h hkk.symm),
        if_neg (by rw [hk]; exact fun hkk => h hkk.symm)]
    · rw [if_neg hk, rowGet_cons, rowGet_cons]
      by_cases hk2 : k' = k2
      · rw [if_pos hk2, if_pos hk2]
      · rw [if_neg hk2, if_neg hk2]
        exact ih

lemma rowGet_rowErase_self (r : Row) (k : Str) :
    rowGet (rowErase r k) k = none := by
  induction r with
  | nil => rfl
  | cons p rest ih =>
    rcases p with ⟨k', v'⟩
    unfold rowErase at ih ⊢
    rw [List.filter_cons]
    by_cases h : k' = k
    · rw [if_neg (by simp [h])]
      exact ih
    · rw [if_pos (by simp [h])]
      rw [rowGet_cons, if_neg h]
      exact ih

lemma rowGet_rowErase_ne {r : Row} {k k2 : Str} (h : k2 ≠ k) :
    rowGet (rowErase r k) k2 = rowGet r k2 := by
  induction r with
  | nil => rfl
  | cons p rest ih =>
    rcases p with ⟨k', v'⟩
    unfold rowErase at ih ⊢
    rw [List.filter_cons]
    by_cases hk : k' = k
    · rw [if_neg (by simp [hk])]
      rw [ih, rowGet_cons, if_neg (by rw [hk]; exact fun hkk => h hkk.symm)]
    · rw [if_pos (by simp [hk])]
      rw [rowGet_cons, rowGet_cons]
      by_cases hk2 : k' = k2
      · rw [if_pos hk2, if_pos hk2]
      · rw [if_neg hk2, if_neg hk2]
        exact ih

lemma firstNonBlank_congr {r r' : Row} :
    ∀ {keys : List Str}, (∀ k ∈ keys, rowGet r k = rowGet r' k) →
      firstNonBlank r keys = firstNonBlank r' keys := by
  intro keys
  induction keys with
  | nil => intro _; rfl
  | cons k ks ih =>
    intro h
    unfold firstNonBlank
    rw [← h k (List.mem_cons_self _ _)]
    cases rowGet r k with
    | none => exact ih (fun k2 hk2 => h k2 (List.mem_cons_of_mem _ hk2))
    | some v =>
      dsimp only
      split
      · exact ih (fun k2 hk2 => h k2 (List.mem_cons_of_mem _ hk2))
      · rfl

lemma firstNonBlank_cons {r : Row} {k : Str} {keys : List Str} :
    firstNonBlank r (k :: keys) =
      match rowGet r k with
      | some v => if emptyishV v then firstNonBlank r keys else some v
      | none => firstNonBlank r keys := rfl

lemma firstNonBlank_some_nonblank {r : Row} :
    ∀ {keys : List Str} {v : Str}, firstNonBlank r keys = some v →
      emptyishV v = false := by
  intro keys
  induction keys with
  | nil => intro v h; cases h
  | cons k ks ih =>
    intro v h
    rw [firstNonBlank_cons] at h
    cases hg : rowGet r k with
    | none => rw [hg] at h; exact ih h
    | some w =>
      rw [hg] at h
      dsimp only at h
      split at h
      · exact ih h
      · next hw =>
        injection h with h
        subst h
        simpa using hw

lemma firstNonBlank_none_iff {r : Row} :
    ∀ {keys : List Str}, firstNonBlank r keys = none ↔
      ∀ k ∈ keys, emptyish (rowGet r k) = true := by
  intro keys
  induction keys with
  | nil => simp [firstNonBlank]
  | cons k ks ih =>
    rw [firstNonBlank_cons]
    cases hg : rowGet r k with
    | none =>
      simp only [List.mem_cons]
      constructor
      · intro h k2 hk2
        rcases hk2 with hk2 | hk2
        · rw [hk2, hg]; rfl
        · exact ih.mp h k2 hk2
      · intro h
        exact ih.mpr (fun k2 hk2 => h k2 (Or.inr hk2))
    | some w =>
      dsimp only
      split
      · next hw =>
        simp only [List.mem_cons]
        constructor
        · intro h k2 hk2
          rcases hk2 with hk2 | hk2
          · rw [hk2, hg]; exact hw
          · exact ih.mp h k2 hk2
        · intro h
          exact ih.mpr (fun k2 hk2 => h k2 (Or.inr hk2))
      · next hw =>
        constructor
        · intro h2; cases h2
        · intro h2
          have h3 := h2 k (List.mem_cons_self _ _)
          rw [hg] at h3
          have h4 : emptyishV w = true := h3
          exact absurd h4 hw

lemma firstNonBlank_append {r : Row} (ks1 ks2 : List Str) :
    firstNonBlank r (ks1 ++ ks2) =
      match firstNonBlank r ks1 with
      | some v => some v
      | none => firstNonBlank r ks2 := by
  induction ks1 with
  | nil => rfl
  | cons k ks ih =>
    rw [List.cons_append, firstNonBlank_cons, @firstNonBlank_cons r k ks]
    cases hg : rowGet r k with
    | none => exact ih
    | some w =>
      dsimp only
      by_cases hv : emptyishV w = true
      · rw [if_pos hv, if_pos hv]
        exact ih
      · rw [if_neg hv, if_neg hv]

lemma fillLoop_other {v : Str} {k : Str} :
    ∀ {L : List Str} {r : Row}, k ∉ L → rowGet (fillLoop v L r) k = rowGet r k := by
  intro L
  induction L with
  | nil => intro r _; rfl
  | cons c cs ih =>
    intro r hk
    unfold fillLoop at ih ⊢
    rw [List.foldl_cons]
    have hkc : k ≠ c := fun h => hk (h ▸ List.mem_cons_self _ _)
    have hkcs : k ∉ cs := fun h => hk (List.mem_cons_of_mem _ h)
    split
    · rw [ih hkcs, rowGet_rowSet_ne hkc]
    · exact ih hkcs

lemma fillLoop_cons {v c : Str} {cs : List Str} {r : Row} :
    fillLoop v (c :: cs) r =
      fillLoop v cs (if emptyish (rowGet r c) then rowSet r c v else r) := rfl

lemma fillLoop_mem {v : Str} {c : Str} :
    ∀ {L : List Str} {r : Row}, c ∈ L → L.Nodup →
      rowGet (fillLoop v L r) c =
        if emptyish (rowGet r c) then some v else rowGet r c := by
  intro L
  induction L with
  | nil => intro r h; exact fun _ => absurd h (List.not_mem_nil c)
  | cons c' cs ih =>
    intro r hc hnd
    rw [fillLoop_cons]
    rcases List.mem_cons.mp hc with hc1 | hc1
    · subst hc1
      have hnotin : c ∉ cs := (List.nodup_cons.mp hnd).1
      rw [fillLoop_other hnotin]
      by_cases hb : emptyish (rowGet r c) = true
      · rw [if_pos hb, if_pos hb, rowGet_rowSet_self]
      · rw [if_neg hb, if_neg hb]
    · have hcc : c ≠ c' := fun h => (List.nodup_cons.mp hnd).1 (h ▸ hc1)
      by_cases hb : emptyish (rowGet r c') = true
      · rw [if_pos hb, ih hc1 (List.nodup_cons.mp hnd).2, rowGet_rowSet_ne hcc]
      · rw [if_neg hb, ih hc1 (List.nodup_cons.mp hnd).2]

lemma fillLoop_noop {v : Str} :
    ∀ {L : List Str} {r : Row}, (∀ c ∈ L, emptyish (rowGet r c) = false) →
      fillLoop v L r = r := by
  intro L
  induction L with
  | nil => intro r _; rfl
  | cons c cs ih =>
    intro r h
    rw [fillLoop_cons, if_neg (by rw [h c (List.mem_cons_self _ _)]; simp)]
    exact ih (fun c2 hc2 => h c2 (List.mem_cons_of_mem _ hc2))

lemma rowGet_eq_none_iff {r : Row} {k : Str} :
    rowGet r k = none ↔ ∀ p ∈ r, p.1 ≠ k := by
  unfold rowGet
  constructor
  · intro h p hp hpk
    cases hf : List.find? (fun p => decide (p.1 = k)) r with
    | some q => rw [hf] at h; cases h
    | none =>
      rw [List.find?_eq_none] at hf
      have h2 : p.1 ≠ k := by simpa using hf p hp
      exact h2 hpk
  · intro h
    rw [List.find?_eq_none.mpr (fun p hp => by simpa using h p hp)]
    rfl

lemma rowErase_noop {r : Row} {k : Str} (h : rowGet r k = none) :
    rowErase r k = r := by
  rw [rowGet_eq_none_iff] at h
  unfold rowErase
  exact List.filter_eq_self.mpr (fun p hp => by simpa using h p hp)

end XLSForm
namespace XLSForm

lemma expandCols_mem {L : List Str} {g : Str} {cols : List Str} {c : Str} :
    c ∈ expandCols L g cols ↔ (c ∈ cols ∨ c ∈ L) ∧ c ≠ g := by
  unfold expandCols
  have hrem : ∀ x, x ∈ cols.filter (fun c => decide (c ∉ L)) ↔ x ∈ cols ∧ x ∉ L := by
    intro x
    rw [List.mem_filter]
    simp
  cases hidx : cols.findIdx? (fun c => decide (c ∈ L)) with
  | none =>
    dsimp only
    rw [List.mem_filter, List.mem_append, hrem]
    simp only [decide_eq_true_eq]
    tauto
  | some i =>
    dsimp only
    rw [List.mem_filter, List.mem_append, List.mem_append]
    simp only [decide_eq_true_eq]
    constructor
    · rintro ⟨hmem, hne⟩
      refine ⟨?_, hne⟩
      rcases hmem with (hmem | hmem) | hmem
      · have := (hrem c).mp ((List.take_sublist _ _).mem hmem)
        exact Or.inl this.1
      · exact Or.inr hmem
      · have := (hrem c).mp ((List.drop_sublist _ _).mem hmem)
        exact Or.inl this.1
    · rintro ⟨hmem, hne⟩
      refine ⟨?_, hne⟩
      by_cases hcL : c ∈ L
      · exact Or.inl (Or.inr hcL)
      · rcases hmem with hmem | hmem
        · have hc2 : c ∈ cols.filter (fun c => decide (c ∉ L)) := (hrem c).mpr ⟨hmem, hcL⟩
          rw [← List.take_append_drop i (cols.filter (fun c => decide (c ∉ L))),
            List.mem_append] at hc2
          rcases hc2 with hc2 | hc2
          · exact Or.inl (Or.inl hc2)
          · exact Or.inr hc2
        · exact absurd hmem hcL

lemma mem_map_variant {f g h : Str} (hf : f ∈ userFacingFields)
    (hg : g ∈ userFacingFields) {hs : List Str} :
    (f ++ sl "::" ++ h) ∈ hs.map (fun h2 => g ++ sl "::" ++ h2) ↔ f = g ∧ h ∈ hs := by
  rw [List.mem_map]
  constructor
  · rintro ⟨h2, hmem, heq⟩
    obtain ⟨hfg, hh⟩ := variant_inj hg hf heq
    exact ⟨hfg.symm, hh ▸ hmem⟩
  · rintro ⟨hfg, hmem⟩
    exact ⟨h, hmem, by rw [hfg]⟩

lemma bare_not_mem_map_variant {f g : Str} (hf : f ∈ userFacingFields)
    (hg : g ∈ userFacingFields) {hs : List Str} :
    f ∉ hs.map (fun h2 => g ++ sl "::" ++ h2) := by
  rw [List.mem_map]
  rintro ⟨h2, _, heq⟩
  exact bare_ne_variant hf hg heq.symm

lemma fieldPresent_true_iff {f : Str} {hs cols : List Str} :
    fieldPresent f hs cols = true ↔
      f ∈ cols ∨ ∃ h ∈ hs, (f ++ sl "::" ++ h) ∈ cols := by
  unfold fieldPresent
  rw [Bool.or_eq_true, List.any_eq_true]
  simp only [decide_eq_true_eq, List.mem_map]
  constructor
  · rintro (h1 | ⟨c, ⟨h2, hmem, hc⟩, hcc⟩)
    · exact Or.inl h1
    · exact Or.inr ⟨h2, hmem, hc ▸ hcc⟩
  · rintro (h1 | ⟨h2, hmem, hc⟩)
    · exact Or.inl h1
    · exact Or.inr ⟨f ++ sl "::" ++ h2, ⟨h2, hmem, rfl⟩, hc⟩

lemma fieldPresent_congr {f : Str} {hs cols cols' : List Str}
    (hb : f ∈ cols' ↔ f ∈ cols)
    (hv : ∀ h ∈ hs, ((f ++ sl "::" ++ h) ∈ cols') ↔ (f ++ sl "::" ++ h) ∈ cols) :
    fieldPresent f hs cols' = fieldPresent f hs cols := by
  cases hfp : fieldPresent f hs cols with
  | true =>
    rw [fieldPresent_true_iff] at hfp ⊢
    rcases hfp with h1 | ⟨h2, hmem, hc⟩
    · exact Or.inl (hb.mpr h1)
    · exact Or.inr ⟨h2, hmem, (hv h2 hmem).mpr hc⟩
  | false =>
    rw [Bool.eq_false_iff] at hfp ⊢
    intro hcon
    apply hfp
    rw [fieldPresent_true_iff] at hcon ⊢
    rcases hcon with h1 | ⟨h2, hmem, hc⟩
    · exact Or.inl (hb.mp h1)
    · exact Or.inr ⟨h2, hmem, (hv h2 hmem).mp hc⟩

lemma collectHeader_none {acc : List Str} {c : Str} (h : columnHeader? c = none) :
    collectHeader acc c = acc := by
  unfold collectHeader
  rw [h]

lemma collectHeader_some {acc : List Str} {c h : Str} (hh : columnHeader? c = some h) :
    collectHeader acc c = if h ∈ acc then acc else acc ++ [h] := by
  unfold collectHeader
  rw [hh]

lemma collect_extend : ∀ (l : List Str) (acc : List Str),
    ∃ t, l.foldl collectHeader acc = acc ++ t := by
  intro l
  induction l with
  | nil => intro acc; exact ⟨[], by simp⟩
  | cons c cs ih =>
    intro acc
    rw [List.foldl_cons]
    cases hch : columnHeader? c with
    | none =>
      rw [collectHeader_none hch]
      exact ih acc
    | some h =>
      rw [collectHeader_some hch]
      by_cases hmem : h ∈ acc
      · rw [if_pos hmem]; exact ih acc
      · rw [if_neg hmem]
        obtain ⟨t, ht⟩ := ih (acc ++ [h])
        exact ⟨[h] ++ t, by rw [ht, List.append_assoc]⟩

lemma collect_mem : ∀ (l acc : List Str) (h : Str),
    h ∈ l.foldl collectHeader acc ↔ h ∈ acc ∨ ∃ c ∈ l, columnHeader? c = some h := by
  intro l
  induction l with
  | nil => intro acc h; simp
  | cons c cs ih =>
    intro acc h
    rw [List.foldl_cons, ih]
    have hstep : h ∈ collectHeader acc c ↔ h ∈ acc ∨ columnHeader? c = some h := by
      cases hch : columnHeader? c with
      | none =>
        rw [collectHeader_none hch]
        simp
      | some h2 =>
        rw [collectHeader_some hch]
        by_cases hmem : h2 ∈ acc
        · rw [if_pos hmem]
          constructor
          · exact Or.inl
          · rintro (h1 | h1)
            · exact h1
            · injection h1 with h1; exact h1 ▸ hmem
        · rw [if_neg hmem, List.mem_append, List.mem_singleton]
          constructor
          · rintro (h1 | h1)
            · exact Or.inl h1
            · exact Or.inr (h1 ▸ rfl)
          · rintro (h1 | h1)
            · exact Or.inl h1
            · injection h1 with h1; exact Or.inr h1.symm
    rw [hstep]
    simp only [List.mem_cons]
    constructor
    · rintro ((h1 | h1) | ⟨c2, hc2, hch2⟩)
      · exact Or.inl h1
      · exact Or.inr ⟨c, Or.inl rfl, h1⟩
      · exact Or.inr ⟨c2, Or.inr hc2, hch2⟩
    · rintro (h1 | ⟨c2, (hc2 | hc2), hch2⟩)
      · exact Or.inl (Or.inl h1)
      · exact Or.inl (Or.inr (hc2 ▸ hch2))
      · exact Or.inr ⟨c2, hc2, hch2⟩

lemma collect_nodup : ∀ (l acc : List Str), acc.Nodup → (l.foldl collectHeader acc).Nodup := by
  intro l
  induction l with
  | nil => intro acc h; exact h
  | cons c cs ih =>
    intro acc hnd
    rw [List.foldl_cons]
    apply ih
    cases hch : columnHeader? c with
    | none => rw [collectHeader_none hch]; exact hnd
    | some h =>
      rw [collectHeader_some hch]
      by_cases hmem : h ∈ acc
      · rw [if_pos hmem]; exact hnd
      · rw [if_neg hmem]
        rw [List.nodup_append]
        exact ⟨hnd, List.nodup_singleton h, by simpa using fun hc => hmem hc⟩

lemma collect_absorb : ∀ (l acc : List Str),
    (∀ c ∈ l, ∀ h, columnHeader? c = some h → h ∈ acc) →
    l.foldl collectHeader acc = acc := by
  intro l
  induction l with
  | nil => intro acc _; rfl
  | cons c cs ih =>
    intro acc habs
    rw [List.foldl_cons]
    have hstep : collectHeader acc c = acc := by
      cases hch : columnHeader? c with
      | none => exact collectHeader_none hch
      | some h =>
        rw [collectHeader_some hch, if_pos (habs c (List.mem_cons_self _ _) h hch)]
    rw [hstep]
    exact ih acc (fun c2 hc2 => habs c2 (List.mem_cons_of_mem _ hc2))

lemma dedupAppend_mem {base l : List Str} {c : Str} :
    c ∈ dedupAppend base l ↔ c ∈ base ∨ c ∈ l := by
  unfold dedupAppend
  induction l generalizing base with
  | nil => simp
  | cons k ks ih =>
    rw [List.foldl_cons]
    by_cases hk : k ∈ base
    · rw [if_pos hk, ih]
      simp only [List.mem_cons]
      constructor
      · rintro (h | h)
        · exact Or.inl h
        · exact Or.inr (Or.inr h)
      · rintro (h | h | h)
        · exact Or.inl h
        · exact Or.inl (h ▸ hk)
        · exact Or.inr h
    · rw [if_neg hk, ih]
      simp only [List.mem_append, List.mem_singleton, List.mem_cons]
      tauto

lemma dedupAppend_nodup {base l : List Str} (h : base.Nodup) :
    (dedupAppend base l).Nodup := by
  unfold dedupAppend
  induction l generalizing base with
  | nil => exact h
  | cons k ks ih =>
    rw [List.foldl_cons]
    by_cases hk : k ∈ base
    · rw [if_pos hk]; exact ih h
    · rw [if_neg hk]
      apply ih
      rw [List.nodup_append]
      exact ⟨h, List.nodup_singleton k, by simpa using fun hc => hk hc⟩

lemma phaseACols_mem_nk {columns : List Str} {rows : List Row} {c : Str}
    (hc : c ∈ phaseACols columns rows) : ∃ k, c = nk k := by
  unfold phaseACols at hc
  rw [dedupAppend_mem, dedupAppend_mem] at hc
  rcases hc with (hc | hc) | hc
  · cases hc
  · obtain ⟨k, _, hk⟩ := List.mem_map.mp hc
    exact ⟨k, hk.symm⟩
  · obtain ⟨k, _, hk⟩ := List.mem_map.mp hc
    exact ⟨k, hk.symm⟩

lemma phaseACols_nodup (columns : List Str) (rows : List Row) :
    (phaseACols columns rows).Nodup :=
  dedupAppend_nodup (dedupAppend_nodup List.nodup_nil)

lemma headers_mem_iff {cols : List Str} {h : Str} :
    h ∈ languageHeadersFromColumns cols ↔ ∃ c ∈ cols, columnHeader? c = some h := by
  unfold languageHeadersFromColumns
  rw [collect_mem]
  simp

lemma headers_nodup (cols : List Str) : (languageHeadersFromColumns cols).Nodup :=
  collect_nodup cols [] List.nodup_nil

end XLSForm
namespace XLSForm



lemma headers_headerOk {cols : List Str} {h : Str}
    (hmem : h ∈ languageHeadersFromColumns cols) : headerOk h := by
  obtain ⟨c, _, hch⟩ := headers_mem_iff.mp hmem
  exact columnHeader?_props hch

lemma variantHeader?_canonical_ok {f h : Str} (hf : f ∈ userFacingFields)
    (hok : headerOk h) (g : Str) :
    variantHeader? g (f ++ sl "::" ++ h) = if f = g then some h else none :=
  variantHeader?_canonical hf hok.1 hok.2.1 hok.2.2.1 hok.2.2.2 g

lemma variantHeader?_self {f h : Str} (hf : f ∈ userFacingFields)
    (hok : headerOk h) : variantHeader? f (f ++ sl "::" ++ h) = some h := by
  rw [variantHeader?_canonical_ok hf hok f, if_pos rfl]

lemma columnHeader?_variant {f h : Str} (hf : f ∈ userFacingFields)
    (hok : headerOk h) : columnHeader? (f ++ sl "::" ++ h) = some h :=
  (variantHeader?_iff.mp (variantHeader?_self hf hok)).2

lemma exact_phaseA {columns : List Str} {rows : List Row} {f c h : Str}
    (hc : c ∈ phaseACols columns rows) (hv : variantHeader? f c = some h) :
    c = f ++ sl "::" ++ h ∧ h ∈ languageHeadersFromColumns (phaseACols columns rows) := by
  obtain ⟨k, hk⟩ := phaseACols_mem_nk hc
  subst hk
  exact ⟨nk_variant_canonical hv,
    headers_mem_iff.mpr ⟨nk k, hc, (variantHeader?_iff.mp hv).2⟩⟩









lemma expandStep_eq (hs : List Str) (cols : List Str) (rows : List Row) (g : Str) :
    expandStep hs (cols, rows) g = (colStep hs cols g, rows.map (rowStep hs cols g)) := by
  unfold expandStep colStep rowStep
  by_cases h : fieldPresent g hs cols = true
  · simp only [h, if_true]
  · simp only [h, if_false, Bool.false_eq_true]
    rw [List.map_id']

lemma expandFold_eq (hs : List Str) :
    ∀ (gs : List Str) (cols : List Str) (rows : List Row),
      gs.foldl (expandStep hs) (cols, rows) =
        (colsFold hs gs cols, rows.map (fieldFold hs gs cols)) := by
  intro gs
  induction gs with
  | nil =>
    intro cols rows
    show (cols, rows) = (cols, rows.map (fun r => r))
    rw [List.map_id']
  | cons g gs ih =>
    intro cols rows
    rw [List.foldl_cons, expandStep_eq, ih, List.map_map]
    rfl

lemma colStep_mem_other {f g : Str} (hf : f ∈ userFacingFields)
    (hg : g ∈ userFacingFields) (hfg : g ≠ f) (hs cols : List Str) :
    (f ∈ colStep hs cols g ↔ f ∈ cols) ∧
    (∀ x, (f ++ sl "::" ++ x) ∈ colStep hs cols g ↔ (f ++ sl "::" ++ x) ∈ cols) := by
  unfold colStep
  split
  · constructor
    · rw [expandCols_mem]
      constructor
      · rintro ⟨hmem | hmem, _⟩
        · exact hmem
        · exact absurd hmem (bare_not_mem_map_variant hf hg)
      · intro hmem
        exact ⟨Or.inl hmem, fun h => hfg h.symm⟩
    · intro x
      rw [expandCols_mem]
      constructor
      · rintro ⟨hmem | hmem, _⟩
        · exact hmem
        · exact absurd ((mem_map_variant hf hg).mp hmem).1.symm hfg
      · intro hmem
        exact ⟨Or.inl hmem, (bare_ne_variant hg hf).symm⟩
  · exact ⟨Iff.rfl, fun _ => Iff.rfl⟩

lemma colStep_exact {f g : Str} {hs cols : List Str} (hg : g ∈ userFacingFields)
    (hok : ∀ h ∈ hs, headerOk h)
    (hex : ∀ c ∈ cols, ∀ h, variantHeader? f c = some h →
      c = f ++ sl "::" ++ h ∧ h ∈ hs) :
    ∀ c ∈ colStep hs cols g, ∀ h, variantHeader? f c = some h →
      c = f ++ sl "::" ++ h ∧ h ∈ hs := by
  unfold colStep
  split
  · intro c hc h hv
    obtain ⟨hmem | hmem, _⟩ := expandCols_mem.mp hc
    · exact hex c hmem h hv
    · obtain ⟨h2, hh2, hc2⟩ := List.mem_map.mp hmem
      rw [← hc2, variantHeader?_canonical_ok hg (hok h2 hh2) f] at hv
      split at hv
      · next hgf =>
        injection hv with hv
        subst hv
        rw [← hc2, hgf]
        exact ⟨rfl, hh2⟩
      · cases hv
  · exact hex

lemma colStep_establish {f : Str} {hs cols : List Str} (hf : f ∈ userFacingFields)
    (hpres : fieldPresent f hs cols = true) :
    f ∉ colStep hs cols f ∧ ∀ h ∈ hs, (f ++ sl "::" ++ h) ∈ colStep hs cols f := by
  unfold colStep
  rw [if_pos hpres]
  constructor
  · intro hmem
    exact (expandCols_mem.mp hmem).2 rfl
  · intro h hm
    exact expandCols_mem.mpr
      ⟨Or.inr (List.mem_map.mpr ⟨h, hm, rfl⟩), (bare_ne_variant hf hf).symm⟩

lemma colStep_fieldPresent {f g : Str} (hf : f ∈ userFacingFields)
    (hg : g ∈ userFacingFields) (hfg : g ≠ f) (hs cols : List Str) :
    fieldPresent f hs (colStep hs cols g) = fieldPresent f hs cols := by
  obtain ⟨hb, hv⟩ := colStep_mem_other hf hg hfg hs cols
  exact fieldPresent_congr hb (fun h _ => hv h)

lemma colsFold_mem_other {f : Str} (hf : f ∈ userFacingFields) {hs : List Str} :
    ∀ {gs cols : List Str}, (∀ g ∈ gs, g ∈ userFacingFields) → f ∉ gs →
      ((f ∈ colsFold hs gs cols ↔ f ∈ cols) ∧
       (∀ x, (f ++ sl "::" ++ x) ∈ colsFold hs gs cols ↔ (f ++ sl "::" ++ x) ∈ cols)) := by
  intro gs
  induction gs with
  | nil => intro cols _ _; exact ⟨Iff.rfl, fun _ => Iff.rfl⟩
  | cons g gs ih =>
    intro cols hgs hnot
    have hg : g ∈ userFacingFields := hgs g (List.mem_cons_self _ _)
    have hfg : g ≠ f := fun h => hnot (h ▸ List.mem_cons_self _ _)
    have hstep := colStep_mem_other hf hg hfg hs cols
    have hih := @ih (colStep hs cols g)
      (fun g2 hg2 => hgs g2 (List.mem_cons_of_mem _ hg2))
      (fun h => hnot (List.mem_cons_of_mem _ h))
    exact ⟨hih.1.trans hstep.1, fun x => (hih.2 x).trans (hstep.2 x)⟩

lemma colsFold_exact {f : Str} {hs : List Str} (hok : ∀ h ∈ hs, headerOk h) :
    ∀ {gs cols : List Str}, (∀ g ∈ gs, g ∈ userFacingFields) →
      (∀ c ∈ cols, ∀ h, variantHeader? f c = some h →
        c = f ++ sl "::" ++ h ∧ h ∈ hs) →
      ∀ c ∈ colsFold hs gs cols, ∀ h, variantHeader? f c = some h →
        c = f ++ sl "::" ++ h ∧ h ∈ hs := by
  intro gs
  induction gs with
  | nil => intro cols _ hex; exact hex
  | cons g gs ih =>
    intro cols hgs hex
    exact ih (fun g2 hg2 => hgs g2 (List.mem_cons_of_mem _ hg2))
      (colStep_exact (hgs g (List.mem_cons_self _ _)) hok hex)

lemma colsFold_fieldPresent {f : Str} (hf : f ∈ userFacingFields) {hs : List Str} :
    ∀ {gs cols : List Str}, (∀ g ∈ gs, g ∈ userFacingFields) → f ∉ gs →
      fieldPresent f hs (colsFold hs gs cols) = fieldPresent f hs cols := by
  intro gs cols hgs hnot
  obtain ⟨hb, hv⟩ := colsFold_mem_other hf hgs hnot
  exact fieldPresent_congr hb (fun h _ => hv h)

lemma rowStep_other {f g : Str} (hf : f ∈ userFacingFields)
    (hg : g ∈ userFacingFields) (hfg : g ≠ f) (hs cols : List Str) (r : Row) :
    rowGet (rowStep hs cols g r) f = rowGet r f ∧
    (∀ x, rowGet (rowStep hs cols g r) (f ++ sl "::" ++ x) =
      rowGet r (f ++ sl "::" ++ x)) := by
  unfold rowStep
  split
  · unfold expandRowStep
    have hfill : ∀ k, k ∉ hs.map (fun h => g ++ sl "::" ++ h) → k ≠ g →
        rowGet (rowErase
          (if decide (g ∈ textFields) then
            fillRow (hs.map (fun h => g ++ sl "::" ++ h)) g r else r) g) k = rowGet r k := by
      intro k hkL hkg
      rw [rowGet_rowErase_ne hkg]
      split
      · unfold fillRow
        cases firstNonBlank r (hs.map (fun h => g ++ sl "::" ++ h) ++ [g]) with
        | none => rfl
        | some v => exact fillLoop_other hkL
      · rfl
    constructor
    · exact hfill f (bare_not_mem_map_variant hf hg) (fun h => hfg h.symm)
    · intro x
      exact hfill (f ++ sl "::" ++ x)
        (fun hmem => hfg ((mem_map_variant hf hg).mp hmem).1.symm)
        (bare_ne_variant hg hf).symm
  · exact ⟨rfl, fun _ => rfl⟩

end XLSForm
namespace XLSForm

lemma colsFold_nil {hs cols : List Str} : colsFold hs [] cols = cols := rfl

lemma fieldFold_nil {hs cols : List Str} {r : Row} : fieldFold hs [] cols r = r := rfl

lemma colsFold_cons {hs : List Str} {g : Str} {gs cols : List Str} :
    colsFold hs (g :: gs) cols = colsFold hs gs (colStep hs cols g) := rfl

lemma colsFold_append {hs : List Str} :
    ∀ {l1 l2 cols : List Str},
      colsFold hs (l1 ++ l2) cols = colsFold hs l2 (colsFold hs l1 cols) := by
  intro l1
  induction l1 with
  | nil => intro l2 cols; rfl
  | cons g gs ih =>
    intro l2 cols
    rw [List.cons_append, colsFold_cons, colsFold_cons]
    exact ih

lemma fieldFold_cons {hs : List Str} {g : Str} {gs cols : List Str} {r : Row} :
    fieldFold hs (g :: gs) cols r =
      fieldFold hs gs (colStep hs cols g) (rowStep hs cols g r) := rfl

lemma fieldFold_append {hs : List Str} :
    ∀ {l1 l2 cols : List Str} {r : Row},
      fieldFold hs (l1 ++ l2) cols r =
        fieldFold hs l2 (colsFold hs l1 cols) (fieldFold hs l1 cols r) := by
  intro l1
  induction l1 with
  | nil => intro l2 cols r; rfl
  | cons g gs ih =>
    intro l2 cols r
    rw [List.cons_append, fieldFold_cons, fieldFold_cons]
    exact ih

lemma fieldFold_other {f : Str} (hf : f ∈ userFacingFields) {hs : List Str} :
    ∀ {gs cols : List Str} {r : Row}, (∀ g ∈ gs, g ∈ userFacingFields) → f ∉ gs →
      rowGet (fieldFold hs gs cols r) f = rowGet r f ∧
      (∀ x, rowGet (fieldFold hs gs cols r) (f ++ sl "::" ++ x) =
        rowGet r (f ++ sl "::" ++ x)) := by
  intro gs
  induction gs with
  | nil => intro cols r _ _; exact ⟨rfl, fun _ => rfl⟩
  | cons g gs ih =>
    intro cols r hgs hnot
    have hg : g ∈ userFacingFields := hgs g (List.mem_cons_self _ _)
    have hfg : g ≠ f := fun h => hnot (h ▸ List.mem_cons_self _ _)
    rw [fieldFold_cons]
    have hstep := rowStep_other hf hg hfg hs cols r
    have hih := @ih (colStep hs cols g) (rowStep hs cols g r)
      (fun g2 hg2 => hgs g2 (List.mem_cons_of_mem _ hg2))
      (fun h => hnot (List.mem_cons_of_mem _ h))
    exact ⟨hih.1.trans hstep.1, fun x => (hih.2 x).trans (hstep.2 x)⟩

lemma rowStep_establish {f : Str} (hf : f ∈ userFacingFields) {hs cols : List Str}
    (hnd : hs.Nodup) (hpres : fieldPresent f hs cols = true) (r : Row) :
    rowGet (rowStep hs cols f r) f = none ∧
    ∀ h ∈ hs, rowGet (rowStep hs cols f r) (f ++ sl "::" ++ h) =
      if decide (f ∈ textFields) then
        match firstNonBlank r (hs.map (fun h2 => f ++ sl "::" ++ h2) ++ [f]) with
        | some v =>
          if emptyish (rowGet r (f ++ sl "::" ++ h)) then some v
          else rowGet r (f ++ sl "::" ++ h)
        | none => rowGet r (f ++ sl "::" ++ h)
      else rowGet r (f ++ sl "::" ++ h) := by
  unfold rowStep
  rw [if_pos hpres]
  unfold expandRowStep
  constructor
  · exact rowGet_rowErase_self _ f
  · intro h hm
    rw [rowGet_rowErase_ne (bare_ne_variant hf hf).symm]
    split
    · unfold fillRow
      cases hfb : firstNonBlank r (hs.map (fun h2 => f ++ sl "::" ++ h2) ++ [f]) with
      | none => rfl
      | some v =>
        dsimp only
        exact fillLoop_mem (List.mem_map.mpr ⟨h, hm, rfl⟩)
          (hnd.map (fun a b hab => (variant_inj hf hf hab).2))
    · rfl

end XLSForm
namespace XLSForm

attribute [irreducible] colStep rowStep colsFold fieldFold

lemma get_map_map {l : List Row} {F G : Row → Row} {i : Nat} (hi : i < l.length)
    (hi2 : i < ((l.map G).map F).length) :
    ((l.map G).map F).get ⟨i, hi2⟩ = F (G (l.get ⟨i, hi⟩)) := by
  simp [List.getElem_map]

lemma normalize_eq_fold {columns : List Str} {rows : List Row}
    (hact : languageHeadersFromColumns (phaseACols columns rows) ≠ []) :
    normalizeLanguageColumnsAndRows columns rows =
      (colsFold (languageHeadersFromColumns (phaseACols columns rows))
        userFacingFields (phaseACols columns rows),
       (rows.map rebuildRow).map
        (fieldFold (languageHeadersFromColumns (phaseACols columns rows))
          userFacingFields (phaseACols columns rows))) := by
  unfold normalizeLanguageColumnsAndRows
  dsimp only
  rw [if_neg hact, expandFold_eq]

set_option maxHeartbeats 1000000 in
/-- C1: after language normalization with at least one active language
header, every user-facing field that is present (as the bare column, which
phase A also unions row keys into, or as an active-language variant) is
expanded to exactly the active variant block: the bare field is gone from
the column list and from every row, every active header's variant column
exists, every f-variant column of the output (in the sense of the
header-extraction pattern) carries an active header, and on each row a
text field's variant cells receive the first non-blank fallback scanned
over the variant columns in header order and then the bare field, while a
media field's variant cells are copied unchanged (never auto-filled). -/
theorem language_expansion_completeness
    (columns : List Str) (rows : List Row) (f : Str)
    (hf : f ∈ userFacingFields)
    (hact : languageHeadersFromColumns (phaseACols columns rows) ≠ [])
    (hpres : fieldPresent f (languageHeadersFromColumns (phaseACols columns rows))
      (phaseACols columns rows) = true) :
    f ∉ (normalizeLanguageColumnsAndRows columns rows).1 ∧
    (∀ h ∈ languageHeadersFromColumns (phaseACols columns rows),
      (f ++ sl "::" ++ h) ∈ (normalizeLanguageColumnsAndRows columns rows).1) ∧
    (∀ c ∈ (normalizeLanguageColumnsAndRows columns rows).1, ∀ h,
      variantHeader? f c = some h →
        c = f ++ sl "::" ++ h ∧
        h ∈ languageHeadersFromColumns (phaseACols columns rows)) ∧
    (normalizeLanguageColumnsAndRows columns rows).2.length = rows.length ∧
    (∀ i (hi : i < rows.length)
        (hi2 : i < (normalizeLanguageColumnsAndRows columns rows).2.length),
      rowGet ((normalizeLanguageColumnsAndRows columns rows).2.get ⟨i, hi2⟩) f = none ∧
      ∀ h ∈ languageHeadersFromColumns (phaseACols columns rows),
        rowGet ((normalizeLanguageColumnsAndRows columns rows).2.get ⟨i, hi2⟩)
            (f ++ sl "::" ++ h) =
          if decide (f ∈ textFields) then
            match firstNonBlank (rebuildRow (rows.get ⟨i, hi⟩))
                ((languageHeadersFromColumns (phaseACols columns rows)).map
                  (fun h2 => f ++ sl "::" ++ h2) ++ [f]) with
            | some v =>
              if emptyish (rowGet (rebuildRow (rows.get ⟨i, hi⟩))
                  (f ++ sl "::" ++ h)) then some v
              else rowGet (rebuildRow (rows.get ⟨i, hi⟩)) (f ++ sl "::" ++ h)
            | none => rowGet (rebuildRow (rows.get ⟨i, hi⟩)) (f ++ sl "::" ++ h)
          else rowGet (rebuildRow (rows.get ⟨i, hi⟩)) (f ++ sl "::" ++ h)) := by
  obtain ⟨pre, post, heq⟩ := List.append_of_mem hf
  have hnduff : userFacingFields.Nodup := by decide
  have hndsplit : (pre ++ f :: post).Nodup := heq ▸ hnduff
  have hfpre : f ∉ pre := by
    have hdisj := List.disjoint_of_nodup_append hndsplit
    intro hmem
    exact hdisj hmem (List.mem_cons_self _ _)
  have hfpost : f ∉ post :=
    (List.nodup_cons.mp (hndsplit.of_append_right)).1
  have hpremem : ∀ g ∈ pre, g ∈ userFacingFields := by
    intro g hg
    rw [heq]
    exact List.mem_append.mpr (Or.inl hg)
  have hpostmem : ∀ g ∈ post, g ∈ userFacingFields := by
    intro g hg
    rw [heq]
    exact List.mem_append.mpr (Or.inr (List.mem_cons_of_mem _ hg))
  rw [normalize_eq_fold hact]
  set HS := languageHeadersFromColumns (phaseACols columns rows) with hHS
  set C2 := phaseACols columns rows with hC2
  have hok : ∀ h ∈ HS, headerOk h :=
    fun h hm => headers_headerOk hm
  have hnd : HS.Nodup := headers_nodup _
  have hex0 : ∀ c ∈ C2, ∀ h,
      variantHeader? f c = some h → c = f ++ sl "::" ++ h ∧ h ∈ HS :=
    fun c hc h hv => exact_phaseA hc hv
  have hcolsdec : colsFold HS userFacingFields C2 =
      colsFold HS post (colStep HS (colsFold HS pre C2) f) := by
    rw [heq, colsFold_append, colsFold_cons]
  have hpresmid : fieldPresent f HS (colsFold HS pre C2) = true := by
    rw [colsFold_fieldPresent hf hpremem hfpre]
    exact hpres
  have hest := colStep_establish hf hpresmid
  have hpostpres := @colsFold_mem_other f hf HS post
    (colStep HS (colsFold HS pre C2) f)
    hpostmem hfpost
  refine ⟨?_, ?_, ?_, ?_, ?_⟩
  · rw [hcolsdec]
    intro hmem
    exact hest.1 (hpostpres.1.mp hmem)
  · intro h hm
    rw [hcolsdec]
    exact (hpostpres.2 h).mpr (hest.2 h hm)
  · exact colsFold_exact hok (fun g hg => hg) hex0
  · rw [List.length_map, List.length_map]
  · intro i hi hi2
    have hget : ((rows.map rebuildRow).map
        (fieldFold HS userFacingFields C2)).get ⟨i, hi2⟩ =
        fieldFold HS userFacingFields C2
          (rebuildRow (rows.get ⟨i, hi⟩)) := get_map_map hi hi2
    rw [hget]
    have hffdec : fieldFold HS userFacingFields C2
        (rebuildRow (rows.get ⟨i, hi⟩)) =
        fieldFold HS post (colStep HS (colsFold HS pre C2) f)
          (rowStep HS (colsFold HS pre C2) f
            (fieldFold HS pre C2
              (rebuildRow (rows.get ⟨i, hi⟩)))) := by
      rw [heq, fieldFold_append, fieldFold_cons]
    rw [hffdec]
    have hpreq := @fieldFold_other f hf HS
      pre C2
      (rebuildRow (rows.get ⟨i, hi⟩)) hpremem hfpre
    have hestr := rowStep_establish hf hnd hpresmid
      (fieldFold HS pre C2 (rebuildRow (rows.get ⟨i, hi⟩)))
    have hpostq := @fieldFold_other f hf HS
      post
      (colStep HS (colsFold HS pre C2) f)
      (rowStep HS (colsFold HS pre C2) f
        (fieldFold HS pre C2 (rebuildRow (rows.get ⟨i, hi⟩))))
      hpostmem hfpost
    constructor
    · rw [hpostq.1, hestr.1]
    · intro h hm
      rw [hpostq.2 h, hestr.2 h hm]
      have hfnb : firstNonBlank
          (fieldFold HS pre C2 (rebuildRow (rows.get ⟨i, hi⟩)))
          (HS.map (fun h2 => f ++ sl "::" ++ h2) ++ [f]) =
          firstNonBlank (rebuildRow (rows.get ⟨i, hi⟩))
          (HS.map (fun h2 => f ++ sl "::" ++ h2) ++ [f]) := by
        apply firstNonBlank_congr
        intro k hk
        rcases List.mem_append.mp hk with hk | hk
        · obtain ⟨h2, _, hk2⟩ := List.mem_map.mp hk
          rw [← hk2]
          exact hpreq.2 h2
        · rw [List.mem_singleton.mp hk]
          exact hpreq.1
      rw [hfnb, hpreq.2 h]

end XLSForm
namespace XLSForm

/-- Witness for C1: on the survey columns `type, name, label::English (en)`
with one row labelled `Hi`, the field `label` is present and active, and
normalization removes the bare `label` column. -/
theorem language_expansion_completeness_witness :
    (sl "label") ∉ (normalizeLanguageColumnsAndRows
      [sl "type", sl "name", sl "label::English (en)"]
      [[(sl "label::English (en)", sl "Hi")]]).1 :=
  (language_expansion_completeness
    [sl "type", sl "name", sl "label::English (en)"]
    [[(sl "label::English (en)", sl "Hi")]]
    (sl "label") (by decide) (by decide) (by decide)).1

end XLSForm
namespace XLSForm

lemma dedupAppend_append {base l1 l2 : List Str} :
    dedupAppend base (l1 ++ l2) = dedupAppend (dedupAppend base l1) l2 := by
  unfold dedupAppend
  exact List.foldl_append _ _ _ _

lemma dedupAppend_absorbed : ∀ {l base : List Str}, (∀ x ∈ l, x ∈ base) →
    dedupAppend base l = base := by
  intro l
  induction l with
  | nil => intro base _; rfl
  | cons k ks ih =>
    intro base h
    unfold dedupAppend at ih ⊢
    rw [List.foldl_cons, if_pos (h k (List.mem_cons_self _ _))]
    exact ih (fun x hx => h x (List.mem_cons_of_mem _ hx))

lemma dedupAppend_of_disjoint : ∀ {l base : List Str}, l.Nodup →
    (∀ x ∈ l, x ∉ base) → dedupAppend base l = base ++ l := by
  intro l
  induction l with
  | nil => intro base _ _; simp [dedupAppend]
  | cons k ks ih =>
    intro base hnd hdisj
    unfold dedupAppend at ih ⊢
    rw [List.foldl_cons, if_neg (hdisj k (List.mem_cons_self _ _))]
    rw [ih (List.nodup_cons.mp hnd).2]
    · simp
    · intro x hx
      rw [List.mem_append, List.mem_singleton]
      rintro (hmem | hmem)
      · exact hdisj x (List.mem_cons_of_mem _ hx) hmem
      · exact (List.nodup_cons.mp hnd).1 (hmem ▸ hx)

lemma mem_allKeysOf_of_col {columns : List Str} {rows : List Row} {k : Str}
    (h : k ∈ columns) : k ∈ allKeysOf columns rows := by
  unfold allKeysOf
  rw [dedupAppend_mem]
  exact Or.inr (List.mem_append.mpr (Or.inl h))

lemma mem_allKeysOf_of_rowKey {columns : List Str} {rows : List Row} {r : Row} {k : Str}
    (hr : r ∈ rows) (h : k ∈ rowKeys r) : k ∈ allKeysOf columns rows := by
  unfold allKeysOf
  rw [dedupAppend_mem]
  refine Or.inr (List.mem_append.mpr (Or.inr ?_))
  rw [List.mem_flatten]
  exact ⟨rowKeys r, List.mem_map.mpr ⟨r, hr, rfl⟩, h⟩

lemma nk_mem_phaseACols {columns : List Str} {rows : List Row} {k : Str}
    (h : k ∈ allKeysOf columns rows) : nk k ∈ phaseACols columns rows := by
  unfold phaseACols
  rw [dedupAppend_mem]
  exact Or.inr (List.mem_map.mpr ⟨k, h, rfl⟩)

lemma columnHeader?_bare {f : Str} (hf : f ∈ userFacingFields) :
    columnHeader? f = none := by
  unfold columnHeader?
  rw [fieldSplit_bare hf]

lemma dropTrailingNl_eq_self {h : Str} (hl : h.getLast? ≠ some '\n') :
    dropTrailingNl h = h := by
  unfold dropTrailingNl
  rw [if_neg hl]

lemma dropWhile_eq_self_of_stripped {h : Str} (hs : pyStrip h = h) :
    h.dropWhile pyWs = h := by
  cases hh : h with
  | nil => rfl
  | cons c rest =>
    rw [List.dropWhile_cons]
    rw [pyStrip_head_not_ws (hh ▸ hs)]
    simp

lemma phaseACols_fixed {columns : List Str} {rows : List Row}
    (H : ∀ k ∈ allKeysOf columns rows, nk (nk k) = nk k) :
    ∀ c ∈ phaseACols columns rows, nk c = c := by
  intro c hc
  unfold phaseACols at hc
  rw [dedupAppend_mem, dedupAppend_mem] at hc
  rcases hc with (hc | hc) | hc
  · cases hc
  · obtain ⟨k, hk, hkc⟩ := List.mem_map.mp hc
    rw [← hkc]
    exact H k (mem_allKeysOf_of_col hk)
  · obtain ⟨k, hk, hkc⟩ := List.mem_map.mp hc
    rw [← hkc]
    exact H k hk

lemma nk_fix_header {c h : Str} (hfix : nk c = c) (hch : columnHeader? c = some h) :
    ∃ g rest, fieldSplit c = some (g, rest) ∧ rest = h ∧
      (normalizeLanguageTag h).header = h := by
  unfold columnHeader? at hch
  cases hfs : fieldSplit c with
  | none => rw [hfs] at hch; cases hch
  | some p =>
    rcases p with ⟨g, rest⟩
    rw [hfs] at hch
    dsimp only at hch
    split at hch
    · cases hch
    · next hcond =>
      push_neg at hcond
      split at hch
      · cases hch
      · next hne =>
        injection hch with hch
        unfold nk normalizeLanguageColumnName at hfix
        rw [hfs] at hfix
        dsimp only at hfix
        have hGprops : (dropTrailingNl rest).dropWhile pyWs ≠ [] ∧
            '\n' ∉ (dropTrailingNl rest).dropWhile pyWs := by
          constructor
          · intro hnil
            apply hne
            rw [pyStrip_eq_nil_iff]
            intro d hd
            by_contra hdw
            have hsplit2 : dropTrailingNl rest =
                (dropTrailingNl rest).takeWhile pyWs ++
                  (dropTrailingNl rest).dropWhile pyWs :=
              (List.takeWhile_append_dropWhile _ _).symm
            rw [hnil, List.append_nil] at hsplit2
            rw [hsplit2] at hd
            exact hdw (List.mem_takeWhile_imp hd)
          · intro hmem
            exact hcond.2 ((List.dropWhile_sublist _).mem hmem)
        rw [if_neg (by push_neg; exact hGprops)] at hfix
        have hhead : ∃ d ds, (dropTrailingNl rest).dropWhile pyWs = d :: ds ∧
            pyWs d = false := by
          cases hg2 : (dropTrailingNl rest).dropWhile pyWs with
          | nil => exact absurd hg2 hGprops.1
          | cons d ds => exact ⟨d, ds, rfl, dropWhile_head_not hg2⟩
        obtain ⟨d, ds, hcons, hdws⟩ := hhead
        have hhne : (normalizeLanguageTag ((dropTrailingNl rest).dropWhile pyWs)).header ≠ [] :=
          tag_header_ne_nil (dropWhile_nonempty_strip hcons hdws)
        rw [if_neg hhne] at hfix
        have hrest : rest = (normalizeLanguageTag ((dropTrailingNl rest).dropWhile pyWs)).header := by
          have := hfix
          conv_rhs at this => rw [show c = (g ++ sl "::") ++ rest from
            (fieldSplitAux_sound hfs).2]
          exact ((variant_inj (fieldSplitAux_sound hfs).1 (fieldSplitAux_sound hfs).1 this).2).symm
        have hok0 : headerOk (normalizeLanguageTag ((dropTrailingNl rest).dropWhile pyWs)).header := by
          refine ⟨hhne, tag_header_stripped _, tag_header_no_nl hGprops.2, ?_⟩
          rw [tag_header_getLast hhne]
          simp
        have hok : headerOk rest := by
          rw [hrest]
          exact hok0
        have hdt : dropTrailingNl rest = rest := dropTrailingNl_eq_self hok.2.2.2
        have hG_eq : (dropTrailingNl rest).dropWhile pyWs = rest := by
          rw [hdt, dropWhile_eq_self_of_stripped hok.2.1]
        have hresth : rest = h := by
          rw [← hch, hdt, hok.2.1]
        refine ⟨g, rest, rfl, hresth, ?_⟩
        rw [← hresth]
        conv_lhs => rw [← hG_eq]
        exact hrest.symm

lemma hs_tag_fix {cols : List Str} (hfix : ∀ c ∈ cols, nk c = c) :
    ∀ h ∈ languageHeadersFromColumns cols, (normalizeLanguageTag h).header = h := by
  intro h hm
  obtain ⟨c, hc, hch⟩ := headers_mem_iff.mp hm
  obtain ⟨_, _, _, _, hh⟩ := nk_fix_header (hfix c hc) hch
  exact hh

lemma nk_fix_of_canonical {g h : Str} (hg : g ∈ userFacingFields)
    (hok : headerOk h) (htag : (normalizeLanguageTag h).header = h) :
    nk (g ++ sl "::" ++ h) = g ++ sl "::" ++ h := by
  unfold nk normalizeLanguageColumnName
  rw [fieldSplit_variant hg h]
  dsimp only
  rw [dropTrailingNl_eq_self hok.2.2.2, dropWhile_eq_self_of_stripped hok.2.1]
  rw [if_neg (by push_neg; exact ⟨hok.1, hok.2.2.1⟩)]
  rw [htag]
  rw [if_neg hok.1]

end XLSForm
namespace XLSForm

lemma findIdx?_none {α : Type} {p : α → Bool} :
    ∀ {l : List α}, l.findIdx? p = none → ∀ x ∈ l, p x = false := by
  intro l
  induction l with
  | nil => intro _ x hx; cases hx
  | cons a as ih =>
    intro h x hx
    rw [List.findIdx?_cons] at h
    by_cases hpa : p a = true
    · rw [if_pos hpa] at h; cases h
    · rw [if_neg hpa, List.findIdx?_succ] at h
      rcases List.mem_cons.mp hx with hx | hx
      · rw [hx]
        exact Bool.eq_false_iff.mpr hpa
      · cases hfa : as.findIdx? p with
        | some j => rw [hfa] at h; cases h
        | none => exact ih hfa x hx

lemma findIdx?_split {α : Type} {p : α → Bool} :
    ∀ {l : List α} {i : Nat}, l.findIdx? p = some i →
      ∃ x rest, l = l.take i ++ x :: rest ∧ p x = true ∧
        ∀ y ∈ l.take i, p y = false := by
  intro l
  induction l with
  | nil => intro i h; cases h
  | cons a as ih =>
    intro i h
    rw [List.findIdx?_cons] at h
    by_cases hpa : p a = true
    · rw [if_pos hpa] at h
      injection h with h
      subst h
      exact ⟨a, as, rfl, hpa, fun y hy => absurd hy (List.not_mem_nil y)⟩
    · rw [if_neg hpa, List.findIdx?_succ] at h
      cases hfa : as.findIdx? p with
      | none => rw [hfa] at h; cases h
      | some j =>
        rw [hfa] at h
        have h2 : j + 1 = i := by simpa using h
        subst h2
        obtain ⟨x, rest, hsplit, hpx, hall⟩ := ih hfa
        refine ⟨x, rest, ?_, hpx, ?_⟩
        · rw [List.take_succ_cons]
          conv_lhs => rw [hsplit]
          rfl
        · intro y hy
          rw [List.take_succ_cons] at hy
          rcases List.mem_cons.mp hy with hy | hy
          · rw [hy]
            exact Bool.eq_false_iff.mpr hpa
          · exact hall y hy

lemma findIdx?_first_block {α : Type} {p : α → Bool} :
    ∀ (A : List α) {y : α} (Z : List α), (∀ a ∈ A, p a = false) → p y = true →
      (A ++ y :: Z).findIdx? p = some A.length := by
  intro A
  induction A with
  | nil =>
    intro y Z _ hy
    rw [List.nil_append, List.findIdx?_cons, if_pos hy]
    rfl
  | cons a as ih =>
    intro y Z hall hy
    rw [List.cons_append, List.findIdx?_cons,
      if_neg (by rw [hall a (List.mem_cons_self _ _)]; simp), List.findIdx?_succ,
      ih Z (fun x hx => hall x (List.mem_cons_of_mem _ hx)) hy]
    rfl

lemma filter_ne_self {l : List Str} {g : Str} (h : g ∉ l) :
    l.filter (fun c => decide (c ≠ g)) = l := by
  apply List.filter_eq_self.mpr
  intro x hx
  simp only [decide_eq_true_eq]
  intro hxg
  exact h (hxg ▸ hx)

lemma filter_notmem_self {l L : List Str} (h : ∀ x ∈ l, x ∉ L) :
    l.filter (fun c => decide (c ∉ L)) = l := by
  apply List.filter_eq_self.mpr
  intro x hx
  simpa using h x hx

lemma filter_notmem_nil {L : List Str} :
    L.filter (fun c => decide (c ∉ L)) = [] := by
  rw [List.filter_eq_nil_iff]
  intro x hx
  simpa using hx

lemma expandCols_id {L : List Str} {f : Str} {A B : List Str}
    (hnd : (A ++ L ++ B).Nodup) (hL : L ≠ []) (hf : f ∉ A ++ L ++ B) :
    expandCols L f (A ++ L ++ B) = A ++ L ++ B := by
  have hassoc : A ++ L ++ B = A ++ (L ++ B) := List.append_assoc A L B
  have hdisjA : ∀ a ∈ A, a ∉ L := by
    intro a ha hmem
    have hnd2 : (A ++ (L ++ B)).Nodup := hassoc ▸ hnd
    exact List.disjoint_of_nodup_append hnd2 ha (List.mem_append.mpr (Or.inl hmem))
  have hdisjB : ∀ b ∈ B, b ∉ L := by
    intro b hb hmem
    have hd := List.disjoint_of_nodup_append hnd
    exact hd (List.mem_append.mpr (Or.inr hmem)) hb
  obtain ⟨y, L2, hyL⟩ := List.exists_cons_of_ne_nil hL
  unfold expandCols
  have hremoved : (A ++ L ++ B).filter (fun c => decide (c ∉ L)) = A ++ B := by
    rw [List.append_assoc, List.filter_append, List.filter_append,
      filter_notmem_self hdisjA, filter_notmem_nil, filter_notmem_self hdisjB,
      List.nil_append]
  have hidx : (A ++ L ++ B).findIdx? (fun c => decide (c ∈ L)) = some A.length := by
    have h2 : A ++ L ++ B = A ++ y :: (L2 ++ B) := by
      rw [List.append_assoc, hyL, List.cons_append]
    rw [h2]
    apply findIdx?_first_block
    · intro a ha
      simpa using hdisjA a ha
    · simp [hyL]
  rw [hidx, hremoved]
  dsimp only
  rw [List.take_left, List.drop_left]
  exact filter_ne_self hf

lemma expandCols_nodup {L : List Str} {g : Str} {cols : List Str}
    (hnd : cols.Nodup) (hLnd : L.Nodup) : (expandCols L g cols).Nodup := by
  unfold expandCols
  have hrem : (cols.filter (fun c => decide (c ∉ L))).Nodup := hnd.filter _
  have hremL : ∀ x ∈ cols.filter (fun c => decide (c ∉ L)), x ∉ L := by
    intro x hx
    have := List.of_mem_filter hx
    simpa using this
  cases hidx : cols.findIdx? (fun c => decide (c ∈ L)) with
  | none =>
    dsimp only
    apply List.Nodup.filter
    rw [List.nodup_append]
    exact ⟨hrem, hLnd, fun x hx => hremL x hx⟩
  | some i =>
    dsimp only
    apply List.Nodup.filter
    set R := cols.filter (fun c => decide (c ∉ L)) with hR
    have hsplit : R.take i ++ R.drop i = R := List.take_append_drop i R
    have hnd2 : (R.take i ++ R.drop i).Nodup := by rw [hsplit]; exact hrem
    obtain ⟨hndtake, hnddrop, hdisjtd⟩ := List.nodup_append.mp hnd2
    rw [List.append_assoc, List.nodup_append]
    refine ⟨hndtake, ?_, ?_⟩
    · rw [List.nodup_append]
      refine ⟨hLnd, hnddrop, ?_⟩
      intro x hxL hxd
      exact hremL x ((List.drop_sublist _ _).mem hxd) hxL
    · intro x hxt
      rw [List.mem_append]
      rintro (hmem | hmem)
      · exact hremL x ((List.take_sublist _ _).mem hxt) hmem
      · exact hdisjtd hxt hmem

end XLSForm
namespace XLSForm

lemma expandCols_block {L' : List Str} {g : Str} {L A B : List Str}
    (hL : L ≠ []) (hLL' : ∀ x ∈ L, x ∉ L') (hLg : ∀ x ∈ L, x ≠ g) :
    ∃ A' B', expandCols L' g (A ++ L ++ B) = A' ++ L ++ B' := by
  have hgL : g ∉ L := fun hmem => hLg g hmem rfl
  have hLfix : L.filter (fun c => decide (c ∉ L')) = L := filter_notmem_self hLL'
  have hLgfix : L.filter (fun c => decide (c ≠ g)) = L := filter_ne_self hgL
  have hfinal : ∀ P Q : List Str, (P ++ L ++ Q).filter (fun c => decide (c ≠ g)) =
      P.filter (fun c => decide (c ≠ g)) ++ L ++ Q.filter (fun c => decide (c ≠ g)) := by
    intro P Q
    rw [List.filter_append, List.filter_append, hLgfix]
  unfold expandCols
  cases hidx : (A ++ L ++ B).findIdx? (fun c => decide (c ∈ L')) with
  | none =>
    dsimp only
    have hP : (A ++ L ++ B).filter (fun c => decide (c ∉ L')) ++ L' =
        A.filter (fun c => decide (c ∉ L')) ++ L ++
          (B.filter (fun c => decide (c ∉ L')) ++ L') := by
      rw [List.filter_append, List.filter_append, hLfix]
      simp only [List.append_assoc]
    rw [hP, hfinal]
    exact ⟨_, _, rfl⟩
  | some i =>
    dsimp only
    obtain ⟨x, rest, hsplit, hpx, hTfree⟩ := findIdx?_split hidx
    have hxL' : x ∈ L' := by simpa using hpx
    have hxL : x ∉ L := fun hmem => hLL' x hmem hxL'
    have hTfilter : ((A ++ L ++ B).take i).filter (fun c => decide (c ∉ L')) =
        (A ++ L ++ B).take i :=
      filter_notmem_self (fun y hy => by simpa using hTfree y hy)
    have hdrop : (A ++ L ++ B).drop i = x :: rest := by
      have h0 : (A ++ L ++ B).take i ++ (A ++ L ++ B).drop i =
          (A ++ L ++ B).take i ++ (x :: rest) := by
        rw [List.take_append_drop]
        exact hsplit
      exact List.append_cancel_left h0
    have hTlen : ((A ++ L ++ B).take i).length = i := by
      rw [List.length_take]
      apply min_eq_left
      by_contra hc
      push_neg at hc
      rw [List.drop_eq_nil_iff.mpr (le_of_lt hc)] at hdrop
      cases hdrop
    have hremoved : (A ++ L ++ B).filter (fun c => decide (c ∉ L')) =
        (A ++ L ++ B).take i ++ (x :: rest).filter (fun c => decide (c ∉ L')) := by
      conv_lhs => rw [hsplit]
      rw [List.filter_append, hTfilter]
    have htake : ((A ++ L ++ B).filter (fun c => decide (c ∉ L'))).take i =
        (A ++ L ++ B).take i := by
      rw [hremoved]
      exact List.take_left' hTlen
    have hdrop2 : ((A ++ L ++ B).filter (fun c => decide (c ∉ L'))).drop i =
        (x :: rest).filter (fun c => decide (c ∉ L')) := by
      rw [hremoved]
      exact List.drop_left' hTlen
    rw [htake, hdrop2]
    have hsplit2 : (A ++ L ++ B).take i ++ x :: rest = A ++ (L ++ B) := by
      rw [← List.append_assoc]
      exact hsplit.symm
    have hblock : ∃ P Q, (A ++ L ++ B).take i ++ L' ++
        (x :: rest).filter (fun c => decide (c ∉ L')) = P ++ L ++ Q := by
      rcases List.append_eq_append_iff.mp hsplit2 with ⟨a', ha1, ha2⟩ | ⟨c', hc1, hc2⟩
      · cases a' with
        | nil =>
          exfalso
          rw [List.nil_append] at ha2
          obtain ⟨y, L2, hyL⟩ := List.exists_cons_of_ne_nil hL
          rw [hyL, List.cons_append] at ha2
          injection ha2 with hxy _
          exact hxL (by rw [hxy, hyL]; exact List.mem_cons_self y L2)
        | cons x2 a2 =>
          rw [List.cons_append] at ha2
          injection ha2 with hxx2 hrest
          have hxr : (x :: rest).filter (fun c => decide (c ∉ L')) =
              (x :: a2).filter (fun c => decide (c ∉ L')) ++
                (L ++ B.filter (fun c => decide (c ∉ L'))) := by
            have h3 : x :: rest = (x :: a2) ++ (L ++ B) := by
              rw [List.cons_append, hrest, hxx2]
            rw [h3, List.filter_append, List.filter_append, hLfix]
          refine ⟨(A ++ L ++ B).take i ++ L' ++
            (x :: a2).filter (fun c => decide (c ∉ L')),
            B.filter (fun c => decide (c ∉ L')), ?_⟩
          rw [hxr]
          simp only [List.append_assoc]
      · rcases List.append_eq_append_iff.mp hc2.symm with ⟨e, he1, he2⟩ | ⟨e, he1, he2⟩
        · cases e with
          | nil =>
            rw [List.append_nil] at he1
            refine ⟨A, L' ++ (x :: rest).filter (fun c => decide (c ∉ L')), ?_⟩
            rw [hc1, ← he1]
            simp only [List.append_assoc]
          | cons x2 e2 =>
            exfalso
            rw [List.cons_append] at he2
            injection he2 with hxx2 _
            apply hxL
            rw [hxx2, he1]
            exact List.mem_append.mpr (Or.inr (List.mem_cons_self x2 e2))
        · refine ⟨A, e ++ (L' ++ (x :: rest).filter (fun c => decide (c ∉ L'))), ?_⟩
          rw [hc1, he1]
          simp only [List.append_assoc]
    obtain ⟨P, Q, hPQ⟩ := hblock
    rw [hPQ, hfinal]
    exact ⟨_, _, rfl⟩

end XLSForm
namespace XLSForm

lemma collect_canonical {f : Str} (hf : f ∈ userFacingFields) :
    ∀ {l : List Str}, (∀ h ∈ l, headerOk h) → l.Nodup → ∀ (acc : List Str),
      List.foldl collectHeader acc (l.map (fun h => f ++ sl "::" ++ h)) =
        acc ++ l.filter (fun h => decide (h ∉ acc)) := by
  intro l
  induction l with
  | nil => intro _ _ acc; simp
  | cons h1 rest ih =>
    intro hok hnd acc
    rw [List.map_cons, List.foldl_cons,
      collectHeader_some (columnHeader?_variant hf (hok h1 (List.mem_cons_self _ _)))]
    have hih := ih (fun h2 hh2 => hok h2 (List.mem_cons_of_mem _ hh2))
      (List.nodup_cons.mp hnd).2
    by_cases hmem : h1 ∈ acc
    · rw [if_pos hmem, hih acc, List.filter_cons,
        if_neg (by simpa using hmem)]
    · rw [if_neg hmem, hih (acc ++ [h1]), List.filter_cons,
        if_pos (by simpa using hmem)]
      have hcongr : rest.filter (fun h => decide (h ∉ acc ++ [h1])) =
          rest.filter (fun h => decide (h ∉ acc)) := by
        apply List.filter_congr
        intro h2 hh2
        have hne : h2 ≠ h1 := fun he => (List.nodup_cons.mp hnd).1 (he ▸ hh2)
        simp only [decide_eq_decide, List.mem_append, List.mem_singleton]
        tauto
      rw [hcongr]
      simp

lemma filter_prefix_drop {acc t : List Str} (hnd : (acc ++ t).Nodup) :
    (acc ++ t).filter (fun h => decide (h ∉ acc)) = t := by
  rw [List.filter_append]
  have h1 : acc.filter (fun h => decide (h ∉ acc)) = [] := by
    rw [List.filter_eq_nil_iff]
    intro x hx
    simpa using hx
  have h2 : t.filter (fun h => decide (h ∉ acc)) = t := by
    apply List.filter_eq_self.mpr
    intro x hx
    have := List.disjoint_of_nodup_append hnd
    simpa using fun hc => this hc hx
  rw [h1, h2, List.nil_append]

lemma collect_filter_ne {g : Str} (hg : columnHeader? g = none) :
    ∀ (l : List Str) (acc : List Str),
      List.foldl collectHeader acc (l.filter (fun c => decide (c ≠ g))) =
        List.foldl collectHeader acc l := by
  intro l
  induction l with
  | nil => intro acc; rfl
  | cons c cs ih =>
    intro acc
    rw [List.filter_cons]
    by_cases hc : c = g
    · rw [if_neg (by simpa using hc), List.foldl_cons, hc, collectHeader_none hg]
      exact ih acc
    · rw [if_pos (by simpa using hc), List.foldl_cons, List.foldl_cons]
      exact ih _

lemma expandCols_decomp {L : List Str} {g : Str} {cols : List Str} :
    (cols.findIdx? (fun c => decide (c ∈ L)) = none ∧
      expandCols L g cols =
        (cols.filter (fun c => decide (c ∉ L)) ++ L).filter (fun c => decide (c ≠ g))) ∨
    (∃ i x rest, cols.findIdx? (fun c => decide (c ∈ L)) = some i ∧
      cols = cols.take i ++ x :: rest ∧ x ∈ L ∧ (∀ y ∈ cols.take i, y ∉ L) ∧
      expandCols L g cols =
        (cols.take i ++ L ++
          (x :: rest).filter (fun c => decide (c ∉ L))).filter (fun c => decide (c ≠ g))) := by
  unfold expandCols
  cases hidx : cols.findIdx? (fun c => decide (c ∈ L)) with
  | none => exact Or.inl ⟨rfl, rfl⟩
  | some i =>
    obtain ⟨x, rest, hsplit, hpx, hTfree⟩ := findIdx?_split hidx
    have hTfree2 : ∀ y ∈ cols.take i, y ∉ L := fun y hy => by simpa using hTfree y hy
    have hTfilter : (cols.take i).filter (fun c => decide (c ∉ L)) = cols.take i :=
      filter_notmem_self hTfree2
    have hdrop : cols.drop i = x :: rest := by
      have h0 : cols.take i ++ cols.drop i = cols.take i ++ (x :: rest) := by
        rw [List.take_append_drop]
        exact hsplit
      exact List.append_cancel_left h0
    have hTlen : (cols.take i).length = i := by
      rw [List.length_take]
      apply min_eq_left
      by_contra hc
      push_neg at hc
      rw [List.drop_eq_nil_iff.mpr (le_of_lt hc)] at hdrop
      cases hdrop
    have hremoved : cols.filter (fun c => decide (c ∉ L)) =
        cols.take i ++ (x :: rest).filter (fun c => decide (c ∉ L)) := by
      conv_lhs => rw [hsplit]
      rw [List.filter_append, hTfilter]
    refine Or.inr ⟨i, x, rest, rfl, hsplit, by simpa using hpx, hTfree2, ?_⟩
    dsimp only
    rw [hremoved, List.take_left' hTlen, List.drop_left' hTlen]

lemma colStep_collect {g : Str} (hg : g ∈ userFacingFields) {hs cols : List Str}
    (hok : ∀ h ∈ hs, headerOk h) (hnd : hs.Nodup)
    (hcol : languageHeadersFromColumns cols = hs)
    (hex2 : ∀ c ∈ cols, ∀ h, columnHeader? c = some h → h ∈ hs) :
    languageHeadersFromColumns (colStep hs cols g) = hs ∧
    (∀ c ∈ colStep hs cols g, ∀ h, columnHeader? c = some h → h ∈ hs) := by
  constructor
  · unfold colStep
    split
    · rcases @expandCols_decomp (hs.map (fun h => g ++ sl "::" ++ h))
        g cols with ⟨hidx, heq⟩ | ⟨i, x, rest, hidx, hsplit, hxL, hTfree, heq⟩
      · rw [heq]
        unfold languageHeadersFromColumns
        rw [collect_filter_ne (columnHeader?_bare hg)]
        have hnomem : ∀ c ∈ cols, c ∉ hs.map (fun h => g ++ sl "::" ++ h) := by
          intro c hc hmem
          have := findIdx?_none hidx c hc
          simp only [decide_eq_false_iff_not] at this
          exact this hmem
        rw [filter_notmem_self hnomem, List.foldl_append]
        have hbase : List.foldl collectHeader [] cols = hs := hcol
        rw [hbase, collect_canonical hg hok hnd hs]
        have hself : hs.filter (fun h => decide (h ∉ hs)) = [] := by
          rw [List.filter_eq_nil_iff]
          intro x hx
          simpa using hx
        rw [hself, List.append_nil]
      · rw [heq]
        unfold languageHeadersFromColumns
        rw [collect_filter_ne (columnHeader?_bare hg), List.foldl_append, List.foldl_append]
        have hpref : ∃ t, hs = List.foldl collectHeader [] (cols.take i) ++ t := by
          obtain ⟨t, ht⟩ := collect_extend (x :: rest) (List.foldl collectHeader [] (cols.take i))
          refine ⟨t, ?_⟩
          rw [← hcol]
          conv_lhs => rw [hsplit]
          unfold languageHeadersFromColumns
          rw [List.foldl_append, ht]
        obtain ⟨t, ht⟩ := hpref
        rw [collect_canonical hg hok hnd _]
        have hdropfix : hs.filter
            (fun h => decide (h ∉ List.foldl collectHeader [] (cols.take i))) = t := by
          conv_lhs => rw [ht]
          exact filter_prefix_drop (ht ▸ hnd)
        rw [hdropfix, ← ht]
        apply collect_absorb
        intro c hc h hch
        have hcmem : c ∈ cols := by
          rw [hsplit]
          exact List.mem_append.mpr (Or.inr (List.mem_of_mem_filter hc))
        exact hex2 c hcmem h hch
    · exact hcol
  · intro c hc h hch
    unfold colStep at hc
    split at hc
    · obtain ⟨hmem | hmem, _⟩ := expandCols_mem.mp hc
      · exact hex2 c hmem h hch
      · obtain ⟨h2, hh2, hc2⟩ := List.mem_map.mp hmem
        rw [← hc2, columnHeader?_variant hg (hok h2 hh2)] at hch
        injection hch with hch
        exact hch ▸ hh2
    · exact hex2 c hc h hch

lemma colsFold_collect {hs : List Str} (hok : ∀ h ∈ hs, headerOk h) (hnd : hs.Nodup) :
    ∀ {gs cols : List Str}, (∀ g ∈ gs, g ∈ userFacingFields) →
      languageHeadersFromColumns cols = hs →
      (∀ c ∈ cols, ∀ h, columnHeader? c = some h → h ∈ hs) →
      languageHeadersFromColumns (colsFold hs gs cols) = hs ∧
      (∀ c ∈ colsFold hs gs cols, ∀ h, columnHeader? c = some h → h ∈ hs) := by
  intro gs
  induction gs with
  | nil =>
    intro cols _ hcol hex2
    rw [colsFold_nil]
    exact ⟨hcol, hex2⟩
  | cons g gs2 ih =>
    intro cols hgs hcol hex2
    rw [colsFold_cons]
    obtain ⟨h1, h2⟩ := colStep_collect (hgs g (List.mem_cons_self _ _)) hok hnd hcol hex2
    exact ih (fun g2 hg2 => hgs g2 (List.mem_cons_of_mem _ hg2)) h1 h2

end XLSForm
namespace XLSForm

lemma rowKeys_rowSet_sub {r : Row} {k v k2 : Str}
    (h : k2 ∈ rowKeys (rowSet r k v)) : k2 ∈ rowKeys r ∨ k2 = k := by
  induction r with
  | nil =>
    simp [rowSet, rowKeys] at h
    exact Or.inr h
  | cons p rest ih =>
    rcases p with ⟨k', v'⟩
    unfold rowSet at h
    by_cases hk : k' = k
    · rw [if_pos hk] at h
      unfold rowKeys at h ⊢
      rw [List.map_cons, List.mem_cons] at h ⊢
      rcases h with h | h
      · exact Or.inr h
      · exact Or.inl (Or.inr h)
    · rw [if_neg hk] at h
      unfold rowKeys at h ⊢
      rw [List.map_cons, List.mem_cons] at h ⊢
      rcases h with h | h
      · exact Or.inl (Or.inl h)
      · rcases ih h with h2 | h2
        · exact Or.inl (Or.inr h2)
        · exact Or.inr h2

lemma rowKeys_rowSet_of_mem {r : Row} {k v k2 : Str}
    (h : k2 ∈ rowKeys r) : k2 ∈ rowKeys (rowSet r k v) := by
  induction r with
  | nil => cases h
  | cons p rest ih =>
    rcases p with ⟨k', v'⟩
    unfold rowSet
    unfold rowKeys at h ⊢
    rw [List.map_cons, List.mem_cons] at h
    by_cases hk : k' = k
    · rw [if_pos hk, List.map_cons, List.mem_cons]
      rcases h with h | h
      · exact Or.inl (h.trans hk)
      · exact Or.inr h
    · rw [if_neg hk, List.map_cons, List.mem_cons]
      rcases h with h | h
      · exact Or.inl h
      · exact Or.inr (ih h)

lemma rowKeys_rowSet_nodup {r : Row} {k v : Str}
    (h : (rowKeys r).Nodup) : (rowKeys (rowSet r k v)).Nodup := by
  induction r with
  | nil => simp [rowSet, rowKeys]
  | cons p rest ih =>
    rcases p with ⟨k', v'⟩
    unfold rowSet
    unfold rowKeys at h ⊢
    rw [List.map_cons, List.nodup_cons] at h
    by_cases hk : k' = k
    · rw [if_pos hk, List.map_cons, List.nodup_cons]
      refine ⟨fun hmem => h.1 ?_, h.2⟩
      rw [hk]
      exact hmem
    · rw [if_neg hk, List.map_cons, List.nodup_cons]
      refine ⟨?_, ih h.2⟩
      intro hmem
      rcases rowKeys_rowSet_sub hmem with h2 | h2
      · exact h.1 h2
      · exact hk h2

lemma rowKeys_rowErase_sub {r : Row} {k k2 : Str}
    (h : k2 ∈ rowKeys (rowErase r k)) : k2 ∈ rowKeys r ∧ k2 ≠ k := by
  unfold rowKeys rowErase at h
  obtain ⟨p, hp, hpk⟩ := List.mem_map.mp h
  have h2 := List.mem_filter.mp hp
  refine ⟨List.mem_map.mpr ⟨p, h2.1, hpk⟩, ?_⟩
  rw [← hpk]
  simpa using h2.2

lemma rowKeys_rowErase_nodup {r : Row} {k : Str}
    (h : (rowKeys r).Nodup) : (rowKeys (rowErase r k)).Nodup := by
  unfold rowKeys rowErase
  exact h.sublist (List.Sublist.map Prod.fst (List.filter_sublist r))

lemma fillLoop_keys {v : Str} :
    ∀ {L : List Str} {r : Row} {k : Str}, k ∈ rowKeys (fillLoop v L r) →
      k ∈ rowKeys r ∨ k ∈ L := by
  intro L
  induction L with
  | nil => intro r k h; exact Or.inl h
  | cons c cs ih =>
    intro r k h
    rw [fillLoop_cons] at h
    rcases ih h with h2 | h2
    · split at h2
      · rcases rowKeys_rowSet_sub h2 with h3 | h3
        · exact Or.inl h3
        · exact Or.inr (h3 ▸ List.mem_cons_self _ _)
      · exact Or.inl h2
    · exact Or.inr (List.mem_cons_of_mem _ h2)

lemma fillLoop_nodup {v : Str} :
    ∀ {L : List Str} {r : Row}, (rowKeys r).Nodup → (rowKeys (fillLoop v L r)).Nodup := by
  intro L
  induction L with
  | nil => intro r h; exact h
  | cons c cs ih =>
    intro r h
    rw [fillLoop_cons]
    apply ih
    split
    · exact rowKeys_rowSet_nodup h
    · exact h

lemma rebuildRow_keys {r : Row} {k2 : Str} (h : k2 ∈ rowKeys (rebuildRow r)) :
    ∃ k ∈ rowKeys r, k2 = nk k := by
  unfold rebuildRow at h
  suffices hgen : ∀ (l : Row) (acc : Row), k2 ∈ rowKeys (l.foldl rebuildStep acc) →
      k2 ∈ rowKeys acc ∨ ∃ k ∈ rowKeys l, k2 = nk k by
    rcases hgen r [] h with h2 | h2
    · cases h2
    · exact h2
  intro l
  induction l with
  | nil => intro acc h2; exact Or.inl h2
  | cons kv rest ih =>
    intro acc h2
    rw [List.foldl_cons] at h2
    rcases ih _ h2 with h3 | h3
    · unfold rebuildStep at h3
      cases hg : rowGet acc (nk kv.1) with
      | some cur =>
        rw [hg] at h3
        dsimp only at h3
        split at h3
        · rcases rowKeys_rowSet_sub h3 with h4 | h4
          · exact Or.inl h4
          · exact Or.inr ⟨kv.1, List.mem_map.mpr ⟨kv, List.mem_cons_self _ _, rfl⟩, h4⟩
        · exact Or.inl h3
      | none =>
        rw [hg] at h3
        dsimp only at h3
        unfold rowKeys at h3
        rw [List.map_append, List.mem_append] at h3
        rcases h3 with h4 | h4
        · exact Or.inl h4
        · simp only [List.map_cons, List.map_nil, List.mem_singleton] at h4
          exact Or.inr ⟨kv.1, List.mem_map.mpr ⟨kv, List.mem_cons_self _ _, rfl⟩, h4⟩
    · obtain ⟨k, hk, hk2⟩ := h3
      exact Or.inr ⟨k, List.mem_map.mpr
        ⟨(List.mem_map.mp hk).choose, List.mem_cons_of_mem _
          (List.mem_map.mp hk).choose_spec.1, (List.mem_map.mp hk).choose_spec.2⟩, hk2⟩

lemma rebuildRow_nodup (r : Row) : (rowKeys (rebuildRow r)).Nodup := by
  unfold rebuildRow
  suffices hgen : ∀ (l : Row) (acc : Row), (rowKeys acc).Nodup →
      (rowKeys (l.foldl rebuildStep acc)).Nodup by
    exact hgen r [] (by simp [rowKeys])
  intro l
  induction l with
  | nil => intro acc h; exact h
  | cons kv rest ih =>
    intro acc h
    rw [List.foldl_cons]
    apply ih
    unfold rebuildStep
    cases hg : rowGet acc (nk kv.1) with
    | some cur =>
      dsimp only
      split
      · exact rowKeys_rowSet_nodup h
      · exact h
    | none =>
      dsimp only
      unfold rowKeys
      rw [List.map_append, List.nodup_append]
      refine ⟨h, by simp, ?_⟩
      intro x hx
      simp only [List.map_cons, List.map_nil, List.mem_singleton]
      intro hxk
      rw [rowGet_eq_none_iff] at hg
      obtain ⟨p, hp, hpx⟩ := List.mem_map.mp hx
      exact hg p hp (hpx.trans hxk)

end XLSForm
namespace XLSForm

lemma rowGet_append_none {a b : Row} {k : Str} (h : rowGet a k = none) :
    rowGet (a ++ b) k = rowGet b k := by
  rw [rowGet_eq_none_iff] at h
  induction a with
  | nil => rfl
  | cons p rest ih =>
    rcases p with ⟨k', v'⟩
    rw [List.cons_append, rowGet_cons,
      if_neg (h (k', v') (List.mem_cons_self _ _)), ih]
    intro p hp
    exact h p (List.mem_cons_of_mem _ hp)

lemma rebuildRow_id {r : Row} (hnd : (rowKeys r).Nodup)
    (hfix : ∀ k ∈ rowKeys r, nk k = k) : rebuildRow r = r := by
  unfold rebuildRow
  suffices hgen : ∀ (l : Row) (acc : Row), (rowKeys l).Nodup →
      (∀ k ∈ rowKeys l, nk k = k) → (∀ k ∈ rowKeys l, rowGet acc k = none) →
      l.foldl rebuildStep acc = acc ++ l by
    rw [hgen r [] hnd hfix (fun k _ => rfl), List.nil_append]
  intro l
  induction l with
  | nil => intro acc _ _ _; simp
  | cons kv rest ih =>
    intro acc hnd2 hfix2 hnone
    rw [List.foldl_cons]
    have hkmem : kv.1 ∈ rowKeys (kv :: rest) :=
      List.mem_map.mpr ⟨kv, List.mem_cons_self _ _, rfl⟩
    have hfixk : nk kv.1 = kv.1 := hfix2 kv.1 hkmem
    have hstep : rebuildStep acc kv = acc ++ [kv] := by
      unfold rebuildStep
      rw [hfixk, hnone kv.1 hkmem]
    rw [hstep, ih (acc ++ [kv])]
    · rw [List.append_assoc]
      rfl
    · unfold rowKeys at hnd2 ⊢
      rw [List.map_cons, List.nodup_cons] at hnd2
      exact hnd2.2
    · intro k hk
      exact hfix2 k (List.mem_map.mpr
        ⟨(List.mem_map.mp hk).choose, List.mem_cons_of_mem _
          (List.mem_map.mp hk).choose_spec.1, (List.mem_map.mp hk).choose_spec.2⟩)
    · intro k hk
      rw [rowGet_eq_none_iff]
      intro p hp
      rw [List.mem_append, List.mem_singleton] at hp
      rcases hp with hp | hp
      · have := hnone k (List.mem_map.mpr
          ⟨(List.mem_map.mp hk).choose, List.mem_cons_of_mem _
            (List.mem_map.mp hk).choose_spec.1, (List.mem_map.mp hk).choose_spec.2⟩)
        rw [rowGet_eq_none_iff] at this
        exact this p hp
      · subst hp
        unfold rowKeys at hnd2
        rw [List.map_cons, List.nodup_cons] at hnd2
        intro hpk
        exact hnd2.1 (hpk ▸ hk)

lemma expandRowStep_keys {isText : Bool} {L : List Str} {g : Str} {r : Row} {k : Str}
    (h : k ∈ rowKeys (expandRowStep isText L g r)) :
    (k ∈ rowKeys r ∨ k ∈ L) ∧ k ≠ g := by
  unfold expandRowStep at h
  obtain ⟨hmem, hne⟩ := rowKeys_rowErase_sub h
  refine ⟨?_, hne⟩
  split at hmem
  · unfold fillRow at hmem
    split at hmem
    · exact Or.inl hmem
    · exact fillLoop_keys hmem
  · exact Or.inl hmem

lemma expandRowStep_nodup {isText : Bool} {L : List Str} {g : Str} {r : Row}
    (h : (rowKeys r).Nodup) : (rowKeys (expandRowStep isText L g r)).Nodup := by
  unfold expandRowStep
  apply rowKeys_rowErase_nodup
  split
  · unfold fillRow
    split
    · exact h
    · exact fillLoop_nodup h
  · exact h

lemma rowStep_keys_sub {g : Str} {hs cols : List Str} {r : Row}
    (hsub : ∀ k ∈ rowKeys r, k ∈ cols) :
    ∀ k ∈ rowKeys (rowStep hs cols g r), k ∈ colStep hs cols g := by
  intro k hk
  unfold rowStep at hk
  unfold colStep
  split at hk
  · next hpres =>
    rw [if_pos hpres]
    obtain ⟨hmem, hne⟩ := expandRowStep_keys hk
    apply expandCols_mem.mpr
    refine ⟨?_, hne⟩
    rcases hmem with hmem | hmem
    · exact Or.inl (hsub k hmem)
    · exact Or.inr hmem
  · next hpres =>
    rw [if_neg hpres]
    exact hsub k hk

lemma rowStep_nodup {g : Str} {hs cols : List Str} {r : Row}
    (h : (rowKeys r).Nodup) : (rowKeys (rowStep hs cols g r)).Nodup := by
  unfold rowStep
  split
  · exact expandRowStep_nodup h
  · exact h

lemma fieldFold_keys_sub {hs : List Str} :
    ∀ {gs cols : List Str} {r : Row}, (∀ k ∈ rowKeys r, k ∈ cols) →
      ∀ k ∈ rowKeys (fieldFold hs gs cols r), k ∈ colsFold hs gs cols := by
  intro gs
  induction gs with
  | nil =>
    intro cols r hsub k hk
    rw [colsFold_nil]
    rw [fieldFold_nil] at hk
    exact hsub k hk
  | cons g gs2 ih =>
    intro cols r hsub k hk
    rw [colsFold_cons]
    rw [fieldFold_cons] at hk
    exact ih (rowStep_keys_sub hsub) k hk

lemma fieldFold_keys_nodup {hs : List Str} :
    ∀ {gs cols : List Str} {r : Row}, (rowKeys r).Nodup →
      (rowKeys (fieldFold hs gs cols r)).Nodup := by
  intro gs
  induction gs with
  | nil =>
    intro cols r h
    rw [fieldFold_nil]
    exact h
  | cons g gs2 ih =>
    intro cols r h
    rw [fieldFold_cons]
    exact ih (rowStep_nodup h)

lemma colStep_fixed {g : Str} (hg : g ∈ userFacingFields) {hs cols : List Str}
    (hok : ∀ h ∈ hs, headerOk h)
    (htag : ∀ h ∈ hs, (normalizeLanguageTag h).header = h)
    (hfix : ∀ c ∈ cols, nk c = c) :
    ∀ c ∈ colStep hs cols g, nk c = c := by
  intro c hc
  unfold colStep at hc
  split at hc
  · obtain ⟨hmem | hmem, _⟩ := expandCols_mem.mp hc
    · exact hfix c hmem
    · obtain ⟨h2, hh2, hc2⟩ := List.mem_map.mp hmem
      rw [← hc2]
      exact nk_fix_of_canonical hg (hok h2 hh2) (htag h2 hh2)
  · exact hfix c hc

lemma colsFold_fixed {hs : List Str} (hok : ∀ h ∈ hs, headerOk h)
    (htag : ∀ h ∈ hs, (normalizeLanguageTag h).header = h) :
    ∀ {gs cols : List Str}, (∀ g ∈ gs, g ∈ userFacingFields) →
      (∀ c ∈ cols, nk c = c) → ∀ c ∈ colsFold hs gs cols, nk c = c := by
  intro gs
  induction gs with
  | nil =>
    intro cols _ hfix c hc
    rw [colsFold_nil] at hc
    exact hfix c hc
  | cons g gs2 ih =>
    intro cols hgs hfix c hc
    rw [colsFold_cons] at hc
    exact ih (fun g2 hg2 => hgs g2 (List.mem_cons_of_mem _ hg2))
      (colStep_fixed (hgs g (List.mem_cons_self _ _)) hok htag hfix) c hc

lemma colStep_nodup {g : Str} {hs cols : List Str} (hnd : cols.Nodup)
    (hhs : hs.Nodup) : (colStep hs cols g).Nodup := by
  unfold colStep
  split
  · exact expandCols_nodup hnd
      (hhs.map (fun a b hab => List.append_cancel_left hab))
  · exact hnd

end XLSForm
namespace XLSForm

lemma colsFold_nodup {hs : List Str} (hhs : hs.Nodup) :
    ∀ {gs cols : List Str}, cols.Nodup → (colsFold hs gs cols).Nodup := by
  intro gs
  induction gs with
  | nil =>
    intro cols h
    rw [colsFold_nil]
    exact h
  | cons g gs2 ih =>
    intro cols h
    rw [colsFold_cons]
    exact ih (colStep_nodup h hhs)

lemma variants_ne_nil {f : Str} {hs : List Str} (h : hs ≠ []) :
    hs.map (fun h2 => f ++ sl "::" ++ h2) ≠ [] := by
  intro hc
  exact h (List.map_eq_nil_iff.mp hc)

lemma colStep_makes_block {f : Str} (hf : f ∈ userFacingFields) {hs cols : List Str}
    (hpres : fieldPresent f hs cols = true) :
    ∃ A B, colStep hs cols f =
      A ++ hs.map (fun h2 => f ++ sl "::" ++ h2) ++ B := by
  have hLfix : (hs.map (fun h2 => f ++ sl "::" ++ h2)).filter
      (fun c => decide (c ≠ f)) = hs.map (fun h2 => f ++ sl "::" ++ h2) := by
    apply List.filter_eq_self.mpr
    intro x hx
    obtain ⟨h2, _, hx2⟩ := List.mem_map.mp hx
    simp only [decide_eq_true_eq]
    rw [← hx2]
    exact (bare_ne_variant hf hf).symm
  unfold colStep
  rw [if_pos hpres]
  rcases @expandCols_decomp (hs.map (fun h2 => f ++ sl "::" ++ h2))
    f cols with ⟨_, heq⟩ | ⟨i, x, rest, _, _, _, _, heq⟩
  · rw [heq, List.filter_append, hLfix]
    exact ⟨_, [], by rw [List.append_nil]⟩
  · rw [heq, List.filter_append, List.filter_append, hLfix]
    exact ⟨_, _, rfl⟩

lemma colStep_block_preserved {f g : Str} (hf : f ∈ userFacingFields)
    (hg : g ∈ userFacingFields) (hgf : g ≠ f) {hs : List Str} (hhs : hs ≠ [])
    {A B : List Str} :
    ∃ A' B', colStep hs (A ++ hs.map (fun h2 => f ++ sl "::" ++ h2) ++ B) g =
      A' ++ hs.map (fun h2 => f ++ sl "::" ++ h2) ++ B' := by
  unfold colStep
  split
  · apply expandCols_block (variants_ne_nil hhs)
    · intro x hx hmem
      obtain ⟨h2, _, hx2⟩ := List.mem_map.mp hx
      rw [← hx2] at hmem
      exact hgf ((mem_map_variant hf hg).mp hmem).1.symm
    · intro x hx
      obtain ⟨h2, _, hx2⟩ := List.mem_map.mp hx
      rw [← hx2]
      exact (bare_ne_variant hg hf).symm
  · exact ⟨A, B, rfl⟩

lemma colsFold_block {f : Str} (hf : f ∈ userFacingFields) {hs : List Str}
    (hhs : hs ≠ []) :
    ∀ {gs : List Str}, (∀ g ∈ gs, g ∈ userFacingFields) → f ∉ gs →
      ∀ {A B : List Str},
      ∃ A' B', colsFold hs gs (A ++ hs.map (fun h2 => f ++ sl "::" ++ h2) ++ B) =
        A' ++ hs.map (fun h2 => f ++ sl "::" ++ h2) ++ B' := by
  intro gs
  induction gs with
  | nil =>
    intro _ _ A B
    rw [colsFold_nil]
    exact ⟨A, B, rfl⟩
  | cons g gs2 ih =>
    intro hgs hnot A B
    rw [colsFold_cons]
    obtain ⟨A2, B2, hstep⟩ := @colStep_block_preserved f g hf
      (hgs g (List.mem_cons_self _ _))
      (fun h => hnot (h ▸ List.mem_cons_self _ _)) hs hhs A B
    rw [hstep]
    exact ih (fun g2 hg2 => hgs g2 (List.mem_cons_of_mem _ hg2))
      (fun h => hnot (List.mem_cons_of_mem _ h))

lemma rowStep_dichotomy {f : Str} (hf : f ∈ userFacingFields) {hs : List Str}
    (hnd : hs.Nodup) {cols : List Str}
    (hpres : fieldPresent f hs cols = true) (htext : decide (f ∈ textFields) = true)
    (r : Row) :
    (∀ c ∈ hs.map (fun h2 => f ++ sl "::" ++ h2),
      emptyish (rowGet (rowStep hs cols f r) c) = true) ∨
    (∀ c ∈ hs.map (fun h2 => f ++ sl "::" ++ h2),
      emptyish (rowGet (rowStep hs cols f r) c) = false) := by
  unfold rowStep
  rw [if_pos hpres]
  unfold expandRowStep
  rw [htext]
  simp only [if_true]
  unfold fillRow
  cases hfb : firstNonBlank r (hs.map (fun h2 => f ++ sl "::" ++ h2) ++ [f]) with
  | none =>
    left
    intro c hc
    obtain ⟨h2, _, hc2⟩ := List.mem_map.mp hc
    rw [rowGet_rowErase_ne (by rw [← hc2]; exact (bare_ne_variant hf hf).symm)]
    exact firstNonBlank_none_iff.mp hfb c (List.mem_append.mpr (Or.inl hc))
  | some v =>
    right
    intro c hc
    obtain ⟨h2, hh2, hc2⟩ := List.mem_map.mp hc
    rw [rowGet_rowErase_ne (by rw [← hc2]; exact (bare_ne_variant hf hf).symm)]
    rw [fillLoop_mem hc (hnd.map (fun a b hab => List.append_cancel_left hab))]
    by_cases hb : emptyish (rowGet r c) = true
    · rw [if_pos hb]
      show emptyishV v = false
      exact firstNonBlank_some_nonblank hfb
    · rw [if_neg hb]
      exact Bool.eq_false_iff.mpr hb

lemma expandRowStep_id {f : Str} (hf : f ∈ userFacingFields) {hs : List Str} {r : Row}
    (hgone : rowGet r f = none)
    (hdich : decide (f ∈ textFields) = true →
      (∀ c ∈ hs.map (fun h2 => f ++ sl "::" ++ h2), emptyish (rowGet r c) = true) ∨
      (∀ c ∈ hs.map (fun h2 => f ++ sl "::" ++ h2), emptyish (rowGet r c) = false)) :
    expandRowStep (decide (f ∈ textFields)) (hs.map (fun h2 => f ++ sl "::" ++ h2)) f r
      = r := by
  unfold expandRowStep
  by_cases htext : decide (f ∈ textFields) = true
  · rw [htext]
    simp only [if_true]
    have hfill : fillRow (hs.map (fun h2 => f ++ sl "::" ++ h2)) f r = r := by
      unfold fillRow
      cases hfb : firstNonBlank r (hs.map (fun h2 => f ++ sl "::" ++ h2) ++ [f]) with
      | none => rfl
      | some v =>
        dsimp only
        rcases hdich htext with hd | hd
        · exfalso
          have hnone : firstNonBlank r
              (hs.map (fun h2 => f ++ sl "::" ++ h2) ++ [f]) = none := by
            rw [firstNonBlank_none_iff]
            intro k hk
            rcases List.mem_append.mp hk with hk | hk
            · exact hd k hk
            · rw [List.mem_singleton.mp hk, hgone]
              rfl
          rw [hnone] at hfb
          cases hfb
        · exact fillLoop_noop (fun c hc => hd c hc)
    rw [hfill]
    exact rowErase_noop hgone
  · rw [Bool.eq_false_iff.mpr htext]
    simp only [if_false, Bool.false_eq_true]
    exact rowErase_noop hgone

end XLSForm
namespace XLSForm

lemma uFF_split {f : Str} (hf : f ∈ userFacingFields) :
    ∃ pre post, userFacingFields = pre ++ f :: post ∧ f ∉ pre ∧ f ∉ post ∧
      (∀ g ∈ pre, g ∈ userFacingFields) ∧ (∀ g ∈ post, g ∈ userFacingFields) := by
  obtain ⟨pre, post, heq⟩ := List.append_of_mem hf
  have hndsplit : (pre ++ f :: post).Nodup := heq ▸ (by decide : userFacingFields.Nodup)
  refine ⟨pre, post, heq, ?_, ?_, ?_, ?_⟩
  · intro hmem
    exact List.disjoint_of_nodup_append hndsplit hmem (List.mem_cons_self _ _)
  · exact (List.nodup_cons.mp (hndsplit.of_append_right)).1
  · intro g hg
    rw [heq]
    exact List.mem_append.mpr (Or.inl hg)
  · intro g hg
    rw [heq]
    exact List.mem_append.mpr (Or.inr (List.mem_cons_of_mem _ hg))

lemma colStep_not_present {g : Str} {hs cols : List Str}
    (h : fieldPresent g hs cols = false) : colStep hs cols g = cols := by
  unfold colStep
  rw [if_neg (by rw [h]; simp)]

lemma rowStep_not_present {g : Str} {hs cols : List Str} {r : Row}
    (h : fieldPresent g hs cols = false) : rowStep hs cols g r = r := by
  unfold rowStep
  rw [if_neg (by rw [h]; simp)]

lemma colsFold_fieldPresent_uFF {f : Str} (hf : f ∈ userFacingFields)
    {hs : List Str} (hhs : hs ≠ []) (cols2 : List Str) :
    fieldPresent f hs (colsFold hs userFacingFields cols2) =
      fieldPresent f hs cols2 := by
  obtain ⟨pre, post, heq, hfpre, hfpost, hpremem, hpostmem⟩ := uFF_split hf
  rw [heq, colsFold_append, colsFold_cons]
  rw [colsFold_fieldPresent hf hpostmem hfpost]
  have htrans : fieldPresent f hs (colsFold hs pre cols2) = fieldPresent f hs cols2 :=
    colsFold_fieldPresent hf hpremem hfpre
  cases hmid : fieldPresent f hs (colsFold hs pre cols2) with
  | false =>
    rw [colStep_not_present hmid, ← htrans]
  | true =>
    have hmid2 := hmid
    rw [htrans] at hmid2
    rw [hmid2]
    obtain ⟨A, B, hAB⟩ := colStep_makes_block hf hmid
    rw [hAB]
    obtain ⟨h0, hs2, hhs0⟩ := List.exists_cons_of_ne_nil hhs
    apply fieldPresent_true_iff.mpr
    refine Or.inr ⟨h0, hhs0 ▸ List.mem_cons_self _ _, ?_⟩
    rw [List.mem_append, List.mem_append]
    exact Or.inl (Or.inr (List.mem_map.mpr ⟨h0, hhs0 ▸ List.mem_cons_self _ _, rfl⟩))

lemma colsFold_bare_removed {f : Str} (hf : f ∈ userFacingFields)
    {hs : List Str} {cols2 : List Str}
    (hpres : fieldPresent f hs cols2 = true) :
    f ∉ colsFold hs userFacingFields cols2 := by
  obtain ⟨pre, post, heq, hfpre, hfpost, hpremem, hpostmem⟩ := uFF_split hf
  rw [heq, colsFold_append, colsFold_cons]
  have hpresmid : fieldPresent f hs (colsFold hs pre cols2) = true := by
    rw [colsFold_fieldPresent hf hpremem hfpre]
    exact hpres
  intro hmem
  exact (colStep_establish hf hpresmid).1
    ((colsFold_mem_other hf hpostmem hfpost).1.mp hmem)

lemma colsFold_block_final {f : Str} (hf : f ∈ userFacingFields)
    {hs : List Str} (hhs : hs ≠ []) {cols2 : List Str}
    (hpres : fieldPresent f hs cols2 = true) :
    ∃ A B, colsFold hs userFacingFields cols2 =
      A ++ hs.map (fun h2 => f ++ sl "::" ++ h2) ++ B := by
  obtain ⟨pre, post, heq, hfpre, hfpost, hpremem, hpostmem⟩ := uFF_split hf
  rw [heq, colsFold_append, colsFold_cons]
  have hpresmid : fieldPresent f hs (colsFold hs pre cols2) = true := by
    rw [colsFold_fieldPresent hf hpremem hfpre]
    exact hpres
  obtain ⟨A, B, hAB⟩ := colStep_makes_block hf hpresmid
  rw [hAB]
  exact colsFold_block hf hhs hpostmem hfpost

lemma firstRun_row_facts {f : Str} (hf : f ∈ userFacingFields)
    {hs : List Str} (hnd : hs.Nodup) {cols2 : List Str}
    (hpres : fieldPresent f hs cols2 = true) (r1 : Row) :
    rowGet (fieldFold hs userFacingFields cols2 r1) f = none ∧
    (decide (f ∈ textFields) = true →
      (∀ c ∈ hs.map (fun h2 => f ++ sl "::" ++ h2),
        emptyish (rowGet (fieldFold hs userFacingFields cols2 r1) c) = true) ∨
      (∀ c ∈ hs.map (fun h2 => f ++ sl "::" ++ h2),
        emptyish (rowGet (fieldFold hs userFacingFields cols2 r1) c) = false)) := by
  obtain ⟨pre, post, heq, hfpre, hfpost, hpremem, hpostmem⟩ := uFF_split hf
  rw [heq, fieldFold_append, fieldFold_cons]
  have hpresmid : fieldPresent f hs (colsFold hs pre cols2) = true := by
    rw [colsFold_fieldPresent hf hpremem hfpre]
    exact hpres
  have hpostq := @fieldFold_other f hf hs
    post
    (colStep hs (colsFold hs pre cols2) f)
    (rowStep hs (colsFold hs pre cols2) f (fieldFold hs pre cols2 r1))
    hpostmem hfpost
  constructor
  · rw [hpostq.1]
    exact (rowStep_establish hf hnd hpresmid _).1
  · intro htext
    rcases rowStep_dichotomy hf hnd hpresmid htext (fieldFold hs pre cols2 r1)
      with hd | hd
    · left
      intro c hc
      obtain ⟨h2, hh2, hc2⟩ := List.mem_map.mp hc
      rw [← hc2, hpostq.2 h2, hc2]
      exact hd c hc
    · right
      intro c hc
      obtain ⟨h2, hh2, hc2⟩ := List.mem_map.mp hc
      rw [← hc2, hpostq.2 h2, hc2]
      exact hd c hc

lemma phaseACols_id {cols : List Str} {rows2 : List Row} (hnd : cols.Nodup)
    (hfix : ∀ c ∈ cols, nk c = c)
    (hsub : ∀ r ∈ rows2, ∀ k ∈ rowKeys r, k ∈ cols) :
    phaseACols cols rows2 = cols := by
  have hmapid : cols.map nk = cols := by
    rw [List.map_congr_left hfix]
    exact List.map_id cols
  have hdedup : dedupAppend [] cols = cols := by
    rw [dedupAppend_of_disjoint hnd (fun x _ hx => (List.not_mem_nil x) hx)]
    rfl
  have hall : allKeysOf cols rows2 = cols := by
    unfold allKeysOf
    rw [dedupAppend_append, hdedup]
    apply dedupAppend_absorbed
    intro x hx
    rw [List.mem_flatten] at hx
    obtain ⟨l, hl, hxl⟩ := hx
    obtain ⟨r, hr, hrl⟩ := List.mem_map.mp hl
    exact hsub r hr x (hrl ▸ hxl)
  unfold phaseACols
  rw [hmapid, hdedup, hall, hmapid]
  exact dedupAppend_absorbed (fun x hx => hx)

lemma colsFold_id_of_steps {hs : List Str} {cols : List Str} :
    ∀ {gs : List Str}, (∀ g ∈ gs, colStep hs cols g = cols) →
      colsFold hs gs cols = cols := by
  intro gs
  induction gs with
  | nil => intro _; exact colsFold_nil
  | cons g gs2 ih =>
    intro h
    rw [colsFold_cons, h g (List.mem_cons_self _ _)]
    exact ih (fun g2 hg2 => h g2 (List.mem_cons_of_mem _ hg2))

lemma fieldFold_id_of_steps {hs : List Str} {cols : List Str} {r : Row} :
    ∀ {gs : List Str}, (∀ g ∈ gs, colStep hs cols g = cols) →
      (∀ g ∈ gs, rowStep hs cols g r = r) →
      fieldFold hs gs cols r = r := by
  intro gs
  induction gs with
  | nil => intro _ _; exact fieldFold_nil
  | cons g gs2 ih =>
    intro hc hr
    rw [fieldFold_cons, hc g (List.mem_cons_self _ _), hr g (List.mem_cons_self _ _)]
    exact ih (fun g2 hg2 => hc g2 (List.mem_cons_of_mem _ hg2))
      (fun g2 hg2 => hr g2 (List.mem_cons_of_mem _ hg2))

end XLSForm
namespace XLSForm

lemma list_map_self {α : Type} {f : α → α} :
    ∀ {l : List α}, (∀ x ∈ l, f x = x) → l.map f = l := by
  intro l
  induction l with
  | nil => intro _; rfl
  | cons x xs ih =>
    intro h
    rw [List.map_cons, h x (List.mem_cons_self _ _),
      ih (fun y hy => h y (List.mem_cons_of_mem _ hy))]

set_option maxHeartbeats 1000000 in
/-- C2 (amended): the column-and-row normalizer is idempotent on every
input whose keys are stable under a second renaming pass — when
`_normalize_language_column_name` is idempotent on each declared column
and row key, running the normalizer on its own output returns exactly
that output (same columns in the same order, same rows). -/
theorem normalize_idempotent_on_stable_keys
    (columns : List Str) (rows : List Row)
    (H : ∀ k ∈ allKeysOf columns rows, nk (nk k) = nk k) :
    normalizeLanguageColumnsAndRows
      (normalizeLanguageColumnsAndRows columns rows).1
      (normalizeLanguageColumnsAndRows columns rows).2 =
    normalizeLanguageColumnsAndRows columns rows := by
  have hfix2 : ∀ c ∈ phaseACols columns rows, nk c = c := phaseACols_fixed H
  have hnd2 : (phaseACols columns rows).Nodup := phaseACols_nodup columns rows
  have hok : ∀ h ∈ languageHeadersFromColumns (phaseACols columns rows), headerOk h :=
    fun h hm => headers_headerOk hm
  have hndh : (languageHeadersFromColumns (phaseACols columns rows)).Nodup :=
    headers_nodup _
  have htag : ∀ h ∈ languageHeadersFromColumns (phaseACols columns rows),
      (normalizeLanguageTag h).header = h := hs_tag_fix hfix2
  have hex2b : ∀ c ∈ phaseACols columns rows, ∀ h, columnHeader? c = some h →
      h ∈ languageHeadersFromColumns (phaseACols columns rows) :=
    fun c hc h hch => headers_mem_iff.mpr ⟨c, hc, hch⟩
  have hrows1sub : ∀ r ∈ rows.map rebuildRow, ∀ k ∈ rowKeys r,
      k ∈ phaseACols columns rows := by
    intro r hr k hk
    obtain ⟨r0, hr0, hrr⟩ := List.mem_map.mp hr
    rw [← hrr] at hk
    obtain ⟨k0, hk0, hkk⟩ := rebuildRow_keys hk
    rw [hkk]
    exact nk_mem_phaseACols (mem_allKeysOf_of_rowKey hr0 hk0)
  have hrows1nodup : ∀ r ∈ rows.map rebuildRow, (rowKeys r).Nodup := by
    intro r hr
    obtain ⟨r0, _, hrr⟩ := List.mem_map.mp hr
    rw [← hrr]
    exact rebuildRow_nodup r0
  by_cases hhs : languageHeadersFromColumns (phaseACols columns rows) = []
  · have hfirst : normalizeLanguageColumnsAndRows columns rows =
        (phaseACols columns rows, rows.map rebuildRow) := by
      unfold normalizeLanguageColumnsAndRows
      dsimp only
      rw [if_pos hhs]
    rw [hfirst]
    have hpA := phaseACols_id hnd2 hfix2 hrows1sub
    have hrb : (rows.map rebuildRow).map rebuildRow = rows.map rebuildRow := by
      apply list_map_self
      intro r hr
      exact rebuildRow_id (hrows1nodup r hr)
        (fun k hk => hfix2 k (hrows1sub r hr k hk))
    show normalizeLanguageColumnsAndRows (phaseACols columns rows)
        (rows.map rebuildRow) = (phaseACols columns rows, rows.map rebuildRow)
    unfold normalizeLanguageColumnsAndRows
    dsimp only
    rw [hpA, hrb, if_pos hhs]
  · rw [normalize_eq_fold hhs]
    set HS := languageHeadersFromColumns (phaseACols columns rows) with hHS
    set CC := phaseACols columns rows with hCC
    set CF := colsFold HS userFacingFields CC with hCF
    set RF := (rows.map rebuildRow).map (fieldFold HS userFacingFields CC) with hRF
    have hfixF : ∀ c ∈ CF, nk c = c :=
      colsFold_fixed hok htag (fun g hg => hg) hfix2
    have hndF : CF.Nodup := colsFold_nodup hndh hnd2
    have hheadF : languageHeadersFromColumns CF = HS :=
      (colsFold_collect hok hndh (fun g hg => hg) rfl hex2b).1
    have hrowsFsub : ∀ r ∈ RF, ∀ k ∈ rowKeys r, k ∈ CF := by
      intro r hr k hk
      obtain ⟨r1, hr1, hrr⟩ := List.mem_map.mp hr
      rw [← hrr] at hk
      exact fieldFold_keys_sub (hrows1sub r1 hr1) k hk
    have hrowsFnodup : ∀ r ∈ RF, (rowKeys r).Nodup := by
      intro r hr
      obtain ⟨r1, hr1, hrr⟩ := List.mem_map.mp hr
      rw [← hrr]
      exact fieldFold_keys_nodup (hrows1nodup r1 hr1)
    have hcolid : ∀ f ∈ userFacingFields, colStep HS CF f = CF := by
      intro f hf
      cases hp2 : fieldPresent f HS CC with
      | false =>
        apply colStep_not_present
        rw [colsFold_fieldPresent_uFF hf hhs CC]
        exact hp2
      | true =>
        obtain ⟨A, B, hAB⟩ := colsFold_block_final hf hhs hp2
        rw [← hCF] at hAB
        have hfnot : f ∉ CF := colsFold_bare_removed hf hp2
        unfold colStep
        rw [if_pos (by rw [colsFold_fieldPresent_uFF hf hhs CC]; exact hp2)]
        rw [hAB] at hfnot hndF ⊢
        exact expandCols_id hndF (variants_ne_nil hhs) hfnot
    have hrowid : ∀ r ∈ RF, ∀ f ∈ userFacingFields, rowStep HS CF f r = r := by
      intro r hr f hf
      obtain ⟨r1, hr1, hrr⟩ := List.mem_map.mp hr
      cases hp2 : fieldPresent f HS CC with
      | false =>
        apply rowStep_not_present
        rw [colsFold_fieldPresent_uFF hf hhs CC]
        exact hp2
      | true =>
        obtain ⟨hgone, hdich⟩ := firstRun_row_facts hf hndh hp2 r1
        unfold rowStep
        rw [if_pos (by rw [colsFold_fieldPresent_uFF hf hhs CC]; exact hp2)]
        rw [← hrr]
        exact expandRowStep_id hf hgone hdich
    have hpA := phaseACols_id hndF hfixF hrowsFsub
    have hrb : RF.map rebuildRow = RF := by
      apply list_map_self
      intro r hr
      exact rebuildRow_id (hrowsFnodup r hr)
        (fun k hk => hfixF k (hrowsFsub r hr k hk))
    show normalizeLanguageColumnsAndRows CF RF = (CF, RF)
    unfold normalizeLanguageColumnsAndRows
    dsimp only
    rw [hpA, hrb, hheadF, if_neg hhs, expandFold_eq]
    have hcolsid : colsFold HS userFacingFields CF = CF :=
      colsFold_id_of_steps hcolid
    have hrowsid : RF.map (fieldFold HS userFacingFields CF) = RF := by
      apply list_map_self
      intro r hr
      exact fieldFold_id_of_steps hcolid (fun g hg => hrowid r hr g hg)
    rw [hcolsid, hrowsid]

end XLSForm
namespace XLSForm

/-- C2 counterexample: on the single column `label::(x` (no rows) the
normalizer is not idempotent — the first pass canonicalizes the key to
`label::(x(x)` and a second pass re-parses that header and rewrites it
again, so the second output differs from the first. -/
theorem normalize_idempotence_counterexample :
    normalizeLanguageColumnsAndRows
      (normalizeLanguageColumnsAndRows [sl "label::(x"] []).1
      (normalizeLanguageColumnsAndRows [sl "label::(x"] []).2 ≠
    normalizeLanguageColumnsAndRows [sl "label::(x"] [] := by
  decide

/-- Witness for the amended C2: a well-formed sheet whose keys are stable
under renaming, on which the theorem yields idempotence. -/
theorem normalize_idempotent_on_stable_keys_witness :
    (∀ k ∈ allKeysOf [sl "type", sl "label::English (en)"] ([] : List Row),
      nk (nk k) = nk k) ∧
    normalizeLanguageColumnsAndRows
      (normalizeLanguageColumnsAndRows [sl "type", sl "label::English (en)"] []).1
      (normalizeLanguageColumnsAndRows [sl "type", sl "label::English (en)"] []).2 =
    normalizeLanguageColumnsAndRows [sl "type", sl "label::English (en)"] [] :=
  ⟨by decide, normalize_idempotent_on_stable_keys _ _ (by decide)⟩

end XLSForm
